import Mathlib

/-!
# Memory manager: segmentation with demand paging

A shallow embedding of `main.c`.  The C globals reachable from the `MemoryManager`
pointer become one record that is passed explicitly; every C function becomes a
function from the state before the call to the state after it.

Conventions of the embedding

* `size_t` values are naturals below `SIZE_MOD = 2 ^ 64`; `unsigned int` values are
  naturals below `UINT_MOD = 2 ^ 32`.  Where the C arithmetic can wrap, the
  reduction is written out.
* A pointer into `physical_memory` is the index of the byte it points to; `NULL` is
  `none`.
* An access the C standard leaves undefined (reading through a null segment
  pointer, indexing an array outside its allocation) is the result
  `Except.error`; such a call has no successor state.
* `malloc` and `calloc` are taken to succeed.  The bytes `malloc` returns are
  indeterminate, so `init_memory_manager` takes them as its argument.
* Console output is not part of the state; the return site of a function (which
  decides what is printed) is recorded in the status the function returns.
-/

namespace MemMgr

/-! ## Constants and data model -/

abbrev PAGE_SIZE : Nat := 512
abbrev NUM_PAGES : Nat := 256
abbrev MEMORY_SIZE : Nat := PAGE_SIZE * NUM_PAGES
abbrev SEGMENT_COUNT : Nat := 1

/-- Modulus of `size_t` arithmetic. -/
abbrev SIZE_MOD : Nat := 2 ^ 64

/-- Modulus of `unsigned int` arithmetic. -/
abbrev UINT_MOD : Nat := 2 ^ 32

/-- One byte of memory (`char`). -/
abbrev Byte : Type := UInt8

structure PageTableEntry where
  page_number : Nat
  valid : Nat
deriving DecidableEq, Repr

/-- A segment: `page_table` is the `calloc`ed array, its length the number of cells
that were allocated. -/
structure Segment where
  page_table : List PageTableEntry
  size : Nat
deriving DecidableEq, Repr

/-- The manager: `segments[i] = none` is the null pointer; `page_frames` is the
`calloc`ed array of `NUM_PAGES` cells; `physical_memory a` is the byte at index `a` of
the `MEMORY_SIZE`-byte store. -/
structure MemoryManager where
  segments : List (Option Segment)
  physical_memory : Nat → Byte
  page_frames : List Nat

/-- Undefined behaviour of the C program. -/
inductive Fault where
  | null_deref
  | out_of_bounds
deriving DecidableEq, Repr

/-- What `resolve_address` returns, tagged with the return site. -/
inductive Resolved where
  /-- line 105: pointer to byte `a` of the physical store -/
  | address (a : Nat)
  /-- line 84: `NULL`, segment absent or `offset >= segment->size` -/
  | out_of_range
  /-- line 96: `NULL` after "Error: No free pages!" -/
  | no_free_pages
deriving DecidableEq, Repr

/-- The pointer value the caller of `resolve_address` sees. -/
def Resolved.ptr : Resolved → Option Nat
  | .address a => some a
  | .out_of_range => none
  | .no_free_pages => none

/-- Return site of `write_memory`. -/
inductive WriteStatus where
  /-- line 114: "Error: Segment not found!" -/
  | segment_not_found
  /-- line 129: "Error: Inaccessable address!" at loop index `i` -/
  | inaccessible (i : Nat)
  /-- line 134: all bytes stored -/
  | written
deriving DecidableEq, Repr

/-- Return site of `read_memory`. -/
inductive ReadStatus where
  /-- line 168: "Error: Segment not found!" -/
  | segment_not_found
  /-- line 172: "Error: Page is invalid. Unable to read data" -/
  | page_invalid
  /-- line 189: "Error: Inaccessable address!" at loop index `i` -/
  | inaccessible (i : Nat)
  /-- line 194: all bytes copied -/
  | completed
deriving DecidableEq, Repr

/-- Return site of `free_page`. -/
inductive FreeStatus where
  /-- line 141: segment absent or offset outside the segment -/
  | not_found_or_range
  /-- line 149: "Error: Page invalid, can't free" -/
  | page_invalid
  /-- line 157: frame `frame` released -/
  | freed (frame : Nat)
deriving DecidableEq, Repr

/-! ## Memory primitives -/

/-- Effect of `memcpy(addr, src, 1)` on the store. -/
def store (mem : Nat → Byte) (addr : Nat) (b : Byte) : Nat → Byte :=
  fun a => if a = addr then b else mem a

/-- Effect of `memset(base, 0, PAGE_SIZE)` on the store. -/
def zero_range (mem : Nat → Byte) (base : Nat) : Nat → Byte :=
  fun a => if base ≤ a ∧ a < base + PAGE_SIZE then 0 else mem a

/-- Read of `manager->segments[segment_index]`. -/
def segment_at (m : MemoryManager) (segment_index : Int) : Except Fault (Option Segment) :=
  if segment_index < 0 then .error .out_of_bounds
  else
    match m.segments[segment_index.toNat]? with
    | none => .error .out_of_bounds
    | some s => .ok s

/-! ## The operations -/

/-- Loop of `allocate_page`, at index `i` with `fuel` iterations left. -/
def allocate_page_loop (m : MemoryManager) : Nat → Nat → Except Fault (MemoryManager × Option Nat)
  | 0, _ => .ok (m, none)
  | fuel + 1, i =>
    match m.page_frames[i]? with
    | none => .error .out_of_bounds
    | some v =>
      if v = 0 then .ok ({ m with page_frames := m.page_frames.set i 1 }, some i)
      else allocate_page_loop m fuel (i + 1)

/-- Lines 26-34.  The result `none` is the return value `-1`. -/
def allocate_page (m : MemoryManager) : Except Fault (MemoryManager × Option Nat) :=
  allocate_page_loop m NUM_PAGES 0

/-- Lines 36-45.  `garbage` is the indeterminate content of the `malloc`ed store. -/
def init_memory_manager (garbage : Nat → Byte) : MemoryManager :=
  { segments := List.replicate SEGMENT_COUNT none
    physical_memory := garbage
    page_frames := List.replicate NUM_PAGES 0 }

/-- Number of page-table cells computed at lines 50 and 68. -/
def num_pages (size : Nat) : Nat :=
  (size + PAGE_SIZE - 1) % SIZE_MOD / PAGE_SIZE

/-- Loop of `allocate_segment`, at slot `i` with `fuel` iterations left. -/
def allocate_segment_loop (m : MemoryManager) (size : Nat) :
    Nat → Nat → Except Fault (MemoryManager × Option Nat)
  | 0, _ => .ok (m, none)
  | fuel + 1, i =>
    match m.segments[i]? with
    | none => .error .out_of_bounds
    | some (some _) => allocate_segment_loop m size fuel (i + 1)
    | some none =>
      let segment : Segment :=
        { size := size, page_table := List.replicate (num_pages size) ⟨0, 0⟩ }
      .ok ({ m with segments := m.segments.set i (some segment) }, some i)

/-- Lines 47-63.  The result `none` is the return value `-1`. -/
def allocate_segment (m : MemoryManager) (size : Nat) :
    Except Fault (MemoryManager × Option Nat) :=
  allocate_segment_loop m size SEGMENT_COUNT 0

/-- Loop of `free_segment` (lines 70-74) over the frame bitmap. -/
def free_segment_loop (page_table : List PageTableEntry) :
    Nat → Nat → List Nat → Except Fault (List Nat)
  | 0, _, frames => .ok frames
  | fuel + 1, i, frames =>
    match page_table[i]? with
    | none => .error .out_of_bounds
    | some e =>
      if e.valid ≠ 0 then
        if e.page_number < frames.length then
          free_segment_loop page_table fuel (i + 1) (frames.set e.page_number 0)
        else .error .out_of_bounds
      else free_segment_loop page_table fuel (i + 1) frames

/-- Lines 65-79. -/
def free_segment (m : MemoryManager) (segment_index : Int) : Except Fault MemoryManager :=
  if 0 ≤ segment_index ∧ segment_index < SEGMENT_COUNT then
    match m.segments[segment_index.toNat]? with
    | none => .error .out_of_bounds
    | some none => .ok m
    | some (some segment) =>
      match free_segment_loop segment.page_table (num_pages segment.size) 0 m.page_frames with
      | .error f => .error f
      | .ok frames =>
        .ok { m with page_frames := frames
                     segments := m.segments.set segment_index.toNat none }
  else .ok m

/-- Lines 81-106. -/
def resolve_address (m : MemoryManager) (segment_index : Int) (offset : Nat) :
    Except Fault (MemoryManager × Resolved) :=
  match segment_at m segment_index with
  | .error f => .error f
  | .ok none => .ok (m, .out_of_range)
  | .ok (some segment) =>
    if offset ≥ segment.size then .ok (m, .out_of_range)
    else
      let page_index := offset / PAGE_SIZE
      let page_offset := offset % PAGE_SIZE
      match segment.page_table[page_index]? with
      | none => .error .out_of_bounds
      | some entry =>
        if entry.valid = 0 then
          match allocate_page m with
          | .error f => .error f
          | .ok (m1, none) => .ok (m1, .no_free_pages)
          | .ok (m1, some frame_number) =>
            let entry1 : PageTableEntry := { page_number := frame_number % UINT_MOD, valid := 1 }
            let segment1 : Segment :=
              { segment with page_table := segment.page_table.set page_index entry1 }
            .ok ({ m1 with segments := m1.segments.set segment_index.toNat (some segment1) },
                 .address (entry1.page_number * PAGE_SIZE % UINT_MOD + page_offset))
        else .ok (m, .address (entry.page_number * PAGE_SIZE % UINT_MOD + page_offset))

/-- Loop of `write_memory` (lines 118-131), at index `i` with `fuel` iterations left. -/
def write_loop (segment_index : Int) (data : Nat → Byte) (offset : Nat) :
    Nat → Nat → MemoryManager → Except Fault (MemoryManager × WriteStatus)
  | 0, _, m => .ok (m, .written)
  | fuel + 1, i, m =>
    match resolve_address m segment_index ((offset + i) % SIZE_MOD) with
    | .error f => .error f
    | .ok (m1, r) =>
      match r.ptr with
      | some addr =>
        if addr < MEMORY_SIZE then
          write_loop segment_index data offset fuel (i + 1)
            { m1 with physical_memory := store m1.physical_memory addr (data i) }
        else .error .out_of_bounds
      | none => .ok (m1, .inaccessible i)

/-- Lines 108-135.  `data i` is the byte at `data + i`. -/
def write_memory (m : MemoryManager) (segment_index : Int) (data : Nat → Byte)
    (size offset : Nat) : Except Fault (MemoryManager × WriteStatus) :=
  match segment_at m segment_index with
  | .error f => .error f
  | .ok none => .ok (m, .segment_not_found)
  | .ok (some _) => write_loop segment_index data offset size 0 m

/-- Lines 137-158. -/
def free_page (m : MemoryManager) (segment_index : Int) (offset : Nat) :
    Except Fault (MemoryManager × FreeStatus) :=
  match segment_at m segment_index with
  | .error f => .error f
  | .ok none => .ok (m, .not_found_or_range)
  | .ok (some segment) =>
    if offset ≥ segment.size then .ok (m, .not_found_or_range)
    else
      let page_index := offset / PAGE_SIZE
      match segment.page_table[page_index]? with
      | none => .error .out_of_bounds
      | some entry =>
        if entry.valid = 0 then .ok (m, .page_invalid)
        else if entry.page_number < m.page_frames.length then
          let base := entry.page_number * PAGE_SIZE % UINT_MOD
          if base + PAGE_SIZE ≤ MEMORY_SIZE then
            let segment1 : Segment :=
              { segment with
                page_table := segment.page_table.set page_index { entry with valid := 0 } }
            .ok ({ segments := m.segments.set segment_index.toNat (some segment1)
                   page_frames := m.page_frames.set entry.page_number 0
                   physical_memory := zero_range m.physical_memory base },
                 .freed entry.page_number)
          else .error .out_of_bounds
        else .error .out_of_bounds

/-- Loop of `read_memory` (lines 177-191), at index `i` with `fuel` iterations left. -/
def read_loop (segment_index : Int) (offset : Nat) :
    Nat → Nat → MemoryManager → (Nat → Byte) →
      Except Fault (MemoryManager × (Nat → Byte) × ReadStatus)
  | 0, _, m, buffer => .ok (m, buffer, .completed)
  | fuel + 1, i, m, buffer =>
    match resolve_address m segment_index ((offset + i) % SIZE_MOD) with
    | .error f => .error f
    | .ok (m1, r) =>
      match r.ptr with
      | some addr =>
        if addr < MEMORY_SIZE then
          read_loop segment_index offset fuel (i + 1) m1
            (store buffer i (m1.physical_memory addr))
        else .error .out_of_bounds
      | none => .ok (m1, buffer, .inaccessible i)

/-- Lines 160-195.  `buffer i` is the byte at `buffer + i`.  Line 165 loads
`segment->page_table` before the null test of line 166, and line 170 reads the
entry at `offset / PAGE_SIZE` without a bounds test. -/
def read_memory (m : MemoryManager) (segment_index : Int) (buffer : Nat → Byte)
    (size offset : Nat) : Except Fault (MemoryManager × (Nat → Byte) × ReadStatus) :=
  match segment_at m segment_index with
  | .error f => .error f
  | .ok none => .error .null_deref
  | .ok (some segment) =>
    let page_index := offset / PAGE_SIZE
    match segment.page_table[page_index]? with
    | none => .error .out_of_bounds
    | some entry =>
      if entry.valid = 0 then .ok (m, buffer, .page_invalid)
      else read_loop segment_index offset size 0 m buffer

/-! ## Reachable states and the invariant -/

/-- One call of the interface that returns normally (no undefined behaviour).
Arguments of type `size_t` are below `SIZE_MOD`. -/
inductive Step : MemoryManager → MemoryManager → Prop where
  | alloc_seg {m m1 : MemoryManager} (size : Nat) (r : Option Nat) :
      size < SIZE_MOD → allocate_segment m size = .ok (m1, r) → Step m m1
  | free_seg {m m1 : MemoryManager} (segment_index : Int) :
      free_segment m segment_index = .ok m1 → Step m m1
  | resolve {m m1 : MemoryManager} (segment_index : Int) (offset : Nat) (r : Resolved) :
      offset < SIZE_MOD → resolve_address m segment_index offset = .ok (m1, r) → Step m m1
  | write {m m1 : MemoryManager} (segment_index : Int) (data : Nat → Byte)
      (size offset : Nat) (st : WriteStatus) :
      size < SIZE_MOD → offset < SIZE_MOD →
      write_memory m segment_index data size offset = .ok (m1, st) → Step m m1
  | read {m m1 : MemoryManager} (segment_index : Int) (buffer buffer1 : Nat → Byte)
      (size offset : Nat) (st : ReadStatus) :
      size < SIZE_MOD → offset < SIZE_MOD →
      read_memory m segment_index buffer size offset = .ok (m1, buffer1, st) → Step m m1
  | free_pg {m m1 : MemoryManager} (segment_index : Int) (offset : Nat) (st : FreeStatus) :
      offset < SIZE_MOD → free_page m segment_index offset = .ok (m1, st) → Step m m1

/-- States reachable from `init_memory_manager` by calls of the interface. -/
inductive Reachable : MemoryManager → Prop where
  | init (garbage : Nat → Byte) : Reachable (init_memory_manager garbage)
  | step {m m1 : MemoryManager} : Reachable m → Step m m1 → Reachable m1

/-- Handle `segment_index` names the live segment `seg`. -/
abbrev Live (m : MemoryManager) (segment_index : Int) (seg : Segment) : Prop :=
  0 ≤ segment_index ∧ m.segments[segment_index.toNat]? = some (some seg)

/-- Entry `e` is cell `p` of the page table of the live segment in slot `s`. -/
def EntryAt (m : MemoryManager) (s p : Nat) (e : PageTableEntry) : Prop :=
  ∃ seg, m.segments[s]? = some (some seg) ∧ seg.page_table[p]? = some e

/-- Consistency of page tables and frame bitmap. -/
structure Inv (m : MemoryManager) : Prop where
  segments_length : m.segments.length = SEGMENT_COUNT
  frames_length : m.page_frames.length = NUM_PAGES
  seg_size : ∀ (s : Nat) (seg : Segment), m.segments[s]? = some (some seg) →
    seg.size < SIZE_MOD ∧ seg.page_table.length = num_pages seg.size
  frame_marked : ∀ s p e, EntryAt m s p e → e.valid ≠ 0 →
    e.page_number < NUM_PAGES ∧ m.page_frames[e.page_number]? = some 1
  frame_unique : ∀ s1 p1 e1 s2 p2 e2, EntryAt m s1 p1 e1 → EntryAt m s2 p2 e2 →
    e1.valid ≠ 0 → e2.valid ≠ 0 → e1.page_number = e2.page_number → s1 = s2 ∧ p1 = p2
  frame_used : ∀ (f v : Nat), m.page_frames[f]? = some v → v ≠ 0 →
    v = 1 ∧ ∃ s p e, EntryAt m s p e ∧ e.valid ≠ 0 ∧ e.page_number = f

/-- Frame `g` is referenced by a valid entry of the page table of `seg`. -/
def HoldsFrame (seg : Segment) (g : Nat) : Prop :=
  ∃ (p : Nat) (e : PageTableEntry),
    seg.page_table[p]? = some e ∧ e.valid ≠ 0 ∧ e.page_number = g

/-- Frames held by the valid entries of one slot. -/
def slot_frames : Option Segment → List Nat
  | none => []
  | some seg => (seg.page_table.filter (fun e => decide (e.valid ≠ 0))).map (fun e => e.page_number)

/-- Frames held by valid page-table entries, over all live segments, with
multiplicity. -/
def valid_frames (m : MemoryManager) : List Nat :=
  m.segments.flatMap slot_frames

/-- Number of valid page-table entries over all live segments. -/
def valid_count (m : MemoryManager) : Nat :=
  (valid_frames m).length

/-- Physical index of `offset` in segment `segment_index` when its page is mapped:
the lookup of `resolve_address` without the fault path. -/
def mapped_address (m : MemoryManager) (segment_index : Int) (offset : Nat) : Option Nat :=
  match segment_at m segment_index with
  | .ok (some segment) =>
    if offset < segment.size then
      match segment.page_table[offset / PAGE_SIZE]? with
      | some entry =>
        if entry.valid ≠ 0 then
          some (entry.page_number * PAGE_SIZE % UINT_MOD + offset % PAGE_SIZE)
        else none
      | none => none
    else none
  | _ => none

/-- State after the fault path of `resolve_address` (lines 92-99) has given frame `f`
to page `p` of segment `seg` in slot `s`. -/
def fault_state (m : MemoryManager) (s p f : Nat) (seg : Segment) : MemoryManager :=
  { segments := m.segments.set s
      (some { seg with page_table := seg.page_table.set p { page_number := f, valid := 1 } })
    physical_memory := m.physical_memory
    page_frames := m.page_frames.set f 1 }

/-- State after `free_page` (lines 152-155) has released the frame of the valid entry
`e` at page `p` of segment `seg` in slot `s`. -/
def freed_state (m : MemoryManager) (s p : Nat) (seg : Segment) (e : PageTableEntry) :
    MemoryManager :=
  { segments := m.segments.set s
      (some { seg with page_table := seg.page_table.set p { e with valid := 0 } })
    page_frames := m.page_frames.set e.page_number 0
    physical_memory := zero_range m.physical_memory (e.page_number * PAGE_SIZE % UINT_MOD) }

/-- The segment `allocate_segment` builds (lines 50-57). -/
def fresh_segment (size : Nat) : Segment :=
  { size := size, page_table := List.replicate (num_pages size) ⟨0, 0⟩ }

/-! ## Call sequences, for concrete states -/

/-- One call of the interface with its arguments. -/
inductive Call where
  | alloc_seg (size : Nat)
  | free_seg (segment_index : Int)
  | resolve (segment_index : Int) (offset : Nat)
  | write (segment_index : Int) (data : Nat → Byte) (size offset : Nat)
  | read (segment_index : Int) (buffer : Nat → Byte) (size offset : Nat)
  | free_pg (segment_index : Int) (offset : Nat)

/-- State after one call; `none` when the call is undefined or an argument is not a
`size_t` value. -/
def Call.run (m : MemoryManager) : Call → Option MemoryManager
  | .alloc_seg size =>
    if size < SIZE_MOD then
      match allocate_segment m size with
      | .ok (m1, _) => some m1
      | .error _ => none
    else none
  | .free_seg idx =>
    match free_segment m idx with
    | .ok m1 => some m1
    | .error _ => none
  | .resolve idx offset =>
    if offset < SIZE_MOD then
      match resolve_address m idx offset with
      | .ok (m1, _) => some m1
      | .error _ => none
    else none
  | .write idx data size offset =>
    if size < SIZE_MOD ∧ offset < SIZE_MOD then
      match write_memory m idx data size offset with
      | .ok (m1, _) => some m1
      | .error _ => none
    else none
  | .read idx buffer size offset =>
    if size < SIZE_MOD ∧ offset < SIZE_MOD then
      match read_memory m idx buffer size offset with
      | .ok (m1, _, _) => some m1
      | .error _ => none
    else none
  | .free_pg idx offset =>
    if offset < SIZE_MOD then
      match free_page m idx offset with
      | .ok (m1, _) => some m1
      | .error _ => none
    else none

/-- State after a sequence of calls. -/
def run_calls : List Call → MemoryManager → Option MemoryManager
  | [], m => some m
  | c :: cs, m =>
    match c.run m with
    | some m1 => run_calls cs m1
    | none => none

/-- State reached from `init_memory_manager garbage` by the calls `cs` (the initial
state when some call is undefined). -/
def script_state (garbage : Nat → Byte) (cs : List Call) : MemoryManager :=
  (run_calls cs (init_memory_manager garbage)).getD (init_memory_manager garbage)

/-- Store content used in examples: every byte `0xAA`. -/
def demo_garbage : Nat → Byte := fun _ => 0xAA

/-- The bytes of `float data_float = 3.14` (line 223), little endian. -/
def float_bytes : Nat → Byte := fun i => [0xC3, 0xF5, 0x48, 0x40].getD i 0

/-- A caller buffer holding zeroes. -/
def zero_buffer : Nat → Byte := fun _ => 0

/-- State of `main` after line 200: one segment of 8192 bytes. -/
def alloc_state : MemoryManager :=
  script_state demo_garbage [.alloc_seg 8192]

/-- State of `main` restricted to the float part, after line 225: the segment is
created and four bytes are written at offset 200. -/
def written_state : MemoryManager :=
  script_state demo_garbage [.alloc_seg 8192, .write 0 float_bytes 4 200]

/-- The segment of `written_state`: page 0 is mapped to frame 0. -/
def written_segment : Segment :=
  { size := 8192, page_table := (List.replicate 16 ⟨0, 0⟩).set 0 ⟨0, 1⟩ }

/-- The float part of `main` (lines 200, 225, 231): the segment is created, four bytes
are written at offset 200 and the page is freed. -/
def freed_page_state : MemoryManager :=
  script_state demo_garbage [.alloc_seg 8192, .write 0 float_bytes 4 200, .free_pg 0 200]

/-- Four bytes of data, "abcd". -/
def abcd_bytes : Nat → Byte := fun i => [0x61, 0x62, 0x63, 0x64].getD i 0

/-- One segment of two bytes (one page), nothing mapped yet. -/
def short_state : MemoryManager :=
  script_state demo_garbage [.alloc_seg 2]

/-- The state `short_state` after `write_memory` of the four bytes "abcd" at offset 0:
the write stops at index 2, the first offset outside the segment. -/
def short_written : MemoryManager :=
  script_state demo_garbage [.alloc_seg 2, .write 0 abcd_bytes 4 0]

/-- The state `written_state` after `read_memory` of four bytes at offset 510, a range
that starts on the mapped page 0 and ends on page 1. -/
def read_across_state : MemoryManager :=
  script_state demo_garbage
    [.alloc_seg 8192, .write 0 float_bytes 4 200, .read 0 zero_buffer 4 510]

/-- Pages 0 and 1 mapped, then page 0 freed by `free_page(0, 0)`. -/
def leak_freed_state : MemoryManager :=
  script_state demo_garbage [.alloc_seg 8192, .resolve 0 0, .resolve 0 512, .free_pg 0 0]

/-- After `leak_freed_state`, a fault on page 2 takes the zeroed frame 0. -/
def leak_other_state : MemoryManager :=
  script_state demo_garbage
    [.alloc_seg 8192, .resolve 0 0, .resolve 0 512, .free_pg 0 0, .resolve 0 1024]

/-- After `leak_other_state`, a fault on page 0 maps it again, to frame 2. -/
def leak_state : MemoryManager :=
  script_state demo_garbage
    [.alloc_seg 8192, .resolve 0 0, .resolve 0 512, .free_pg 0 0, .resolve 0 1024,
     .resolve 0 0]

/-- On a zero-filled store: byte `0x61` written to pages 0 and 1, page 0 freed by
`free_page`. -/
def reuse_freed_state : MemoryManager :=
  script_state zero_buffer
    [.alloc_seg 8192, .write 0 abcd_bytes 1 0, .write 0 abcd_bytes 1 512, .free_pg 0 0]

/-- After `reuse_freed_state`: the segment is destroyed, a new one is created in the
same slot and its page 1 is faulted in (it takes frame 0). -/
def reuse_other_state : MemoryManager :=
  script_state zero_buffer
    [.alloc_seg 8192, .write 0 abcd_bytes 1 0, .write 0 abcd_bytes 1 512, .free_pg 0 0,
     .free_seg 0, .alloc_seg 8192, .resolve 0 512]

/-- After `reuse_other_state`, a fault on page 0 maps it to frame 1, which
`free_segment` released without clearing. -/
def reuse_state : MemoryManager :=
  script_state zero_buffer
    [.alloc_seg 8192, .write 0 abcd_bytes 1 0, .write 0 abcd_bytes 1 512, .free_pg 0 0,
     .free_seg 0, .alloc_seg 8192, .resolve 0 512, .resolve 0 0]

/-- Segment of 257 pages whose first `k` pages are mapped, page `i` to frame `i`. -/
def faulted_segment (k : Nat) : Segment :=
  { size := 131584
    page_table :=
      (List.range 257).map (fun i => if i < k then ⟨i, 1⟩ else ⟨0, 0⟩) }

/-- State after `allocate_segment(131584)` on a zero-filled store and a fault on each
of the pages `0 .. k-1` in turn (`resolve_address` at offsets `0, 512, ...`). -/
def faulted (k : Nat) : MemoryManager :=
  { segments := [some (faulted_segment k)]
    physical_memory := fun _ => 0
    page_frames := (List.range 256).map (fun i => if i < k then 1 else 0) }

/-- Two pages of one segment mapped: `main` after line 200, then faults at offsets 0
and 512. -/
def two_page_state : MemoryManager :=
  script_state demo_garbage [.alloc_seg 8192, .resolve 0 0, .resolve 0 512]

/-- State of `main` after line 200, then one fault at offset 700 (page 1). -/
def one_fault_state : MemoryManager :=
  script_state demo_garbage [.alloc_seg 8192, .resolve 0 700]

/-- The segment of `two_page_state`. -/
def two_page_segment : Segment :=
  { size := 8192, page_table := ((List.replicate 16 ⟨0, 0⟩).set 0 ⟨0, 1⟩).set 1 ⟨1, 1⟩ }

/-- Mathematical ceiling of `size / PAGE_SIZE`: the page count that invariant I2 of
the specification asks for. -/
def ceil_pages (size : Nat) : Nat :=
  if size % PAGE_SIZE = 0 then size / PAGE_SIZE else size / PAGE_SIZE + 1

/-- Largest `size_t` value. -/
abbrev SIZE_MAX : Nat := 18446744073709551615

/-- State after `allocate_segment(SIZE_MAX)` on the initial state. -/
def huge_state : MemoryManager :=
  script_state demo_garbage [.alloc_seg SIZE_MAX]

/-- Frames whose bitmap cell is 1. -/
def allocated_frames (m : MemoryManager) : List Nat :=
  (List.range NUM_PAGES).filter (fun f => decide (m.page_frames[f]? = some 1))

/-- Number of allocated frames. -/
def allocated_count (m : MemoryManager) : Nat :=
  (allocated_frames m).length

/-- The page table of `seg` has a cell for every page of its `size` bytes. -/
def Covered (seg : Segment) : Prop :=
  seg.size ≤ PAGE_SIZE * seg.page_table.length

/-- The state `written_state` after a second write, of "abcd" at offset 0 (the same
page as offset 200). -/
def second_write_state : MemoryManager :=
  script_state demo_garbage
    [.alloc_seg 8192, .write 0 float_bytes 4 200, .write 0 abcd_bytes 4 0]

/-- Number of free frames: bitmap cells that are 0. -/
def free_count (m : MemoryManager) : Nat :=
  ((List.range NUM_PAGES).filter (fun f => decide (m.page_frames[f]? = some 0))).length

/-- Page `p` of the segment is not yet valid: its page-table entry is not valid, or
the table has no cell for it. -/
def page_unmapped (seg : Segment) (p : Nat) : Bool :=
  match seg.page_table[p]? with
  | some e => decide (e.valid = 0)
  | none => true

/-- Number of not-yet-valid pages among the pages `lo .. hi` of the segment. -/
def unmapped_count (seg : Segment) (lo hi : Nat) : Nat :=
  ((List.range (hi + 1)).filter (fun p => decide (lo ≤ p) && page_unmapped seg p)).length

/-! ## Frame allocator -/

set_option maxRecDepth 100000

theorem allocate_page_loop_spec (m : MemoryManager) :
    ∀ fuel i, i + fuel ≤ m.page_frames.length →
      (∃ f, i ≤ f ∧ f < i + fuel ∧ m.page_frames[f]? = some 0 ∧
          (∀ j, i ≤ j → j < f → m.page_frames[j]? ≠ some 0) ∧
          allocate_page_loop m fuel i =
            .ok ({ m with page_frames := m.page_frames.set f 1 }, some f)) ∨
      ((∀ j, i ≤ j → j < i + fuel → m.page_frames[j]? ≠ some 0) ∧
          allocate_page_loop m fuel i = .ok (m, none)) := by
  intro fuel
  induction fuel with
  | zero =>
    intro i _
    right
    exact ⟨fun j h1 h2 => by omega, rfl⟩
  | succ k ih =>
    intro i hi
    have hlt : i < m.page_frames.length := by omega
    obtain ⟨v, hv⟩ : ∃ v, m.page_frames[i]? = some v := ⟨_, List.getElem?_eq_getElem hlt⟩
    by_cases hz : v = 0
    · left
      subst hz
      refine ⟨i, le_refl _, by omega, hv, fun j h1 h2 => by omega, ?_⟩
      simp [allocate_page_loop, hv]
    · rcases ih (i + 1) (by omega) with ⟨f, h1, h2, h3, h4, h5⟩ | ⟨h1, h2⟩
      · left
        refine ⟨f, by omega, by omega, h3, ?_, ?_⟩
        · intro j hj1 hj2
          by_cases hji : j = i
          · subst hji
            simp [hv, hz]
          · exact h4 j (by omega) hj2
        · simp [allocate_page_loop, hv, hz, h5]
      · right
        refine ⟨?_, ?_⟩
        · intro j hj1 hj2
          by_cases hji : j = i
          · subst hji
            simp [hv, hz]
          · exact h1 j (by omega) (by omega)
        · simp [allocate_page_loop, hv, hz, h2]

theorem allocate_page_spec (m : MemoryManager) (hlen : m.page_frames.length = NUM_PAGES) :
    (∃ f, f < NUM_PAGES ∧ m.page_frames[f]? = some 0 ∧
        (∀ j, j < f → m.page_frames[j]? ≠ some 0) ∧
        allocate_page m = .ok ({ m with page_frames := m.page_frames.set f 1 }, some f)) ∨
    ((∀ j, j < NUM_PAGES → m.page_frames[j]? ≠ some 0) ∧ allocate_page m = .ok (m, none)) := by
  rcases allocate_page_loop_spec m NUM_PAGES 0 (by omega) with ⟨f, _, h2, h3, h4, h5⟩ | ⟨h1, h2⟩
  · left
    exact ⟨f, by omega, h3, fun j hj => h4 j (Nat.zero_le _) hj, h5⟩
  · right
    exact ⟨fun j hj => h1 j (Nat.zero_le _) (by omega), h2⟩

/-! ## Address translation -/

theorem segment_at_ok {m : MemoryManager} {idx : Int} {o : Option Segment}
    (h : segment_at m idx = .ok o) : 0 ≤ idx ∧ m.segments[idx.toNat]? = some o := by
  unfold segment_at at h
  split at h
  · cases h
  · split at h
    · cases h
    · rename_i s hs
      cases h
      exact ⟨by omega, hs⟩

theorem segment_at_of_get {m : MemoryManager} {idx : Int} {o : Option Segment}
    (h0 : 0 ≤ idx) (h : m.segments[idx.toNat]? = some o) : segment_at m idx = .ok o := by
  unfold segment_at
  rw [if_neg (by omega), h]

theorem resolve_address_cases {m m1 : MemoryManager} {idx : Int} {off : Nat} {r : Resolved}
    (hlen : m.page_frames.length = NUM_PAGES)
    (h : resolve_address m idx off = .ok (m1, r)) :
    (m1 = m ∧ r = .out_of_range ∧
      (segment_at m idx = .ok none ∨
        ∃ seg, segment_at m idx = .ok (some seg) ∧ seg.size ≤ off)) ∨
    (∃ seg e, segment_at m idx = .ok (some seg) ∧ off < seg.size ∧
      seg.page_table[off / PAGE_SIZE]? = some e ∧
      ((e.valid ≠ 0 ∧ m1 = m ∧
          r = .address (e.page_number * PAGE_SIZE % UINT_MOD + off % PAGE_SIZE)) ∨
       (e.valid = 0 ∧ m1 = m ∧ r = .no_free_pages ∧
          ∀ j, j < NUM_PAGES → m.page_frames[j]? ≠ some 0) ∨
       (e.valid = 0 ∧ ∃ f, f < NUM_PAGES ∧ m.page_frames[f]? = some 0 ∧
          (∀ j, j < f → m.page_frames[j]? ≠ some 0) ∧
          m1 = fault_state m idx.toNat (off / PAGE_SIZE) f seg ∧
          r = .address (f * PAGE_SIZE + off % PAGE_SIZE)))) := by
  unfold resolve_address at h
  split at h
  · cases h
  · rename_i hs
    cases h
    exact Or.inl ⟨rfl, rfl, Or.inl hs⟩
  · rename_i seg hs
    split at h
    · rename_i hge
      cases h
      exact Or.inl ⟨rfl, rfl, Or.inr ⟨seg, hs, hge⟩⟩
    · rename_i hlt
      right
      simp only at h
      split at h
      · cases h
      · rename_i e he
        refine ⟨seg, e, hs, by omega, he, ?_⟩
        split at h
        · rename_i hv
          right
          rcases allocate_page_spec m hlen with ⟨f, hf, hf0, hmin, hal⟩ | ⟨hnone, hal⟩
          · right
            rw [hal] at h
            simp only [Except.ok.injEq, Prod.mk.injEq] at h
            have hfm : f % UINT_MOD = f :=
              Nat.mod_eq_of_lt (by simp only [NUM_PAGES, UINT_MOD] at *; omega)
            have hfm2 : f * PAGE_SIZE % UINT_MOD = f * PAGE_SIZE :=
              Nat.mod_eq_of_lt (by simp only [NUM_PAGES, UINT_MOD, PAGE_SIZE] at *; omega)
            rw [hfm, hfm2] at h
            exact ⟨hv, f, hf, hf0, hmin, h.1.symm, h.2.symm⟩
          · left
            rw [hal] at h
            simp only [Except.ok.injEq, Prod.mk.injEq] at h
            exact ⟨hv, h.1.symm, h.2.symm, hnone⟩
        · rename_i hv
          left
          simp only [Except.ok.injEq, Prod.mk.injEq] at h
          exact ⟨hv, h.1.symm, h.2.symm⟩

/-! ## The invariant is preserved -/

theorem init_no_segment (garbage : Nat → Byte) (s : Nat) (seg : Segment) :
    (init_memory_manager garbage).segments[s]? ≠ some (some seg) := by
  intro h
  simp only [init_memory_manager, List.getElem?_replicate] at h
  split at h <;> cases h

theorem init_inv (garbage : Nat → Byte) : Inv (init_memory_manager garbage) := by
  refine ⟨by simp [init_memory_manager], by simp [init_memory_manager], ?_, ?_, ?_, ?_⟩
  · intro s seg h
    exact absurd h (init_no_segment garbage s seg)
  · rintro s p e ⟨seg, h, _⟩
    exact absurd h (init_no_segment garbage s seg)
  · rintro s1 p1 e1 s2 p2 e2 ⟨seg, h, _⟩
    exact absurd h (init_no_segment garbage s1 seg)
  · intro f v h hv
    simp only [init_memory_manager, List.getElem?_replicate] at h
    split at h
    · cases h
      exact absurd rfl hv
    · cases h

/-- Cells of the page tables after cell `p` of the segment in slot `s` was replaced. -/
theorem entryAt_set {m m1 : MemoryManager} {s p : Nat} {seg : Segment}
    {e0 e1 : PageTableEntry}
    (hs : m.segments[s]? = some (some seg)) (hp : seg.page_table[p]? = some e0)
    (hm : m1.segments =
      m.segments.set s (some { seg with page_table := seg.page_table.set p e1 }))
    (s1 p1 : Nat) (e : PageTableEntry) :
    EntryAt m1 s1 p1 e ↔
      (s1 = s ∧ p1 = p ∧ e = e1) ∨ ((s1 ≠ s ∨ p1 ≠ p) ∧ EntryAt m s1 p1 e) := by
  have hslt : s < m.segments.length := (List.getElem?_eq_some.mp hs).1
  have hplt : p < seg.page_table.length := (List.getElem?_eq_some.mp hp).1
  unfold EntryAt
  rw [hm]
  by_cases h1 : s1 = s
  · subst h1
    rw [List.getElem?_set_self hslt]
    by_cases h2 : p1 = p
    · subst h2
      constructor
      · rintro ⟨sg, hsg, hpe⟩
        cases hsg
        rw [List.getElem?_set_self hplt] at hpe
        cases hpe
        exact Or.inl ⟨rfl, rfl, rfl⟩
      · rintro (⟨_, _, he⟩ | ⟨hne, _⟩)
        · subst he
          exact ⟨_, rfl, List.getElem?_set_self hplt⟩
        · rcases hne with hne | hne <;> exact absurd rfl hne
    · constructor
      · rintro ⟨sg, hsg, hpe⟩
        cases hsg
        rw [List.getElem?_set_ne (Ne.symm h2)] at hpe
        exact Or.inr ⟨Or.inr h2, seg, hs, hpe⟩
      · rintro (⟨_, hpp, _⟩ | ⟨_, sg, hsg, hpe⟩)
        · exact absurd hpp h2
        · rw [hs] at hsg
          cases hsg
          exact ⟨_, rfl, by rw [List.getElem?_set_ne (Ne.symm h2)]; exact hpe⟩
  · rw [List.getElem?_set_ne (Ne.symm h1)]
    constructor
    · rintro ⟨sg, hsg, hpe⟩
      exact Or.inr ⟨Or.inl h1, sg, hsg, hpe⟩
    · rintro (⟨hss, _, _⟩ | ⟨_, sg, hsg, hpe⟩)
      · exact absurd hss h1
      · exact ⟨sg, hsg, hpe⟩

theorem inv_fault_state {m : MemoryManager} {s p f : Nat} {seg : Segment}
    {e0 : PageTableEntry} (hI : Inv m)
    (hs : m.segments[s]? = some (some seg)) (hp : seg.page_table[p]? = some e0)
    (hv0 : e0.valid = 0) (hf : f < NUM_PAGES) (hf0 : m.page_frames[f]? = some 0) :
    Inv (fault_state m s p f seg) := by
  have hE : ∀ s1 p1 e, EntryAt (fault_state m s p f seg) s1 p1 e ↔
      (s1 = s ∧ p1 = p ∧ e = ⟨f, 1⟩) ∨ ((s1 ≠ s ∨ p1 ≠ p) ∧ EntryAt m s1 p1 e) :=
    entryAt_set hs hp rfl
  have hflt : f < m.page_frames.length := by rw [hI.frames_length]; exact hf
  have hfresh : ∀ s1 p1 e, EntryAt m s1 p1 e → e.valid ≠ 0 → e.page_number ≠ f := by
    intro s1 p1 e hE1 hv hpn
    have := (hI.frame_marked s1 p1 e hE1 hv).2
    rw [hpn, hf0] at this
    cases this
  refine ⟨?_, ?_, ?_, ?_, ?_, ?_⟩
  · simp [fault_state, hI.segments_length]
  · simp [fault_state, hI.frames_length]
  · intro s1 sg hsg
    simp only [fault_state] at hsg
    by_cases h1 : s1 = s
    · subst h1
      rw [List.getElem?_set_self (List.getElem?_eq_some.mp hs).1] at hsg
      cases hsg
      have := hI.seg_size s1 seg hs
      simpa using this
    · rw [List.getElem?_set_ne (Ne.symm h1)] at hsg
      exact hI.seg_size s1 sg hsg
  · intro s1 p1 e hE1 hv
    rcases (hE s1 p1 e).mp hE1 with ⟨_, _, he⟩ | ⟨_, hold⟩
    · subst he
      exact ⟨hf, by simp [fault_state, List.getElem?_set_self hflt]⟩
    · have h1 := hI.frame_marked s1 p1 e hold hv
      have h2 := hfresh s1 p1 e hold hv
      refine ⟨h1.1, ?_⟩
      simp only [fault_state]
      rw [List.getElem?_set_ne (Ne.symm h2)]
      exact h1.2
  · intro s1 p1 e1 s2 p2 e2 hE1 hE2 hv1 hv2 hpn
    rcases (hE s1 p1 e1).mp hE1 with ⟨hs1, hp1, he1⟩ | ⟨_, hold1⟩
    · rcases (hE s2 p2 e2).mp hE2 with ⟨hs2, hp2, _⟩ | ⟨_, hold2⟩
      · exact ⟨hs1.trans hs2.symm, hp1.trans hp2.symm⟩
      · subst he1
        exact absurd hpn.symm (hfresh s2 p2 e2 hold2 hv2)
    · rcases (hE s2 p2 e2).mp hE2 with ⟨_, _, he2⟩ | ⟨_, hold2⟩
      · subst he2
        exact absurd hpn (hfresh s1 p1 e1 hold1 hv1)
      · exact hI.frame_unique s1 p1 e1 s2 p2 e2 hold1 hold2 hv1 hv2 hpn
  · intro g v hg hv
    simp only [fault_state] at hg
    by_cases hgf : g = f
    · subst hgf
      rw [List.getElem?_set_self hflt] at hg
      cases hg
      exact ⟨rfl, s, p, ⟨g, 1⟩, (hE s p _).mpr (Or.inl ⟨rfl, rfl, rfl⟩), by simp, rfl⟩
    · rw [List.getElem?_set_ne (Ne.symm hgf)] at hg
      obtain ⟨h1, s1, p1, e, hE1, hv1, hpn⟩ := hI.frame_used g v hg hv
      refine ⟨h1, s1, p1, e, (hE s1 p1 e).mpr (Or.inr ⟨?_, hE1⟩), hv1, hpn⟩
      by_contra hcon
      push_neg at hcon
      obtain ⟨sg, hsg, hpe⟩ := hE1
      rw [hcon.1, hs] at hsg
      cases hsg
      rw [hcon.2, hp] at hpe
      cases hpe
      exact hv1 hv0

theorem entryAt_congr {m m1 : MemoryManager} (hseg : m1.segments = m.segments)
    (s p : Nat) (e : PageTableEntry) : EntryAt m1 s p e ↔ EntryAt m s p e := by
  unfold EntryAt
  rw [hseg]

/-- The invariant does not mention the physical store. -/
theorem inv_congr {m m1 : MemoryManager} (hseg : m1.segments = m.segments)
    (hfr : m1.page_frames = m.page_frames) (hI : Inv m) : Inv m1 := by
  refine ⟨by rw [hseg]; exact hI.segments_length, by rw [hfr]; exact hI.frames_length,
    ?_, ?_, ?_, ?_⟩
  · intro s seg h
    rw [hseg] at h
    exact hI.seg_size s seg h
  · intro s p e hE hv
    rw [hfr]
    exact hI.frame_marked s p e ((entryAt_congr hseg s p e).mp hE) hv
  · intro s1 p1 e1 s2 p2 e2 hE1 hE2
    exact hI.frame_unique s1 p1 e1 s2 p2 e2 ((entryAt_congr hseg _ _ _).mp hE1)
      ((entryAt_congr hseg _ _ _).mp hE2)
  · intro f v hf hv
    rw [hfr] at hf
    obtain ⟨h1, s, p, e, hE, h2⟩ := hI.frame_used f v hf hv
    exact ⟨h1, s, p, e, (entryAt_congr hseg _ _ _).mpr hE, h2⟩

theorem resolve_address_inv {m m1 : MemoryManager} {idx : Int} {off : Nat} {r : Resolved}
    (hI : Inv m) (h : resolve_address m idx off = .ok (m1, r)) : Inv m1 := by
  rcases resolve_address_cases hI.frames_length h with ⟨hm, _⟩ | ⟨seg, e, hs, _, he, hc⟩
  · rw [hm]
    exact hI
  · rcases hc with ⟨_, hm, _⟩ | ⟨_, hm, _⟩ | ⟨hv, f, hf, hf0, _, hm, _⟩
    · rw [hm]
      exact hI
    · rw [hm]
      exact hI
    · rw [hm]
      exact inv_fault_state hI (segment_at_ok hs).2 he hv hf hf0

theorem write_loop_inv (idx : Int) (data : Nat → Byte) (offset : Nat) :
    ∀ (fuel i : Nat) (m m1 : MemoryManager) (st : WriteStatus), Inv m →
      write_loop idx data offset fuel i m = .ok (m1, st) → Inv m1 := by
  intro fuel
  induction fuel with
  | zero =>
    intro i m m1 st hI h
    simp only [write_loop, Except.ok.injEq, Prod.mk.injEq] at h
    rw [← h.1]
    exact hI
  | succ k ih =>
    intro i m m1 st hI h
    simp only [write_loop] at h
    split at h
    · cases h
    · rename_i m2 r hr
      have hI2 := resolve_address_inv hI hr
      split at h
      · split at h
        · refine ih _ _ _ _ ?_ h
          exact inv_congr (m := m2) rfl rfl hI2
        · cases h
      · simp only [Except.ok.injEq, Prod.mk.injEq] at h
        rw [← h.1]
        exact hI2

theorem write_memory_inv {m m1 : MemoryManager} {idx : Int} {data : Nat → Byte}
    {size offset : Nat} {st : WriteStatus} (hI : Inv m)
    (h : write_memory m idx data size offset = .ok (m1, st)) : Inv m1 := by
  unfold write_memory at h
  split at h
  · cases h
  · simp only [Except.ok.injEq, Prod.mk.injEq] at h
    rw [← h.1]
    exact hI
  · exact write_loop_inv idx data offset size 0 m m1 st hI h

theorem read_loop_inv (idx : Int) (offset : Nat) :
    ∀ (fuel i : Nat) (m m1 : MemoryManager) (buf buf1 : Nat → Byte) (st : ReadStatus),
      Inv m → read_loop idx offset fuel i m buf = .ok (m1, buf1, st) → Inv m1 := by
  intro fuel
  induction fuel with
  | zero =>
    intro i m m1 buf buf1 st hI h
    simp only [read_loop, Except.ok.injEq, Prod.mk.injEq] at h
    rw [← h.1]
    exact hI
  | succ k ih =>
    intro i m m1 buf buf1 st hI h
    simp only [read_loop] at h
    split at h
    · cases h
    · rename_i m2 r hr
      have hI2 := resolve_address_inv hI hr
      split at h
      · split at h
        · exact ih _ _ _ _ _ _ hI2 h
        · cases h
      · simp only [Except.ok.injEq, Prod.mk.injEq] at h
        rw [← h.1]
        exact hI2

theorem read_memory_inv {m m1 : MemoryManager} {idx : Int} {buf buf1 : Nat → Byte}
    {size offset : Nat} {st : ReadStatus} (hI : Inv m)
    (h : read_memory m idx buf size offset = .ok (m1, buf1, st)) : Inv m1 := by
  unfold read_memory at h
  split at h
  · cases h
  · cases h
  · simp only at h
    split at h
    · cases h
    · split at h
      · simp only [Except.ok.injEq, Prod.mk.injEq] at h
        rw [← h.1]
        exact hI
      · exact read_loop_inv idx offset size 0 m m1 buf buf1 st hI h

theorem free_page_cases {m m1 : MemoryManager} {idx : Int} {off : Nat} {st : FreeStatus}
    (h : free_page m idx off = .ok (m1, st)) :
    (m1 = m ∧ st = .not_found_or_range ∧
      (segment_at m idx = .ok none ∨
        ∃ seg, segment_at m idx = .ok (some seg) ∧ seg.size ≤ off)) ∨
    (∃ seg e, segment_at m idx = .ok (some seg) ∧ off < seg.size ∧
      seg.page_table[off / PAGE_SIZE]? = some e ∧
      ((e.valid = 0 ∧ m1 = m ∧ st = .page_invalid) ∨
       (e.valid ≠ 0 ∧ e.page_number < m.page_frames.length ∧
          e.page_number * PAGE_SIZE % UINT_MOD + PAGE_SIZE ≤ MEMORY_SIZE ∧
          m1 = freed_state m idx.toNat (off / PAGE_SIZE) seg e ∧
          st = .freed e.page_number))) := by
  unfold free_page at h
  split at h
  · cases h
  · rename_i hs
    cases h
    exact Or.inl ⟨rfl, rfl, Or.inl hs⟩
  · rename_i seg hs
    split at h
    · rename_i hge
      cases h
      exact Or.inl ⟨rfl, rfl, Or.inr ⟨seg, hs, hge⟩⟩
    · rename_i hlt
      right
      simp only at h
      split at h
      · cases h
      · rename_i e he
        refine ⟨seg, e, hs, by omega, he, ?_⟩
        split at h
        · rename_i hv
          cases h
          exact Or.inl ⟨hv, rfl, rfl⟩
        · rename_i hv
          split at h
          · rename_i hpn
            split at h
            · rename_i hb
              simp only [Except.ok.injEq, Prod.mk.injEq] at h
              exact Or.inr ⟨hv, hpn, hb, h.1.symm, h.2.symm⟩
            · cases h
          · cases h

theorem inv_freed_state {m : MemoryManager} {s p : Nat} {seg : Segment}
    {e0 : PageTableEntry} (hI : Inv m)
    (hs : m.segments[s]? = some (some seg)) (hp : seg.page_table[p]? = some e0)
    (hv0 : e0.valid ≠ 0) : Inv (freed_state m s p seg e0) := by
  have hE : ∀ s1 p1 e, EntryAt (freed_state m s p seg e0) s1 p1 e ↔
      (s1 = s ∧ p1 = p ∧ e = { e0 with valid := 0 }) ∨
        ((s1 ≠ s ∨ p1 ≠ p) ∧ EntryAt m s1 p1 e) :=
    entryAt_set hs hp rfl
  have hE0 : EntryAt m s p e0 := ⟨seg, hs, hp⟩
  have hold : ∀ s1 p1 e, EntryAt (freed_state m s p seg e0) s1 p1 e → e.valid ≠ 0 →
      (s1 ≠ s ∨ p1 ≠ p) ∧ EntryAt m s1 p1 e := by
    intro s1 p1 e h hv
    rcases (hE s1 p1 e).mp h with ⟨_, _, he⟩ | h1
    · subst he
      exact absurd rfl hv
    · exact h1
  have hother : ∀ s1 p1 e, (s1 ≠ s ∨ p1 ≠ p) → EntryAt m s1 p1 e → e.valid ≠ 0 →
      e.page_number ≠ e0.page_number := by
    intro s1 p1 e hne h hv hpn
    have := hI.frame_unique s1 p1 e s p e0 h hE0 hv hv0 hpn
    rcases hne with hne | hne
    · exact hne this.1
    · exact hne this.2
  refine ⟨?_, ?_, ?_, ?_, ?_, ?_⟩
  · simp [freed_state, hI.segments_length]
  · simp [freed_state, hI.frames_length]
  · intro s1 sg hsg
    simp only [freed_state] at hsg
    by_cases h1 : s1 = s
    · subst h1
      rw [List.getElem?_set_self (List.getElem?_eq_some.mp hs).1] at hsg
      cases hsg
      have := hI.seg_size s1 seg hs
      simpa using this
    · rw [List.getElem?_set_ne (Ne.symm h1)] at hsg
      exact hI.seg_size s1 sg hsg
  · intro s1 p1 e hE1 hv
    obtain ⟨hne, h1⟩ := hold s1 p1 e hE1 hv
    have h2 := hI.frame_marked s1 p1 e h1 hv
    refine ⟨h2.1, ?_⟩
    simp only [freed_state]
    rw [List.getElem?_set_ne (Ne.symm (hother s1 p1 e hne h1 hv))]
    exact h2.2
  · intro s1 p1 e1 s2 p2 e2 hE1 hE2 hv1 hv2 hpn
    exact hI.frame_unique s1 p1 e1 s2 p2 e2 (hold s1 p1 e1 hE1 hv1).2
      (hold s2 p2 e2 hE2 hv2).2 hv1 hv2 hpn
  · intro g v hg hv
    simp only [freed_state] at hg
    by_cases hgf : g = e0.page_number
    · subst hgf
      have hlt : e0.page_number < m.page_frames.length := by
        have := (hI.frame_marked s p e0 hE0 hv0).1
        rw [hI.frames_length]
        exact this
      rw [List.getElem?_set_self hlt] at hg
      cases hg
      exact absurd rfl hv
    · rw [List.getElem?_set_ne (Ne.symm hgf)] at hg
      obtain ⟨h1, s1, p1, e, hE1, hv1, hpn⟩ := hI.frame_used g v hg hv
      refine ⟨h1, s1, p1, e, (hE s1 p1 e).mpr (Or.inr ⟨?_, hE1⟩), hv1, hpn⟩
      by_contra hcon
      push_neg at hcon
      obtain ⟨sg, hsg, hpe⟩ := hE1
      rw [hcon.1, hs] at hsg
      cases hsg
      rw [hcon.2, hp] at hpe
      cases hpe
      exact hgf hpn.symm

theorem free_page_inv {m m1 : MemoryManager} {idx : Int} {off : Nat} {st : FreeStatus}
    (hI : Inv m) (h : free_page m idx off = .ok (m1, st)) : Inv m1 := by
  rcases free_page_cases h with ⟨hm, _⟩ | ⟨seg, e, hs, _, he, hc⟩
  · rw [hm]
    exact hI
  · rcases hc with ⟨_, hm, _⟩ | ⟨hv, _, _, hm, _⟩
    · rw [hm]
      exact hI
    · rw [hm]
      exact inv_freed_state hI (segment_at_ok hs).2 he hv

/-! ## Segment creation and teardown -/

theorem allocate_segment_loop_spec (m : MemoryManager) (size : Nat) :
    ∀ fuel i, i + fuel ≤ m.segments.length →
      (∃ k, i ≤ k ∧ k < i + fuel ∧ m.segments[k]? = some none ∧
          (∀ j, i ≤ j → j < k → ∃ sg, m.segments[j]? = some (some sg)) ∧
          allocate_segment_loop m size fuel i =
            .ok ({ m with segments := m.segments.set k (some (fresh_segment size)) },
              some k)) ∨
      ((∀ j, i ≤ j → j < i + fuel → ∃ sg, m.segments[j]? = some (some sg)) ∧
          allocate_segment_loop m size fuel i = .ok (m, none)) := by
  intro fuel
  induction fuel with
  | zero =>
    intro i _
    right
    exact ⟨fun j h1 h2 => by omega, rfl⟩
  | succ n ih =>
    intro i hi
    have hlt : i < m.segments.length := by omega
    obtain ⟨o, ho⟩ : ∃ o, m.segments[i]? = some o := ⟨_, List.getElem?_eq_getElem hlt⟩
    cases o with
    | none =>
      left
      refine ⟨i, le_refl _, by omega, ho, fun j h1 h2 => by omega, ?_⟩
      simp [allocate_segment_loop, ho, fresh_segment]
    | some sg0 =>
      rcases ih (i + 1) (by omega) with ⟨k, h1, h2, h3, h4, h5⟩ | ⟨h1, h2⟩
      · left
        refine ⟨k, by omega, by omega, h3, ?_, ?_⟩
        · intro j hj1 hj2
          by_cases hji : j = i
          · subst hji
            exact ⟨sg0, ho⟩
          · exact h4 j (by omega) hj2
        · simp [allocate_segment_loop, ho, h5]
      · right
        refine ⟨?_, ?_⟩
        · intro j hj1 hj2
          by_cases hji : j = i
          · subst hji
            exact ⟨sg0, ho⟩
          · exact h1 j (by omega) (by omega)
        · simp [allocate_segment_loop, ho, h2]

theorem allocate_segment_spec (m : MemoryManager) (size : Nat)
    (hlen : m.segments.length = SEGMENT_COUNT) :
    (∃ k, k < SEGMENT_COUNT ∧ m.segments[k]? = some none ∧
        (∀ j, j < k → ∃ sg, m.segments[j]? = some (some sg)) ∧
        allocate_segment m size =
          .ok ({ m with segments := m.segments.set k (some (fresh_segment size)) }, some k)) ∨
    ((∀ j, j < SEGMENT_COUNT → ∃ sg, m.segments[j]? = some (some sg)) ∧
        allocate_segment m size = .ok (m, none)) := by
  rcases allocate_segment_loop_spec m size SEGMENT_COUNT 0 (by omega) with
    ⟨k, _, h2, h3, h4, h5⟩ | ⟨h1, h2⟩
  · left
    exact ⟨k, by omega, h3, fun j hj => h4 j (Nat.zero_le _) hj, h5⟩
  · right
    exact ⟨fun j hj => h1 j (Nat.zero_le _) (by omega), h2⟩

/-- Cells of the page tables after an empty slot received a fresh segment. -/
theorem entryAt_fresh {m m1 : MemoryManager} {k size : Nat}
    (hk : m.segments[k]? = some none)
    (hm : m1.segments = m.segments.set k (some (fresh_segment size)))
    (s p : Nat) (e : PageTableEntry) :
    EntryAt m1 s p e ↔
      (s = k ∧ p < num_pages size ∧ e = ⟨0, 0⟩) ∨ (s ≠ k ∧ EntryAt m s p e) := by
  have hklt : k < m.segments.length := (List.getElem?_eq_some.mp hk).1
  unfold EntryAt
  rw [hm]
  by_cases h1 : s = k
  · subst h1
    rw [List.getElem?_set_self hklt]
    constructor
    · rintro ⟨sg, hsg, hpe⟩
      cases hsg
      simp only [fresh_segment, List.getElem?_replicate] at hpe
      split at hpe
      · cases hpe
        exact Or.inl ⟨rfl, by assumption, rfl⟩
      · cases hpe
    · rintro (⟨_, hp, he⟩ | ⟨hne, _⟩)
      · refine ⟨_, rfl, ?_⟩
        simp [fresh_segment, List.getElem?_replicate, hp, he]
      · exact absurd rfl hne
  · rw [List.getElem?_set_ne (Ne.symm h1)]
    constructor
    · rintro ⟨sg, hsg, hpe⟩
      exact Or.inr ⟨h1, sg, hsg, hpe⟩
    · rintro (⟨hss, _, _⟩ | ⟨_, sg, hsg, hpe⟩)
      · exact absurd hss h1
      · exact ⟨sg, hsg, hpe⟩

theorem allocate_segment_inv {m m1 : MemoryManager} {size : Nat} {r : Option Nat}
    (hI : Inv m) (hsize : size < SIZE_MOD)
    (h : allocate_segment m size = .ok (m1, r)) : Inv m1 := by
  rcases allocate_segment_spec m size hI.segments_length with
    ⟨k, hk, hk0, _, hal⟩ | ⟨_, hal⟩
  · rw [hal] at h
    simp only [Except.ok.injEq, Prod.mk.injEq] at h
    obtain ⟨hm, _⟩ := h
    subst hm
    have hE : ∀ s p e,
        EntryAt { m with segments := m.segments.set k (some (fresh_segment size)) } s p e ↔
          (s = k ∧ p < num_pages size ∧ e = ⟨0, 0⟩) ∨ (s ≠ k ∧ EntryAt m s p e) :=
      entryAt_fresh hk0 rfl
    have hold : ∀ s p e,
        EntryAt { m with segments := m.segments.set k (some (fresh_segment size)) } s p e →
        e.valid ≠ 0 → s ≠ k ∧ EntryAt m s p e := by
      intro s p e h hv
      rcases (hE s p e).mp h with ⟨_, _, he⟩ | h1
      · subst he
        exact absurd rfl hv
      · exact h1
    refine ⟨by simp [hI.segments_length], hI.frames_length, ?_, ?_, ?_, ?_⟩
    · intro s sg hsg
      simp only at hsg
      by_cases h1 : s = k
      · subst h1
        rw [List.getElem?_set_self (List.getElem?_eq_some.mp hk0).1] at hsg
        cases hsg
        exact ⟨hsize, by simp [fresh_segment]⟩
      · rw [List.getElem?_set_ne (Ne.symm h1)] at hsg
        exact hI.seg_size s sg hsg
    · intro s p e hE1 hv
      exact hI.frame_marked s p e (hold s p e hE1 hv).2 hv
    · intro s1 p1 e1 s2 p2 e2 hE1 hE2 hv1 hv2 hpn
      exact hI.frame_unique s1 p1 e1 s2 p2 e2 (hold s1 p1 e1 hE1 hv1).2
        (hold s2 p2 e2 hE2 hv2).2 hv1 hv2 hpn
    · intro f v hf hv
      obtain ⟨h1, s, p, e, hE1, hv1, hpn⟩ := hI.frame_used f v hf hv
      refine ⟨h1, s, p, e, (hE s p e).mpr (Or.inr ⟨?_, hE1⟩), hv1, hpn⟩
      rintro rfl
      obtain ⟨sg, hsg, _⟩ := hE1
      rw [hk0] at hsg
      cases hsg
  · rw [hal] at h
    simp only [Except.ok.injEq, Prod.mk.injEq] at h
    rw [← h.1]
    exact hI

theorem free_segment_loop_spec (pt : List PageTableEntry) :
    ∀ (fuel i : Nat) (frames : List Nat), i + fuel ≤ pt.length →
      (∀ j e, i ≤ j → j < i + fuel → pt[j]? = some e → e.valid ≠ 0 →
        e.page_number < frames.length) →
      ∃ frames1, free_segment_loop pt fuel i frames = .ok frames1 ∧
        frames1.length = frames.length ∧
        (∀ g, (∃ j e, i ≤ j ∧ j < i + fuel ∧ pt[j]? = some e ∧ e.valid ≠ 0 ∧
              e.page_number = g) → frames1[g]? = some 0) ∧
        (∀ g, (¬ ∃ j e, i ≤ j ∧ j < i + fuel ∧ pt[j]? = some e ∧ e.valid ≠ 0 ∧
              e.page_number = g) → frames1[g]? = frames[g]?) := by
  intro fuel
  induction fuel with
  | zero =>
    intro i frames _ _
    refine ⟨frames, rfl, rfl, fun g => ?_, fun g _ => rfl⟩
    rintro ⟨j, e, h1, h2, _⟩
    omega
  | succ n ih =>
    intro i frames hi hb
    have hlt : i < pt.length := by omega
    obtain ⟨e0, he0⟩ : ∃ e, pt[i]? = some e := ⟨_, List.getElem?_eq_getElem hlt⟩
    by_cases hv : e0.valid ≠ 0
    · have hpn : e0.page_number < frames.length := hb i e0 (le_refl _) (by omega) he0 hv
      obtain ⟨fr1, h1, h2, h3, h4⟩ := ih (i + 1) (frames.set e0.page_number 0) (by omega)
        (by
          intro j e hj1 hj2 hje hve
          rw [List.length_set]
          exact hb j e (by omega) (by omega) hje hve)
      refine ⟨fr1, ?_, ?_, fun g hg => ?_, fun g hg => ?_⟩
      · simp only [free_segment_loop, he0]
        rw [if_pos hv, if_pos hpn]
        exact h1
      · rw [h2, List.length_set]
      · by_cases hc : ∃ j e, i + 1 ≤ j ∧ j < i + 1 + n ∧ pt[j]? = some e ∧ e.valid ≠ 0 ∧
            e.page_number = g
        · exact h3 g hc
        · rw [h4 g hc]
          obtain ⟨j, e, a1, a2, a3, a4, a5⟩ := hg
          by_cases hji : j = i
          · subst hji
            rw [he0] at a3
            cases a3
            subst a5
            rw [List.getElem?_set_self hpn]
          · exact absurd ⟨j, e, by omega, by omega, a3, a4, a5⟩ hc
      · have hc : ¬ ∃ j e, i + 1 ≤ j ∧ j < i + 1 + n ∧ pt[j]? = some e ∧ e.valid ≠ 0 ∧
            e.page_number = g := by
          rintro ⟨j, e, a1, a2, a3⟩
          exact hg ⟨j, e, by omega, by omega, a3⟩
        rw [h4 g hc]
        have hne : e0.page_number ≠ g := fun h =>
          hg ⟨i, e0, le_refl _, by omega, he0, hv, h⟩
        rw [List.getElem?_set_ne hne]
    · obtain ⟨fr1, h1, h2, h3, h4⟩ := ih (i + 1) frames (by omega)
        (fun j e hj1 hj2 hje hve => hb j e (by omega) (by omega) hje hve)
      refine ⟨fr1, ?_, h2, fun g hg => ?_, fun g hg => ?_⟩
      · simp only [free_segment_loop, he0]
        rw [if_neg hv]
        exact h1
      · apply h3 g
        obtain ⟨j, e, a1, a2, a3, a4, a5⟩ := hg
        by_cases hji : j = i
        · subst hji
          rw [he0] at a3
          cases a3
          exact absurd a4 hv
        · exact ⟨j, e, by omega, by omega, a3, a4, a5⟩
      · apply h4 g
        rintro ⟨j, e, a1, a2, a3⟩
        exact hg ⟨j, e, by omega, by omega, a3⟩

/-- On a live segment of a consistent state `free_segment` returns normally: the
frames of the valid entries are released, all others keep their state, and the
slot is emptied. -/
theorem free_segment_live {m : MemoryManager} {idx : Int} {seg : Segment} (hI : Inv m)
    (h0 : 0 ≤ idx) (hs : m.segments[idx.toNat]? = some (some seg)) :
    ∃ frames1,
      free_segment m idx =
        .ok { segments := m.segments.set idx.toNat none
              physical_memory := m.physical_memory
              page_frames := frames1 } ∧
      frames1.length = NUM_PAGES ∧
      (∀ g : Nat, HoldsFrame seg g → frames1[g]? = some 0) ∧
      (∀ g : Nat, ¬ HoldsFrame seg g → frames1[g]? = m.page_frames[g]?) := by
  have hlt : idx.toNat < m.segments.length := (List.getElem?_eq_some.mp hs).1
  have hrange : 0 ≤ idx ∧ idx < (SEGMENT_COUNT : Int) := by
    rw [hI.segments_length] at hlt
    constructor
    · exact h0
    · omega
  have hlen := (hI.seg_size _ seg hs).2
  obtain ⟨fr1, h1, h2, h3, h4⟩ := free_segment_loop_spec seg.page_table
    (num_pages seg.size) 0 m.page_frames (by omega)
    (by
      intro j e _ _ hje hve
      have := (hI.frame_marked idx.toNat j e ⟨seg, hs, hje⟩ hve).1
      rw [hI.frames_length]
      exact this)
  refine ⟨fr1, ?_, by rw [h2, hI.frames_length], ?_, ?_⟩
  · unfold free_segment
    rw [if_pos hrange]
    simp only [hs, h1]
  · rintro g ⟨p, e, hp, hv, hpn⟩
    have hplt : p < seg.page_table.length := (List.getElem?_eq_some.mp hp).1
    exact h3 g ⟨p, e, Nat.zero_le _, by omega, hp, hv, hpn⟩
  · intro g hg
    apply h4 g
    rintro ⟨p, e, _, _, hp, hv, hpn⟩
    exact hg ⟨p, e, hp, hv, hpn⟩

theorem free_segment_cases {m m1 : MemoryManager} {idx : Int} (hI : Inv m)
    (h : free_segment m idx = .ok m1) :
    (m1 = m ∧ ∀ seg, segment_at m idx ≠ .ok (some seg)) ∨
    (∃ seg frames1, 0 ≤ idx ∧ m.segments[idx.toNat]? = some (some seg) ∧
      m1 = { segments := m.segments.set idx.toNat none
             physical_memory := m.physical_memory
             page_frames := frames1 } ∧
      frames1.length = NUM_PAGES ∧
      (∀ g : Nat, HoldsFrame seg g → frames1[g]? = some 0) ∧
      (∀ g : Nat, ¬ HoldsFrame seg g → frames1[g]? = m.page_frames[g]?)) := by
  by_cases hlive : ∃ seg, 0 ≤ idx ∧ m.segments[idx.toNat]? = some (some seg)
  · obtain ⟨seg, h0, hs⟩ := hlive
    obtain ⟨fr1, h1, h2, h3, h4⟩ := free_segment_live hI h0 hs
    rw [h1] at h
    simp only [Except.ok.injEq] at h
    exact Or.inr ⟨seg, fr1, h0, hs, h.symm, h2, h3, h4⟩
  · left
    have hno : ∀ seg, segment_at m idx ≠ .ok (some seg) := by
      intro seg hsa
      exact hlive ⟨seg, segment_at_ok hsa⟩
    refine ⟨?_, hno⟩
    unfold free_segment at h
    split at h
    · rename_i hr
      split at h
      · cases h
      · cases h
        rfl
      · rename_i sg hsg
        exact absurd ⟨sg, hr.1, hsg⟩ hlive
    · cases h
      rfl

theorem free_segment_inv {m m1 : MemoryManager} {idx : Int} (hI : Inv m)
    (h : free_segment m idx = .ok m1) : Inv m1 := by
  rcases free_segment_cases hI h with ⟨hm, _⟩ | ⟨seg, fr1, h0, hs, hm, hlen, hhit, hmiss⟩
  · rw [hm]
    exact hI
  · subst hm
    have hklt : idx.toNat < m.segments.length := (List.getElem?_eq_some.mp hs).1
    have hE : ∀ s p e,
        EntryAt { segments := m.segments.set idx.toNat none
                  physical_memory := m.physical_memory
                  page_frames := fr1 } s p e ↔ s ≠ idx.toNat ∧ EntryAt m s p e := by
      intro s p e
      unfold EntryAt
      simp only
      by_cases h1 : s = idx.toNat
      · subst h1
        rw [List.getElem?_set_self hklt]
        constructor
        · rintro ⟨sg, hsg, _⟩
          cases hsg
        · rintro ⟨hne, _⟩
          exact absurd rfl hne
      · rw [List.getElem?_set_ne (Ne.symm h1)]
        exact ⟨fun hh => ⟨h1, hh⟩, fun hh => hh.2⟩
    refine ⟨by simp [hI.segments_length], hlen, ?_, ?_, ?_, ?_⟩
    · intro s sg hsg
      simp only at hsg
      by_cases h1 : s = idx.toNat
      · subst h1
        rw [List.getElem?_set_self hklt] at hsg
        cases hsg
      · rw [List.getElem?_set_ne (Ne.symm h1)] at hsg
        exact hI.seg_size s sg hsg
    · intro s p e hE1 hv
      obtain ⟨hne, hold⟩ := (hE s p e).mp hE1
      have h2 := hI.frame_marked s p e hold hv
      refine ⟨h2.1, ?_⟩
      simp only
      rw [hmiss e.page_number, h2.2]
      rintro ⟨p1, e1, hp1, hv1, hpn1⟩
      exact hne (hI.frame_unique s p e idx.toNat p1 e1 hold ⟨seg, hs, hp1⟩ hv hv1
        hpn1.symm).1
    · intro s1 p1 e1 s2 p2 e2 hE1 hE2 hv1 hv2 hpn
      exact hI.frame_unique s1 p1 e1 s2 p2 e2 ((hE _ _ _).mp hE1).2 ((hE _ _ _).mp hE2).2
        hv1 hv2 hpn
    · intro g v hg hv
      simp only at hg
      by_cases hc : HoldsFrame seg g
      · rw [hhit g hc] at hg
        cases hg
        exact absurd rfl hv
      · rw [hmiss g hc] at hg
        obtain ⟨h1, s, p, e, hE1, hv1, hpn⟩ := hI.frame_used g v hg hv
        refine ⟨h1, s, p, e, (hE s p e).mpr ⟨?_, hE1⟩, hv1, hpn⟩
        rintro rfl
        obtain ⟨sg, hsg, hpe⟩ := hE1
        rw [hs] at hsg
        cases hsg
        exact hc ⟨p, e, hpe, hv1, hpn⟩

theorem step_inv {m m1 : MemoryManager} (hI : Inv m) (h : Step m m1) : Inv m1 := by
  cases h with
  | alloc_seg size r hsize h => exact allocate_segment_inv hI hsize h
  | free_seg idx h => exact free_segment_inv hI h
  | resolve idx off r _ h => exact resolve_address_inv hI h
  | write idx data size off st _ _ h => exact write_memory_inv hI h
  | read idx buf buf1 size off st _ _ h => exact read_memory_inv hI h
  | free_pg idx off st _ h => exact free_page_inv hI h

theorem reachable_inv {m : MemoryManager} (h : Reachable m) : Inv m := by
  induction h with
  | init g => exact init_inv g
  | step _ hs ih => exact step_inv ih hs

theorem call_run_step {m m1 : MemoryManager} {c : Call} (h : c.run m = some m1) :
    Step m m1 := by
  cases c with
  | alloc_seg size =>
    simp only [Call.run] at h
    split at h
    · rename_i hsz
      split at h
      · rename_i m2 r hr
        cases h
        exact Step.alloc_seg size r hsz hr
      · cases h
    · cases h
  | free_seg idx =>
    simp only [Call.run] at h
    split at h
    · rename_i m2 hr
      cases h
      exact Step.free_seg idx hr
    · cases h
  | resolve idx offset =>
    simp only [Call.run] at h
    split at h
    · rename_i hsz
      split at h
      · rename_i m2 r hr
        cases h
        exact Step.resolve idx offset r hsz hr
      · cases h
    · cases h
  | write idx data size offset =>
    simp only [Call.run] at h
    split at h
    · rename_i hsz
      split at h
      · rename_i m2 r hr
        cases h
        exact Step.write idx data size offset r hsz.1 hsz.2 hr
      · cases h
    · cases h
  | read idx buffer size offset =>
    simp only [Call.run] at h
    split at h
    · rename_i hsz
      split at h
      · rename_i m2 b r hr
        cases h
        exact Step.read idx buffer b size offset r hsz.1 hsz.2 hr
      · cases h
    · cases h
  | free_pg idx offset =>
    simp only [Call.run] at h
    split at h
    · rename_i hsz
      split at h
      · rename_i m2 r hr
        cases h
        exact Step.free_pg idx offset r hsz hr
      · cases h
    · cases h

theorem reachable_run_calls :
    ∀ (cs : List Call) (m m1 : MemoryManager), Reachable m → run_calls cs m = some m1 →
      Reachable m1 := by
  intro cs
  induction cs with
  | nil =>
    intro m m1 hR h
    simp only [run_calls, Option.some.injEq] at h
    rw [← h]
    exact hR
  | cons c cs ih =>
    intro m m1 hR h
    simp only [run_calls] at h
    split at h
    · rename_i m2 hc
      exact ih m2 m1 (Reachable.step hR (call_run_step hc)) h
    · cases h

theorem reachable_script (garbage : Nat → Byte) (cs : List Call)
    (h : (run_calls cs (init_memory_manager garbage)).isSome = true) :
    Reachable (script_state garbage cs) := by
  unfold script_state
  cases hr : run_calls cs (init_memory_manager garbage) with
  | none =>
    rw [hr] at h
    cases h
  | some m1 => exact reachable_run_calls cs _ m1 (Reachable.init garbage) hr

/-! ## Counting valid entries -/

theorem mem_slot_frames {seg : Segment} {g : Nat} :
    g ∈ slot_frames (some seg) ↔ HoldsFrame seg g := by
  unfold slot_frames HoldsFrame
  simp only [List.mem_map, List.mem_filter, decide_eq_true_eq]
  constructor
  · rintro ⟨e, ⟨hmem, hv⟩, hpn⟩
    obtain ⟨p, hp⟩ := List.mem_iff_getElem?.mp hmem
    exact ⟨p, e, hp, hv, hpn⟩
  · rintro ⟨p, e, hp, hv, hpn⟩
    exact ⟨e, ⟨List.mem_iff_getElem?.mpr ⟨p, hp⟩, hv⟩, hpn⟩

theorem nodup_frames_of_inj :
    ∀ pt : List PageTableEntry,
      (∀ (p1 : Nat) (e1 : PageTableEntry) (p2 : Nat) (e2 : PageTableEntry),
        pt[p1]? = some e1 → pt[p2]? = some e2 → e1.valid ≠ 0 →
        e2.valid ≠ 0 → e1.page_number = e2.page_number → p1 = p2) →
      ((pt.filter (fun e => decide (e.valid ≠ 0))).map (fun e => e.page_number)).Nodup := by
  intro pt
  induction pt with
  | nil =>
    intro _
    simp
  | cons e rest ih =>
    intro h
    have hrest := ih (fun p1 e1 p2 e2 h1 h2 hv1 hv2 hpn => by
      have := h (p1 + 1) e1 (p2 + 1) e2 (by simpa using h1) (by simpa using h2) hv1 hv2 hpn
      omega)
    by_cases hv : e.valid ≠ 0
    · rw [List.filter_cons_of_pos (by simpa using hv), List.map_cons, List.nodup_cons]
      refine ⟨?_, hrest⟩
      intro hmem
      simp only [List.mem_map, List.mem_filter, decide_eq_true_eq] at hmem
      obtain ⟨e1, ⟨hm1, hv1⟩, hpn⟩ := hmem
      obtain ⟨p, hp⟩ := List.mem_iff_getElem?.mp hm1
      have := h (p + 1) e1 0 e (by simpa using hp) (by simp) hv1 hv hpn
      omega
    · rw [List.filter_cons_of_neg (by simpa using hv)]
      exact hrest

theorem valid_frames_nodup {m : MemoryManager} (hI : Inv m) : (valid_frames m).Nodup := by
  unfold valid_frames
  rw [List.nodup_flatMap]
  constructor
  · intro o ho
    cases o with
    | none => simp [slot_frames]
    | some seg =>
      obtain ⟨s, hs⟩ := List.mem_iff_getElem?.mp ho
      apply nodup_frames_of_inj
      intro p1 e1 p2 e2 h1 h2 hv1 hv2 hpn
      exact (hI.frame_unique s p1 e1 s p2 e2 ⟨seg, hs, h1⟩ ⟨seg, hs, h2⟩ hv1 hv2 hpn).2
  · rw [List.pairwise_iff_getElem]
    intro i j hi hj hij
    show List.Disjoint (slot_frames m.segments[i]) (slot_frames m.segments[j])
    intro g hg1 hg2
    have hsi : m.segments[i]? = some m.segments[i] := List.getElem?_eq_getElem hi
    have hsj : m.segments[j]? = some m.segments[j] := List.getElem?_eq_getElem hj
    cases hoi : m.segments[i] with
    | none =>
      rw [hoi] at hg1
      simp [slot_frames] at hg1
    | some sgi =>
      cases hoj : m.segments[j] with
      | none =>
        rw [hoj] at hg2
        simp [slot_frames] at hg2
      | some sgj =>
        rw [hoi] at hg1 hsi
        rw [hoj] at hg2 hsj
        obtain ⟨p1, e1, hp1, hv1, hpn1⟩ := mem_slot_frames.mp hg1
        obtain ⟨p2, e2, hp2, hv2, hpn2⟩ := mem_slot_frames.mp hg2
        have := (hI.frame_unique i p1 e1 j p2 e2 ⟨sgi, hsi, hp1⟩ ⟨sgj, hsj, hp2⟩ hv1 hv2
          (hpn1.trans hpn2.symm)).1
        omega

theorem mem_valid_frames {m : MemoryManager} {g : Nat} :
    g ∈ valid_frames m ↔ ∃ s p e, EntryAt m s p e ∧ e.valid ≠ 0 ∧ e.page_number = g := by
  unfold valid_frames
  rw [List.mem_flatMap]
  constructor
  · rintro ⟨o, ho, hg⟩
    cases o with
    | none => simp [slot_frames] at hg
    | some seg =>
      obtain ⟨s, hs⟩ := List.mem_iff_getElem?.mp ho
      obtain ⟨p, e, hp, hv, hpn⟩ := mem_slot_frames.mp hg
      exact ⟨s, p, e, ⟨seg, hs, hp⟩, hv, hpn⟩
  · rintro ⟨s, p, e, ⟨seg, hs, hp⟩, hv, hpn⟩
    exact ⟨some seg, List.mem_iff_getElem?.mpr ⟨s, hs⟩, mem_slot_frames.mpr ⟨p, e, hp, hv, hpn⟩⟩

/-- Pigeonhole: `NUM_PAGES` valid entries hold every frame. -/
theorem all_frames_held {m : MemoryManager} (hI : Inv m)
    (hfull : valid_count m = NUM_PAGES) :
    ∀ g, g < NUM_PAGES → g ∈ valid_frames m := by
  have hnd := valid_frames_nodup hI
  have hsub : (valid_frames m).toFinset ⊆ Finset.range NUM_PAGES := by
    intro g hg
    rw [List.mem_toFinset] at hg
    obtain ⟨s, p, e, hE, hv, hpn⟩ := mem_valid_frames.mp hg
    rw [Finset.mem_range, ← hpn]
    exact (hI.frame_marked s p e hE hv).1
  have hcard : (Finset.range NUM_PAGES).card ≤ (valid_frames m).toFinset.card := by
    rw [List.toFinset_card_of_nodup hnd, Finset.card_range]
    exact le_of_eq hfull.symm
  have heq := Finset.eq_of_subset_of_card_le hsub hcard
  intro g hg
  have : g ∈ (valid_frames m).toFinset := by
    rw [heq]
    exact Finset.mem_range.mpr hg
  exact List.mem_toFinset.mp this

theorem allocate_page_full {m : MemoryManager} (hI : Inv m)
    (hfull : valid_count m = NUM_PAGES) : allocate_page m = .ok (m, none) := by
  have hall : ∀ g, g < NUM_PAGES → m.page_frames[g]? = some 1 := by
    intro g hg
    obtain ⟨s, p, e, hE, hv, hpn⟩ := mem_valid_frames.mp (all_frames_held hI hfull g hg)
    rw [← hpn]
    exact (hI.frame_marked s p e hE hv).2
  rcases allocate_page_spec m hI.frames_length with ⟨f, hf, hf0, _, _⟩ | ⟨_, h⟩
  · rw [hall f hf] at hf0
    cases hf0
  · exact h

/-- With every frame held, a fault on an in-bounds offset fails and changes nothing. -/
theorem resolve_exhausted {m : MemoryManager} (hI : Inv m)
    (hfull : valid_count m = NUM_PAGES) {idx : Int} {seg : Segment}
    (hlive : Live m idx seg) {offset : Nat} (hin : offset < seg.size)
    (hnv : ∀ e, seg.page_table[offset / PAGE_SIZE]? = some e → e.valid = 0) :
    resolve_address m idx offset = .ok (m, .no_free_pages) := by
  have hs := segment_at_of_get hlive.1 hlive.2
  have hslt : idx.toNat < m.segments.length := (List.getElem?_eq_some.mp hlive.2).1
  have hlen1 := hI.segments_length
  have hidx : idx.toNat = 0 := by
    simp only [SEGMENT_COUNT] at hlen1
    omega
  obtain ⟨hsz, hptlen⟩ := hI.seg_size _ seg hlive.2
  -- the only slot holds `seg`, so its table has at least `NUM_PAGES` cells
  have hsegs : m.segments = [some seg] := by
    have h2 := hlive.2
    rw [hidx] at h2
    match hm : m.segments, hlen1, h2 with
    | [o], _, h2 =>
      simp only [List.getElem?_cons_zero, Option.some.injEq] at h2
      rw [h2]
  have hcount : NUM_PAGES ≤ seg.page_table.length := by
    have : valid_count m = (slot_frames (some seg)).length := by
      unfold valid_count valid_frames
      rw [hsegs]
      simp
    rw [hfull] at this
    rw [this]
    unfold slot_frames
    rw [List.length_map]
    exact List.length_filter_le _ _
  have hpage : offset / PAGE_SIZE < seg.page_table.length := by
    rw [hptlen] at hcount ⊢
    unfold num_pages at hcount ⊢
    simp only [PAGE_SIZE, SIZE_MOD, NUM_PAGES] at *
    omega
  obtain ⟨e, he⟩ : ∃ e, seg.page_table[offset / PAGE_SIZE]? = some e :=
    ⟨_, List.getElem?_eq_getElem hpage⟩
  have hv := hnv e he
  unfold resolve_address
  rw [hs]
  simp only
  rw [if_neg (by omega)]
  simp only [he]
  rw [if_pos hv, allocate_page_full hI hfull]

/-! ## A state with every frame in use -/

theorem faulted_frames_get (k g : Nat) :
    (faulted k).page_frames[g]? = if g < 256 then some (if g < k then 1 else 0) else none := by
  simp only [faulted, List.getElem?_map, List.getElem?_range]
  split
  · simp [*]
  · simp [*]
    omega

theorem faulted_table_get (k p : Nat) :
    ((List.range 257).map (fun i => if i < k then (⟨i, 1⟩ : PageTableEntry) else ⟨0, 0⟩))[p]? =
      if p < 257 then some (if p < k then ⟨p, 1⟩ else ⟨0, 0⟩) else none := by
  simp only [List.getElem?_map, List.getElem?_range]
  split
  · simp [*]
  · simp [*]
    omega

theorem fresh_exhaust_segment :
    fresh_segment 131584 =
      faulted_segment 0 := by
  decide

theorem faulted_zero :
    allocate_segment (init_memory_manager (fun _ => 0)) 131584 = .ok (faulted 0, some 0) := by
  rcases allocate_segment_spec (init_memory_manager (fun _ => 0)) 131584 rfl with
    ⟨k, hk, _, _, hal⟩ | ⟨hall, _⟩
  · have hk0 : k = 0 := by
      simp only [SEGMENT_COUNT] at hk
      omega
    subst hk0
    rw [hal, fresh_exhaust_segment]
    have h2 : (init_memory_manager (fun _ => 0)).page_frames = (faulted 0).page_frames := by
      apply List.ext_getElem?
      intro g
      rw [faulted_frames_get]
      simp [init_memory_manager, List.getElem?_replicate]
    unfold faulted
    simp only [faulted] at h2
    rw [← h2]
    rfl
  · obtain ⟨sg, hsg⟩ := hall 0 (by decide)
    exact absurd hsg (init_no_segment _ 0 sg)

theorem faulted_step (k : Nat) (hk : k < 256) :
    resolve_address (faulted k) 0 (k * 512) = .ok (faulted (k + 1), .address (k * 512)) := by
  have hlen : (faulted k).page_frames.length = NUM_PAGES := by simp [faulted]
  have hal : allocate_page (faulted k) =
      .ok ({ faulted k with page_frames := (faulted k).page_frames.set k 1 }, some k) := by
    rcases allocate_page_spec (faulted k) hlen with ⟨f, hf, hf0, hmin, h⟩ | ⟨hall, _⟩
    · have hfk : f = k := by
        rw [faulted_frames_get] at hf0
        by_contra hne
        have h1 : k ≤ f := by
          by_contra hlt
          rw [if_pos (by simp only [NUM_PAGES] at hf; omega), if_pos (by omega)] at hf0
          cases hf0
        have h2 := hmin k (by omega)
        rw [faulted_frames_get, if_pos hk, if_neg (by omega)] at h2
        exact h2 rfl
      rw [hfk] at h
      exact h
    · have := hall k hk
      rw [faulted_frames_get, if_pos hk, if_neg (by omega)] at this
      exact absurd rfl this
  have hs : segment_at (faulted k) 0 = .ok (some (faulted_segment k)) := rfl
  unfold resolve_address
  rw [hs]
  simp only [faulted_segment]
  rw [if_neg (by omega)]
  have hdiv : k * 512 / PAGE_SIZE = k := by
    simp only [PAGE_SIZE]
    omega
  have hmod : k * 512 % PAGE_SIZE = 0 := by
    simp only [PAGE_SIZE]
    omega
  rw [hdiv, hmod, faulted_table_get, if_pos (by omega), if_neg (by omega)]
  simp only
  rw [if_pos trivial, hal]
  simp only
  have hk1 : k % UINT_MOD = k := Nat.mod_eq_of_lt (by simp only [UINT_MOD]; omega)
  have hk2 : k * PAGE_SIZE % UINT_MOD = k * 512 :=
    Nat.mod_eq_of_lt (by simp only [UINT_MOD, PAGE_SIZE]; omega)
  rw [hk1, hk2]
  have hm : ({ segments := (faulted k).segments.set (0 : Int).toNat
                  (some { size := 131584
                          page_table :=
                            ((List.range 257).map
                              (fun i => if i < k then (⟨i, 1⟩ : PageTableEntry) else ⟨0, 0⟩)).set k
                              ⟨k, 1⟩ })
               physical_memory := (faulted k).physical_memory
               page_frames := (faulted k).page_frames.set k 1 } : MemoryManager) =
      faulted (k + 1) := by
    have ht : ((List.range 257).map
        (fun i => if i < k then (⟨i, 1⟩ : PageTableEntry) else ⟨0, 0⟩)).set k ⟨k, 1⟩ =
        (List.range 257).map (fun i => if i < k + 1 then (⟨i, 1⟩ : PageTableEntry) else ⟨0, 0⟩) := by
      apply List.ext_getElem?
      intro p
      rw [List.getElem?_set, faulted_table_get, faulted_table_get]
      simp only [List.length_map, List.length_range]
      by_cases hpk : k = p
      · subst hpk
        rw [if_pos rfl, if_pos (by omega), if_pos (by omega), if_pos (by omega)]
      · rw [if_neg hpk]
        by_cases hp : p < 257
        · rw [if_pos hp, if_pos hp]
          by_cases hlt : p < k
          · rw [if_pos hlt, if_pos (by omega)]
          · rw [if_neg hlt, if_neg (by omega)]
        · rw [if_neg hp, if_neg hp]
    have hf : (faulted k).page_frames.set k 1 = (faulted (k + 1)).page_frames := by
      apply List.ext_getElem?
      intro g
      rw [List.getElem?_set, faulted_frames_get, faulted_frames_get, hlen]
      by_cases hgk : k = g
      · subst hgk
        rw [if_pos rfl, if_pos hk, if_pos hk, if_pos (by omega)]
      · rw [if_neg hgk]
        by_cases hg : g < 256
        · rw [if_pos hg, if_pos hg]
          by_cases hlt : g < k
          · rw [if_pos hlt, if_pos (by omega)]
          · rw [if_neg hlt, if_neg (by omega)]
        · rw [if_neg hg, if_neg hg]
    rw [ht, hf]
    rfl
  rw [hm]
  simp

theorem reachable_faulted : ∀ k, k ≤ 256 → Reachable (faulted k) := by
  intro k
  induction k with
  | zero =>
    intro _
    exact Reachable.step (Reachable.init _)
      (Step.alloc_seg 131584 (some 0) (by decide) faulted_zero)
  | succ n ih =>
    intro hn
    exact Reachable.step (ih (by omega))
      (Step.resolve 0 (n * 512) _ (by simp only [SIZE_MOD]; omega) (faulted_step n (by omega)))

/-! ## Mapped addresses -/

theorem mapped_address_some {m : MemoryManager} {idx : Int} {q a : Nat}
    (h : mapped_address m idx q = some a) :
    ∃ seg e, segment_at m idx = .ok (some seg) ∧ q < seg.size ∧
      seg.page_table[q / PAGE_SIZE]? = some e ∧ e.valid ≠ 0 ∧
      a = e.page_number * PAGE_SIZE % UINT_MOD + q % PAGE_SIZE := by
  unfold mapped_address at h
  split at h
  · rename_i seg hs
    split at h
    · rename_i hlt
      split at h
      · rename_i e he
        split at h
        · rename_i hv
          cases h
          exact ⟨seg, e, hs, hlt, he, hv, rfl⟩
        · cases h
      · cases h
    · cases h
  · cases h

theorem mapped_address_of {m : MemoryManager} {idx : Int} {q : Nat} {seg : Segment}
    {e : PageTableEntry} (hs : segment_at m idx = .ok (some seg)) (hlt : q < seg.size)
    (he : seg.page_table[q / PAGE_SIZE]? = some e) (hv : e.valid ≠ 0) :
    mapped_address m idx q = some (e.page_number * PAGE_SIZE % UINT_MOD + q % PAGE_SIZE) := by
  unfold mapped_address
  rw [hs]
  simp only
  rw [if_pos hlt]
  simp only [he]
  rw [if_pos hv]

/-- A mapped offset resolves to its address without any change of state. -/
theorem resolve_of_mapped {m : MemoryManager} {idx : Int} {q a : Nat}
    (h : mapped_address m idx q = some a) :
    resolve_address m idx q = .ok (m, .address a) := by
  obtain ⟨seg, e, hs, hlt, he, hv, ha⟩ := mapped_address_some h
  unfold resolve_address
  rw [hs]
  simp only
  rw [if_neg (by omega)]
  simp only [he]
  rw [if_neg hv, ha]

theorem segment_at_fault_state {m : MemoryManager} {idx : Int} {p f : Nat} {seg : Segment}
    (hs : segment_at m idx = .ok (some seg)) :
    segment_at (fault_state m idx.toNat p f seg) idx =
      .ok (some { seg with page_table := seg.page_table.set p ⟨f, 1⟩ }) := by
  obtain ⟨h0, hget⟩ := segment_at_ok hs
  apply segment_at_of_get h0
  simp only [fault_state]
  rw [List.getElem?_set_self (List.getElem?_eq_some.mp hget).1]

theorem segment_at_fault_state_ne {m : MemoryManager} {idx idx2 : Int} {p f : Nat}
    {seg : Segment} (h0 : 0 ≤ idx) (hne : idx2 ≠ idx) :
    segment_at (fault_state m idx.toNat p f seg) idx2 = segment_at m idx2 := by
  unfold segment_at
  by_cases hneg : idx2 < 0
  · rw [if_pos hneg, if_pos hneg]
  · rw [if_neg hneg, if_neg hneg]
    simp only [fault_state]
    rw [List.getElem?_set_ne (by omega)]

/-- After `resolve_address` returned an address, the offset is mapped to it. -/
theorem mapped_of_resolve {m m1 : MemoryManager} {idx : Int} {q a : Nat}
    (hlen : m.page_frames.length = NUM_PAGES)
    (h : resolve_address m idx q = .ok (m1, .address a)) :
    mapped_address m1 idx q = some a := by
  rcases resolve_address_cases hlen h with ⟨_, hr, _⟩ | ⟨seg, e, hs, hlt, he, hc⟩
  · cases hr
  · rcases hc with ⟨hv, hm, hr⟩ | ⟨_, _, hr, _⟩ | ⟨_, f, hf, _, _, hm, hr⟩
    · cases hr
      rw [hm]
      exact mapped_address_of hs hlt he hv
    · cases hr
    · cases hr
      rw [hm]
      have hplt : q / PAGE_SIZE < seg.page_table.length := (List.getElem?_eq_some.mp he).1
      have hsf := segment_at_fault_state (p := q / PAGE_SIZE) (f := f) hs
      have := mapped_address_of (q := q) (e := ⟨f, 1⟩) hsf
        (by simpa using hlt) (by simp [List.getElem?_set_self hplt]) (by simp)
      rw [this]
      have hfm : f * PAGE_SIZE % UINT_MOD = f * PAGE_SIZE :=
        Nat.mod_eq_of_lt (by simp only [NUM_PAGES, UINT_MOD, PAGE_SIZE] at *; omega)
      simp only [hfm]

/-- A mapping, once made, survives every later `resolve_address`. -/
theorem mapped_stable_resolve {m m1 : MemoryManager} {idx : Int} {q : Nat} {r : Resolved}
    (hlen : m.page_frames.length = NUM_PAGES)
    (h : resolve_address m idx q = .ok (m1, r)) {idx2 : Int} {q2 a : Nat}
    (hmap : mapped_address m idx2 q2 = some a) : mapped_address m1 idx2 q2 = some a := by
  rcases resolve_address_cases hlen h with ⟨hm, _⟩ | ⟨seg, e, hs, hlt, he, hc⟩
  · rw [hm]
    exact hmap
  · rcases hc with ⟨_, hm, _⟩ | ⟨_, hm, _⟩ | ⟨hv, f, hf, _, _, hm, _⟩
    · rw [hm]
      exact hmap
    · rw [hm]
      exact hmap
    · rw [hm]
      obtain ⟨seg2, e2, hs2, hlt2, he2, hv2, ha⟩ := mapped_address_some hmap
      by_cases hidx : idx2 = idx
      · subst hidx
        rw [hs] at hs2
        cases hs2
        have hpne : q / PAGE_SIZE ≠ q2 / PAGE_SIZE := by
          intro hp
          rw [hp, he2] at he
          cases he
          exact hv2 hv
        rw [ha]
        exact mapped_address_of (segment_at_fault_state hs) (by simpa using hlt2)
          (by simp only; rw [List.getElem?_set_ne hpne]; exact he2) hv2
      · rw [ha]
        have h0 := (segment_at_ok hs).1
        exact mapped_address_of (by rw [segment_at_fault_state_ne h0 hidx]; exact hs2) hlt2 he2 hv2

theorem mapped_address_mem {m m1 : MemoryManager} (hseg : m1.segments = m.segments)
    (idx : Int) (q : Nat) : mapped_address m1 idx q = mapped_address m idx q := by
  unfold mapped_address segment_at
  rw [hseg]

/-- Distinct offsets of live segments are mapped to distinct physical bytes. -/
theorem mapped_inj {m : MemoryManager} (hI : Inv m) {idx1 idx2 : Int} {q1 q2 a : Nat}
    (h1 : mapped_address m idx1 q1 = some a) (h2 : mapped_address m idx2 q2 = some a) :
    idx1 = idx2 ∧ q1 = q2 := by
  obtain ⟨seg1, e1, hs1, _, he1, hv1, ha1⟩ := mapped_address_some h1
  obtain ⟨seg2, e2, hs2, _, he2, hv2, ha2⟩ := mapped_address_some h2
  obtain ⟨h01, hg1⟩ := segment_at_ok hs1
  obtain ⟨h02, hg2⟩ := segment_at_ok hs2
  have hb1 := (hI.frame_marked _ _ e1 ⟨seg1, hg1, he1⟩ hv1).1
  have hb2 := (hI.frame_marked _ _ e2 ⟨seg2, hg2, he2⟩ hv2).1
  have hpn : e1.page_number = e2.page_number ∧ q1 % PAGE_SIZE = q2 % PAGE_SIZE := by
    simp only [NUM_PAGES, UINT_MOD, PAGE_SIZE] at *
    omega
  have := hI.frame_unique _ _ e1 _ _ e2 ⟨seg1, hg1, he1⟩ ⟨seg2, hg2, he2⟩ hv1 hv2 hpn.1
  constructor
  · omega
  · have hq := this.2
    have hm := hpn.2
    simp only [PAGE_SIZE] at hq hm
    omega

theorem mapped_bound {m : MemoryManager} (hI : Inv m) {idx : Int} {q a : Nat}
    (h : mapped_address m idx q = some a) : a < MEMORY_SIZE := by
  obtain ⟨seg, e, hs, _, he, hv, ha⟩ := mapped_address_some h
  have hb := (hI.frame_marked _ _ e ⟨seg, (segment_at_ok hs).2, he⟩ hv).1
  simp only [NUM_PAGES, UINT_MOD, PAGE_SIZE, MEMORY_SIZE] at *
  omega

theorem mapped_in_segment {m : MemoryManager} {idx : Int} {q a : Nat} {seg : Segment}
    (hs : segment_at m idx = .ok (some seg)) (h : mapped_address m idx q = some a) :
    q < seg.size := by
  obtain ⟨seg2, _, hs2, hlt, _⟩ := mapped_address_some h
  rw [hs] at hs2
  cases hs2
  exact hlt

/-! ## The write loop -/

theorem resolve_memory {m m1 : MemoryManager} {idx : Int} {q : Nat} {r : Resolved}
    (hlen : m.page_frames.length = NUM_PAGES)
    (h : resolve_address m idx q = .ok (m1, r)) :
    m1.physical_memory = m.physical_memory := by
  rcases resolve_address_cases hlen h with ⟨hm, _⟩ | ⟨seg, e, _, _, _, hc⟩
  · rw [hm]
  · rcases hc with ⟨_, hm, _⟩ | ⟨_, hm, _⟩ | ⟨_, f, _, _, _, hm, _⟩
    · rw [hm]
    · rw [hm]
    · rw [hm]
      rfl

theorem resolve_null_state {m m1 : MemoryManager} {idx : Int} {q : Nat} {r : Resolved}
    (hlen : m.page_frames.length = NUM_PAGES)
    (h : resolve_address m idx q = .ok (m1, r)) (hr : r.ptr = none) : m1 = m := by
  rcases resolve_address_cases hlen h with ⟨hm, _⟩ | ⟨seg, e, _, _, _, hc⟩
  · exact hm
  · rcases hc with ⟨_, hm, _⟩ | ⟨_, hm, _⟩ | ⟨_, f, _, _, _, _, hr2⟩
    · exact hm
    · exact hm
    · rw [hr2] at hr
      cases hr

theorem ptr_some {r : Resolved} {a : Nat} (h : r.ptr = some a) : r = .address a := by
  cases r with
  | address b =>
    simp only [Resolved.ptr, Option.some.injEq] at h
    rw [h]
  | out_of_range => cases h
  | no_free_pages => cases h

theorem mapped_lt_size_mod {m : MemoryManager} (hI : Inv m) {idx : Int} {q a : Nat}
    (h : mapped_address m idx q = some a) : q + 1 < SIZE_MOD := by
  obtain ⟨seg, _, hs, hlt, _⟩ := mapped_address_some h
  have := (hI.seg_size _ seg (segment_at_ok hs).2).1
  omega

theorem write_loop_spec (idx : Int) (data : Nat → Byte) (offset : Nat) :
    ∀ (fuel i : Nat) (m m1 : MemoryManager) (st : WriteStatus), Inv m →
      offset + i < SIZE_MOD →
      write_loop idx data offset fuel i m = .ok (m1, st) →
      ∃ k, i ≤ k ∧ k ≤ i + fuel ∧
        ((st = .written ∧ k = i + fuel) ∨
          (st = .inaccessible k ∧ k < i + fuel ∧
            ∃ r, resolve_address m1 idx ((offset + k) % SIZE_MOD) = .ok (m1, r) ∧
              r.ptr = none)) ∧
        (∀ j, i ≤ j → j < k →
          ∃ a, mapped_address m1 idx (offset + j) = some a ∧ m1.physical_memory a = data j) ∧
        (∀ (idx2 : Int) (q a : Nat), mapped_address m idx2 q = some a →
          mapped_address m1 idx2 q = some a) ∧
        (∀ a, (∀ j, i ≤ j → j < k → mapped_address m1 idx (offset + j) ≠ some a) →
          m1.physical_memory a = m.physical_memory a) := by
  intro fuel
  induction fuel with
  | zero =>
    intro i m m1 st _ _ h
    simp only [write_loop, Except.ok.injEq, Prod.mk.injEq] at h
    obtain ⟨hm, hst⟩ := h
    subst hm
    refine ⟨i, le_refl _, le_refl _, Or.inl ⟨hst.symm, rfl⟩, ?_, fun _ _ _ h => h, fun _ _ => rfl⟩
    intro j h1 h2
    omega
  | succ n ih =>
    intro i m m1 st hI hbound h
    simp only [write_loop] at h
    rw [Nat.mod_eq_of_lt hbound] at h
    split at h
    · cases h
    · rename_i m2 r hr
      have hI2 := resolve_address_inv hI hr
      split at h
      · rename_i addr hptr
        have hra := ptr_some hptr
        subst hra
        split at h
        · rename_i haddr
          have hmap2 := mapped_of_resolve hI.frames_length hr
          have hI3 : Inv { m2 with physical_memory := store m2.physical_memory addr (data i) } :=
            inv_congr (m := m2) rfl rfl hI2
          have hmap3 : mapped_address
              { m2 with physical_memory := store m2.physical_memory addr (data i) } idx
              (offset + i) = some addr :=
            (mapped_address_mem rfl idx (offset + i)).trans hmap2
          have hb := mapped_lt_size_mod hI2 hmap2
          obtain ⟨k, hk1, hk2, hst, hbytes, hstab, hframe⟩ :=
            ih (i + 1) _ m1 st hI3 (by omega) h
          have hI1 : Inv m1 := write_loop_inv idx data offset n (i + 1) _ m1 st hI3 h
          have hmap1 : mapped_address m1 idx (offset + i) = some addr := hstab _ _ _ hmap3
          refine ⟨k, by omega, by omega, ?_, ?_, ?_, ?_⟩
          · rcases hst with ⟨h1, h2⟩ | ⟨h1, h2, h3⟩
            · exact Or.inl ⟨h1, by omega⟩
            · exact Or.inr ⟨h1, by omega, h3⟩
          · intro j hj1 hj2
            by_cases hji : j = i
            · subst hji
              refine ⟨addr, hmap1, ?_⟩
              rw [hframe addr]
              · simp [store]
              · intro j2 hj21 _ hcon
                have := (mapped_inj hI1 hcon hmap1).2
                omega
            · exact hbytes j (by omega) hj2
          · intro idx2 q a hq
            apply hstab
            exact (mapped_address_mem rfl idx2 q).trans
              (mapped_stable_resolve hI.frames_length hr hq)
          · intro a ha
            rw [hframe a (fun j hj1 hj2 => ha j (by omega) hj2)]
            have hne : a ≠ addr := by
              intro hcon
              subst hcon
              exact ha i (le_refl _) (by omega) hmap1
            simp only [store]
            rw [if_neg hne, resolve_memory hI.frames_length hr]
        · cases h
      · rename_i hptr
        simp only [Except.ok.injEq, Prod.mk.injEq] at h
        obtain ⟨hm, hst⟩ := h
        subst hm
        have hm2 := resolve_null_state hI.frames_length hr hptr
        subst hm2
        refine ⟨i, le_refl _, by omega, Or.inr ⟨hst.symm, by omega, r, ?_, hptr⟩, ?_,
          fun _ _ _ h => h, fun _ _ => rfl⟩
        · rw [Nat.mod_eq_of_lt hbound]
          exact hr
        · intro j h1 h2
          omega

/-- The result of a write that stops at index `k` does not depend on the bytes from
index `k` on. -/
theorem write_loop_data_indep (idx : Int) (data data2 : Nat → Byte) (offset : Nat) :
    ∀ (fuel i : Nat) (m m1 : MemoryManager) (k : Nat),
      write_loop idx data offset fuel i m = .ok (m1, .inaccessible k) →
      i ≤ k ∧ ((∀ j, i ≤ j → j < k → data2 j = data j) →
        write_loop idx data2 offset fuel i m = .ok (m1, .inaccessible k)) := by
  intro fuel
  induction fuel with
  | zero =>
    intro i m m1 k h
    simp only [write_loop, Except.ok.injEq, Prod.mk.injEq] at h
    cases h.2
  | succ n ih =>
    intro i m m1 k h
    simp only [write_loop] at h ⊢
    split at h
    · cases h
    · rename_i m2 r hr
      split at h
      · rename_i addr hptr
        split at h
        · rename_i haddr
          obtain ⟨h1, h2⟩ := ih (i + 1) _ m1 k h
          refine ⟨by omega, fun hag => ?_⟩
          rw [if_pos haddr, hag i (le_refl _) (by omega)]
          exact h2 (fun j hj1 hj2 => hag j (by omega) hj2)
        · cases h
      · rename_i hptr
        simp only [Except.ok.injEq, Prod.mk.injEq, WriteStatus.inaccessible.injEq] at h
        refine ⟨by omega, fun _ => ?_⟩
        rw [h.1, h.2]

/-! ## The read loop -/

theorem read_loop_spec (idx : Int) (offset : Nat) :
    ∀ (fuel i : Nat) (m m1 : MemoryManager) (buf buf1 : Nat → Byte) (st : ReadStatus),
      Inv m → offset + i < SIZE_MOD →
      read_loop idx offset fuel i m buf = .ok (m1, buf1, st) →
      ∃ k, i ≤ k ∧ k ≤ i + fuel ∧
        ((st = .completed ∧ k = i + fuel) ∨
          (st = .inaccessible k ∧ k < i + fuel ∧
            ∃ r, resolve_address m1 idx ((offset + k) % SIZE_MOD) = .ok (m1, r) ∧
              r.ptr = none)) ∧
        m1.physical_memory = m.physical_memory ∧
        (∀ j, i ≤ j → j < k →
          ∃ a, mapped_address m1 idx (offset + j) = some a ∧ buf1 j = m1.physical_memory a) ∧
        (∀ j, (j < i ∨ k ≤ j) → buf1 j = buf j) ∧
        (∀ (idx2 : Int) (q a : Nat), mapped_address m idx2 q = some a →
          mapped_address m1 idx2 q = some a) := by
  intro fuel
  induction fuel with
  | zero =>
    intro i m m1 buf buf1 st _ _ h
    simp only [read_loop, Except.ok.injEq, Prod.mk.injEq] at h
    obtain ⟨hm, hb, hst⟩ := h
    subst hm
    subst hb
    refine ⟨i, le_refl _, le_refl _, Or.inl ⟨hst.symm, rfl⟩, rfl, ?_, fun _ _ => rfl,
      fun _ _ _ h => h⟩
    intro j h1 h2
    omega
  | succ n ih =>
    intro i m m1 buf buf1 st hI hbound h
    simp only [read_loop] at h
    rw [Nat.mod_eq_of_lt hbound] at h
    split at h
    · cases h
    · rename_i m2 r hr
      have hI2 := resolve_address_inv hI hr
      have hmem2 := resolve_memory hI.frames_length hr
      split at h
      · rename_i addr hptr
        have hra := ptr_some hptr
        subst hra
        split at h
        · rename_i haddr
          have hmap2 := mapped_of_resolve hI.frames_length hr
          have hb := mapped_lt_size_mod hI2 hmap2
          obtain ⟨k, hk1, hk2, hst, hmem, hbytes, hbuf, hstab⟩ :=
            ih (i + 1) m2 m1 _ buf1 st hI2 (by omega) h
          refine ⟨k, by omega, by omega, ?_, by rw [hmem, hmem2], ?_, ?_, ?_⟩
          · rcases hst with ⟨h1, h2⟩ | ⟨h1, h2, h3⟩
            · exact Or.inl ⟨h1, by omega⟩
            · exact Or.inr ⟨h1, by omega, h3⟩
          · intro j hj1 hj2
            by_cases hji : j = i
            · subst hji
              refine ⟨addr, hstab _ _ _ hmap2, ?_⟩
              rw [hbuf j (Or.inl (by omega)), hmem]
              simp [store]
            · exact hbytes j (by omega) hj2
          · intro j hj
            rw [hbuf j (by omega)]
            simp only [store]
            rw [if_neg (by omega)]
          · intro idx2 q a hq
            exact hstab _ _ _ (mapped_stable_resolve hI.frames_length hr hq)
        · cases h
      · rename_i hptr
        simp only [Except.ok.injEq, Prod.mk.injEq] at h
        obtain ⟨hm, hb, hst⟩ := h
        subst hm
        subst hb
        have hm2 := resolve_null_state hI.frames_length hr hptr
        subst hm2
        refine ⟨i, le_refl _, by omega, Or.inr ⟨hst.symm, by omega, r, ?_, hptr⟩, rfl, ?_,
          fun _ _ => rfl, fun _ _ _ h => h⟩
        · rw [Nat.mod_eq_of_lt hbound]
          exact hr
        · intro j h1 h2
          omega

/-- Reading a range whose bytes are all mapped completes, changes no state and returns
the stored bytes. -/
theorem read_loop_mapped (idx : Int) (offset : Nat) :
    ∀ (fuel i : Nat) (m : MemoryManager) (buf : Nat → Byte), Inv m →
      offset + i + fuel ≤ SIZE_MOD →
      (∀ j, i ≤ j → j < i + fuel → ∃ a, mapped_address m idx (offset + j) = some a) →
      ∃ buf1, read_loop idx offset fuel i m buf = .ok (m, buf1, .completed) ∧
        (∀ j a, i ≤ j → j < i + fuel → mapped_address m idx (offset + j) = some a →
          buf1 j = m.physical_memory a) ∧
        (∀ j, (j < i ∨ i + fuel ≤ j) → buf1 j = buf j) := by
  intro fuel
  induction fuel with
  | zero =>
    intro i m buf _ _ _
    refine ⟨buf, rfl, ?_, fun _ _ => rfl⟩
    intro j a h1 h2
    omega
  | succ n ih =>
    intro i m buf hI hbound hall
    obtain ⟨a0, ha0⟩ := hall i (le_refl _) (by omega)
    obtain ⟨buf1, h1, h2, h3⟩ := ih (i + 1) m (store buf i (m.physical_memory a0)) hI
      (by omega) (fun j hj1 hj2 => hall j (by omega) (by omega))
    refine ⟨buf1, ?_, ?_, ?_⟩
    · simp only [read_loop]
      rw [Nat.mod_eq_of_lt (by omega), resolve_of_mapped ha0]
      simp only [Resolved.ptr]
      rw [if_pos (mapped_bound hI ha0)]
      exact h1
    · intro j a hj1 hj2 hja
      by_cases hji : j = i
      · subst hji
        rw [ha0] at hja
        cases hja
        rw [h3 j (Or.inl (by omega))]
        simp [store]
      · exact h2 j a (by omega) (by omega) hja
    · intro j hj
      rw [h3 j (by omega)]
      simp only [store]
      rw [if_neg (by omega)]

/-- After a write that stored all `n >= 1` bytes, reading the same range completes,
changes no state and returns the bytes written. -/
theorem read_after_write {m m1 : MemoryManager} (hI : Inv m) {idx : Int}
    {data : Nat → Byte} {n o : Nat} (hn : 1 ≤ n) (ho : o < SIZE_MOD)
    (hw : write_memory m idx data n o = .ok (m1, .written)) (buf : Nat → Byte) :
    ∃ buf1, read_memory m1 idx buf n o = .ok (m1, buf1, .completed) ∧
      ∀ j, j < n → buf1 j = data j := by
  have hI1 := write_memory_inv hI hw
  unfold write_memory at hw
  split at hw
  · cases hw
  · cases hw
  · obtain ⟨k, _, _, hst, hbytes, _, _⟩ :=
      write_loop_spec idx data o n 0 m m1 .written hI (by omega) hw
    have hk : k = n := by
      rcases hst with ⟨_, h2⟩ | ⟨h1, _⟩
      · omega
      · cases h1
    subst hk
    obtain ⟨a0, ha0, _⟩ := hbytes 0 (le_refl _) (by omega)
    obtain ⟨alast, hal, _⟩ := hbytes (k - 1) (Nat.zero_le _) (by omega)
    have hlast := mapped_lt_size_mod hI1 hal
    obtain ⟨seg1, e1, hs1, _, he1, hv1, _⟩ := mapped_address_some ha0
    obtain ⟨buf1, hr1, hr2, _⟩ := read_loop_mapped idx o k 0 m1 buf hI1 (by omega)
      (fun j hj1 hj2 => by
        obtain ⟨a, ha, _⟩ := hbytes j hj1 (by omega)
        exact ⟨a, ha⟩)
    refine ⟨buf1, ?_, ?_⟩
    · unfold read_memory
      rw [hs1]
      simp only [Nat.add_zero] at he1
      simp only [he1]
      rw [if_neg hv1]
      exact hr1
    · intro j hj
      obtain ⟨a, ha, hda⟩ := hbytes j (Nat.zero_le _) hj
      rw [hr2 j a (Nat.zero_le _) (by omega) ha, hda]

/-! ## Releasing a page -/

/-- In a consistent state `free_page` on a valid entry returns normally, in the state
`freed_state`. -/
theorem free_page_valid {m : MemoryManager} (hI : Inv m) {idx : Int} {seg : Segment}
    (hlive : Live m idx seg) {o : Nat} (ho : o < seg.size) {e : PageTableEntry}
    (he : seg.page_table[o / PAGE_SIZE]? = some e) (hv : e.valid ≠ 0) :
    free_page m idx o =
      .ok (freed_state m idx.toNat (o / PAGE_SIZE) seg e, .freed e.page_number) := by
  have hs := segment_at_of_get hlive.1 hlive.2
  have hb := (hI.frame_marked _ _ e ⟨seg, hlive.2, he⟩ hv).1
  have hlt : e.page_number < m.page_frames.length := by
    rw [hI.frames_length]
    exact hb
  have hbase : e.page_number * PAGE_SIZE % UINT_MOD + PAGE_SIZE ≤ MEMORY_SIZE := by
    simp only [NUM_PAGES, UINT_MOD, PAGE_SIZE, MEMORY_SIZE] at *
    omega
  unfold free_page
  rw [hs]
  simp only
  rw [if_neg (by omega)]
  simp only [he]
  rw [if_neg hv, if_pos hlt, if_pos hbase]
  rfl

/-- Valid entries survive a `resolve_address`. -/
theorem entry_stable_resolve {m m1 : MemoryManager} {idx : Int} {q : Nat} {r : Resolved}
    (hlen : m.page_frames.length = NUM_PAGES)
    (h : resolve_address m idx q = .ok (m1, r)) {s p : Nat} {e : PageTableEntry}
    (hE : EntryAt m s p e) (hv : e.valid ≠ 0) : EntryAt m1 s p e := by
  rcases resolve_address_cases hlen h with ⟨hm, _⟩ | ⟨seg, e0, hs, _, he0, hc⟩
  · rw [hm]
    exact hE
  · rcases hc with ⟨_, hm, _⟩ | ⟨_, hm, _⟩ | ⟨hv0, f, _, _, _, hm, _⟩
    · rw [hm]
      exact hE
    · rw [hm]
      exact hE
    · rw [hm]
      have hEq : ∀ s1 p1 e1, EntryAt (fault_state m idx.toNat (q / PAGE_SIZE) f seg) s1 p1 e1 ↔
          (s1 = idx.toNat ∧ p1 = q / PAGE_SIZE ∧ e1 = ⟨f, 1⟩) ∨
            ((s1 ≠ idx.toNat ∨ p1 ≠ q / PAGE_SIZE) ∧ EntryAt m s1 p1 e1) :=
        entryAt_set (segment_at_ok hs).2 he0 rfl
      refine (hEq s p e).mpr (Or.inr ⟨?_, hE⟩)
      by_contra hcon
      push_neg at hcon
      obtain ⟨sg, hsg, hpe⟩ := hE
      rw [hcon.1, (segment_at_ok hs).2] at hsg
      cases hsg
      rw [hcon.2, he0] at hpe
      cases hpe
      exact hv hv0

theorem entry_stable_write_loop (idx : Int) (data : Nat → Byte) (offset : Nat) :
    ∀ (fuel i : Nat) (m m1 : MemoryManager) (st : WriteStatus), Inv m →
      write_loop idx data offset fuel i m = .ok (m1, st) →
      ∀ (s p : Nat) (e : PageTableEntry), EntryAt m s p e → e.valid ≠ 0 →
        EntryAt m1 s p e := by
  intro fuel
  induction fuel with
  | zero =>
    intro i m m1 st _ h s p e hE _
    simp only [write_loop, Except.ok.injEq, Prod.mk.injEq] at h
    rw [← h.1]
    exact hE
  | succ k ih =>
    intro i m m1 st hI h s p e hE hv
    simp only [write_loop] at h
    split at h
    · cases h
    · rename_i m2 r hr
      have hI2 := resolve_address_inv hI hr
      have hE2 := entry_stable_resolve hI.frames_length hr hE hv
      split at h
      · split at h
        · refine ih _ _ _ _ ?_ h s p e ?_ hv
          · exact inv_congr (m := m2) rfl rfl hI2
          · exact (entryAt_congr (m := m2) rfl s p e).mpr hE2
        · cases h
      · simp only [Except.ok.injEq, Prod.mk.injEq] at h
        rw [← h.1]
        exact hE2

theorem entry_stable_read_loop (idx : Int) (offset : Nat) :
    ∀ (fuel i : Nat) (m m1 : MemoryManager) (buf buf1 : Nat → Byte) (st : ReadStatus),
      Inv m → read_loop idx offset fuel i m buf = .ok (m1, buf1, st) →
      ∀ (s p : Nat) (e : PageTableEntry), EntryAt m s p e → e.valid ≠ 0 →
        EntryAt m1 s p e := by
  intro fuel
  induction fuel with
  | zero =>
    intro i m m1 buf buf1 st _ h s p e hE _
    simp only [read_loop, Except.ok.injEq, Prod.mk.injEq] at h
    rw [← h.1]
    exact hE
  | succ k ih =>
    intro i m m1 buf buf1 st hI h s p e hE hv
    simp only [read_loop] at h
    split at h
    · cases h
    · rename_i m2 r hr
      have hI2 := resolve_address_inv hI hr
      have hE2 := entry_stable_resolve hI.frames_length hr hE hv
      split at h
      · split at h
        · exact ih _ _ _ _ _ _ hI2 h s p e hE2 hv
        · cases h
      · simp only [Except.ok.injEq, Prod.mk.injEq] at h
        rw [← h.1]
        exact hE2

/-! ## Claims -/

/-- C4 (bounds): when the handle names a live segment, `resolve_address` returns through
the out-of-range exit of line 84 exactly when `offset >= segment->size`. -/
theorem resolve_out_of_range_iff (m : MemoryManager) (idx : Int) (seg : Segment)
    (offset : Nat) (hlive : Live m idx seg) :
    (∃ m1, resolve_address m idx offset = .ok (m1, .out_of_range)) ↔
      seg.size ≤ offset := by
  have hs := segment_at_of_get hlive.1 hlive.2
  constructor
  · rintro ⟨m1, h⟩
    unfold resolve_address at h
    rw [hs] at h
    simp only at h
    split at h
    · assumption
    · split at h
      · cases h
      · split at h
        · split at h
          · cases h
          · cases h
          · cases h
        · cases h
  · intro hge
    refine ⟨m, ?_⟩
    unfold resolve_address
    rw [hs]
    simp only
    rw [if_pos hge]

theorem resolve_out_of_range_iff_witness :
    Live alloc_state 0 (fresh_segment 8192) ∧
    ((∃ m1, resolve_address alloc_state 0 8192 = .ok (m1, .out_of_range)) ↔
      (fresh_segment 8192).size ≤ 8192) :=
  ⟨by decide, resolve_out_of_range_iff alloc_state 0 (fresh_segment 8192) 8192 (by decide)⟩

/-- C8 (strict read of an unmapped page): when the entry of the page of offset `o` in a
live segment is not valid, `read_memory` of `n` bytes at `o` returns through the
page-invalid exit of line 172 with the buffer and the whole manager state (page
tables, frame bitmap, physical store) unchanged; this is the case right after a
successful `free_page` at that offset.  It holds for every `n` and `o`, so in
particular for `n >= 1` and `o` inside the segment. -/
theorem read_unmapped_page (m : MemoryManager) (idx : Int) (seg : Segment)
    (buf : Nat → Byte) (n o : Nat) (hlive : Live m idx seg) :
    (∀ e, seg.page_table[o / PAGE_SIZE]? = some e → e.valid = 0 →
      read_memory m idx buf n o = .ok (m, buf, .page_invalid)) ∧
    (∀ m1 f, free_page m idx o = .ok (m1, .freed f) →
      read_memory m1 idx buf n o = .ok (m1, buf, .page_invalid)) := by
  have hs := segment_at_of_get hlive.1 hlive.2
  constructor
  · intro e he hv
    unfold read_memory
    rw [hs]
    simp only [he]
    rw [if_pos hv]
  · intro m1 f hfree
    rcases free_page_cases hfree with ⟨_, hst, _⟩ | ⟨sg, e, hsg, _, he, hc⟩
    · cases hst
    · rw [hs] at hsg
      cases hsg
      rcases hc with ⟨_, _, hst⟩ | ⟨_, _, _, hm, _⟩
      · cases hst
      · have hslt : idx.toNat < m.segments.length := (List.getElem?_eq_some.mp hlive.2).1
        have hplt : o / PAGE_SIZE < seg.page_table.length := (List.getElem?_eq_some.mp he).1
        have hs1 : segment_at m1 idx =
            .ok (some { seg with
              page_table := seg.page_table.set (o / PAGE_SIZE) { e with valid := 0 } }) := by
          apply segment_at_of_get hlive.1
          rw [hm]
          simp only [freed_state]
          rw [List.getElem?_set_self hslt]
        unfold read_memory
        rw [hs1]
        simp only
        rw [List.getElem?_set_self hplt]
        simp

theorem read_unmapped_page_witness :
    Live freed_page_state 0 (fresh_segment 8192) ∧
    read_memory freed_page_state 0 zero_buffer 4 200 =
      .ok (freed_page_state, zero_buffer, .page_invalid) :=
  ⟨by decide,
    (read_unmapped_page freed_page_state 0 (fresh_segment 8192) zero_buffer 4 200
      (by decide)).1 ⟨0, 0⟩ (by decide) (by decide)⟩

/-- C6 (segment teardown): in a reachable state `free_segment` on a live segment
returns normally; afterwards every frame referenced by a valid entry of the segment
is marked free, every other cell of the frame bitmap is unchanged, the slot is
empty, and `resolve_address` on the handle fails for every offset. -/
theorem segment_teardown (m : MemoryManager) (hR : Reachable m) (idx : Int)
    (seg : Segment) (hlive : Live m idx seg) :
    ∃ m1, free_segment m idx = .ok m1 ∧
      (∀ g : Nat, HoldsFrame seg g → m1.page_frames[g]? = some 0) ∧
      (∀ g : Nat, ¬ HoldsFrame seg g → m1.page_frames[g]? = m.page_frames[g]?) ∧
      m1.segments[idx.toNat]? = some none ∧
      ∀ offset : Nat, resolve_address m1 idx offset = .ok (m1, .out_of_range) := by
  obtain ⟨fr1, h1, _, h3, h4⟩ := free_segment_live (reachable_inv hR) hlive.1 hlive.2
  have hslt : idx.toNat < m.segments.length := (List.getElem?_eq_some.mp hlive.2).1
  refine ⟨_, h1, h3, h4, ?_, ?_⟩
  · simp only
    rw [List.getElem?_set_self hslt]
  · intro offset
    have hs1 : segment_at
        { segments := m.segments.set idx.toNat none
          physical_memory := m.physical_memory
          page_frames := fr1 } idx = .ok none := by
      apply segment_at_of_get hlive.1
      simp only
      rw [List.getElem?_set_self hslt]
    unfold resolve_address
    rw [hs1]

theorem segment_teardown_witness :
    Reachable written_state ∧ Live written_state 0 written_segment ∧
    ∃ m1, free_segment written_state 0 = .ok m1 ∧
      (∀ g : Nat, HoldsFrame written_segment g → m1.page_frames[g]? = some 0) ∧
      (∀ g : Nat, ¬ HoldsFrame written_segment g →
        m1.page_frames[g]? = written_state.page_frames[g]?) ∧
      m1.segments[(0 : Int).toNat]? = some none ∧
      ∀ offset : Nat, resolve_address m1 0 offset = .ok (m1, .out_of_range) :=
  ⟨reachable_script _ _ (by decide), by decide,
    segment_teardown written_state (reachable_script _ _ (by decide)) 0 written_segment
      (by decide)⟩

/-- C2 (frame uniqueness): in every state reachable from `init_memory_manager`, two
valid page-table entries at distinct places (slot, page) of live segments hold
different frame indices. -/
theorem frame_uniqueness (m : MemoryManager) (hR : Reachable m) (s1 p1 s2 p2 : Nat)
    (e1 e2 : PageTableEntry) (h1 : EntryAt m s1 p1 e1) (h2 : EntryAt m s2 p2 e2)
    (hv1 : e1.valid ≠ 0) (hv2 : e2.valid ≠ 0) (hne : s1 ≠ s2 ∨ p1 ≠ p2) :
    e1.page_number ≠ e2.page_number := by
  intro hpn
  have := (reachable_inv hR).frame_unique s1 p1 e1 s2 p2 e2 h1 h2 hv1 hv2 hpn
  rcases hne with hne | hne
  · exact hne this.1
  · exact hne this.2

theorem frame_uniqueness_witness :
    Reachable two_page_state ∧ EntryAt two_page_state 0 0 ⟨0, 1⟩ ∧
    EntryAt two_page_state 0 1 ⟨1, 1⟩ ∧
    (⟨0, 1⟩ : PageTableEntry).page_number ≠ (⟨1, 1⟩ : PageTableEntry).page_number :=
  ⟨reachable_script _ _ (by decide), ⟨two_page_segment, by decide, by decide⟩,
    ⟨two_page_segment, by decide, by decide⟩,
    frame_uniqueness two_page_state (reachable_script _ _ (by decide)) 0 0 0 1 ⟨0, 1⟩ ⟨1, 1⟩
      ⟨two_page_segment, by decide, by decide⟩ ⟨two_page_segment, by decide, by decide⟩
      (by decide) (by decide) (Or.inr (by decide))⟩

/-- C3 (exhaustion): in a reachable state in which `NUM_PAGES` page-table entries are
valid, `resolve_address` on an in-bounds offset of a live segment whose page is not
valid returns `NULL` through the no-free-pages exit of line 96, and the manager
state (page tables, frame bitmap, physical store) after the call is the state
before it. -/
theorem exhaustion (m : MemoryManager) (hR : Reachable m)
    (hfull : valid_count m = NUM_PAGES) (idx : Int) (seg : Segment)
    (hlive : Live m idx seg) (offset : Nat) (hin : offset < seg.size)
    (hnv : ∀ e, seg.page_table[offset / PAGE_SIZE]? = some e → e.valid = 0) :
    resolve_address m idx offset = .ok (m, .no_free_pages) ∧
      Resolved.no_free_pages.ptr = none :=
  ⟨resolve_exhausted (reachable_inv hR) hfull hlive hin hnv, rfl⟩

theorem exhaustion_witness :
    Reachable (faulted 256) ∧ valid_count (faulted 256) = NUM_PAGES ∧
    Live (faulted 256) 0 (faulted_segment 256) ∧ 131072 < (faulted_segment 256).size ∧
    (faulted_segment 256).page_table[131072 / PAGE_SIZE]? = some ⟨0, 0⟩ ∧
    resolve_address (faulted 256) 0 131072 = .ok (faulted 256, .no_free_pages) ∧
    Resolved.no_free_pages.ptr = none :=
  ⟨reachable_faulted 256 (le_refl _), by decide, by decide, by decide, by decide,
    exhaustion (faulted 256) (reachable_faulted 256 (le_refl _)) (by decide) 0
      (faulted_segment 256) (by decide) 131072 (by decide)
      (fun e he => by
        have h : (faulted_segment 256).page_table[131072 / PAGE_SIZE]? = some ⟨0, 0⟩ := by
          decide
        rw [h] at he
        cases he
        rfl)⟩

/-- C10 (partial write): in a reachable state, when `write_memory` stops at loop index
`k` (the translation of byte `k` is the first to fail, line 129), then `k < n`, the
translation of offset `o + k` fails in the final state, every byte `data j` with
`j < k` is stored at the physical location of offset `o + j`, every other byte of
the physical store is what it was before the call, and the final state does not
depend on the bytes `data j` with `j >= k`. -/
theorem partial_write (m : MemoryManager) (hR : Reachable m) (idx : Int)
    (data : Nat → Byte) (n o k : Nat) (ho : o < SIZE_MOD) (m1 : MemoryManager)
    (h : write_memory m idx data n o = .ok (m1, .inaccessible k)) :
    k < n ∧
    (∃ r, resolve_address m1 idx ((o + k) % SIZE_MOD) = .ok (m1, r) ∧ r.ptr = none) ∧
    (∀ j, j < k → ∃ a, resolve_address m1 idx (o + j) = .ok (m1, .address a) ∧
      m1.physical_memory a = data j) ∧
    (∀ a, (∀ j, j < k → resolve_address m1 idx (o + j) ≠ .ok (m1, .address a)) →
      m1.physical_memory a = m.physical_memory a) ∧
    (∀ data2 : Nat → Byte, (∀ j, j < k → data2 j = data j) →
      write_memory m idx data2 n o = .ok (m1, .inaccessible k)) := by
  have hI := reachable_inv hR
  unfold write_memory at h ⊢
  split at h
  · cases h
  · cases h
  · obtain ⟨k1, _, _, hst, hbytes, _, hframe⟩ :=
      write_loop_spec idx data o n 0 m m1 (.inaccessible k) hI (by omega) h
    rcases hst with ⟨h1, _⟩ | ⟨h1, h2, h3⟩
    · cases h1
    · cases h1
      refine ⟨by omega, h3, ?_, ?_, ?_⟩
      · intro j hj
        obtain ⟨a, ha, hda⟩ := hbytes j (Nat.zero_le _) hj
        exact ⟨a, resolve_of_mapped ha, hda⟩
      · intro a ha
        apply hframe a
        intro j _ hj hmap
        exact ha j hj (resolve_of_mapped hmap)
      · intro data2 hag
        exact (write_loop_data_indep idx data data2 o n 0 m m1 k h).2
          (fun j _ hj => hag j hj)

theorem partial_write_witness :
    Reachable short_state ∧ (0 : Nat) < SIZE_MOD ∧
    write_memory short_state 0 abcd_bytes 4 0 = .ok (short_written, .inaccessible 2) ∧
    2 < 4 ∧
    (∃ r, resolve_address short_written 0 ((0 + 2) % SIZE_MOD) = .ok (short_written, r) ∧
      r.ptr = none) ∧
    (∀ j, j < 2 → ∃ a, resolve_address short_written 0 (0 + j) =
        .ok (short_written, .address a) ∧
      short_written.physical_memory a = abcd_bytes j) ∧
    (∀ a, (∀ j, j < 2 → resolve_address short_written 0 (0 + j) ≠
        .ok (short_written, .address a)) →
      short_written.physical_memory a = short_state.physical_memory a) ∧
    (∀ data2 : Nat → Byte, (∀ j, j < 2 → data2 j = abcd_bytes j) →
      write_memory short_state 0 data2 4 0 = .ok (short_written, .inaccessible 2)) :=
  ⟨reachable_script _ _ (by decide), by decide, rfl,
    partial_write short_state (reachable_script _ _ (by decide)) 0 abcd_bytes 4 0 2
      (by decide) short_written rfl⟩

/-- C1 fails as stated: in the reachable state `faulted 256` all 256 frames are in
use; offset 131072 lies in the live segment (of size 131584) on a page that is
not mapped.  Writing one byte there stops at index 0 and stores nothing, and the
read that follows reports an invalid page and leaves the buffer at its old
content, which differs from the byte that was to be written. -/
theorem round_trip_fails_when_exhausted :
    Reachable (faulted 256) ∧ Live (faulted 256) 0 (faulted_segment 256) ∧
    131072 + 1 ≤ (faulted_segment 256).size ∧
    write_memory (faulted 256) 0 (fun _ => 7) 1 131072 =
      .ok (faulted 256, .inaccessible 0) ∧
    read_memory (faulted 256) 0 zero_buffer 1 131072 =
      .ok (faulted 256, zero_buffer, .page_invalid) ∧
    zero_buffer 0 ≠ (7 : Byte) := by
  have hR := reachable_faulted 256 (le_refl _)
  have hlive : Live (faulted 256) 0 (faulted_segment 256) := by decide
  have hs : segment_at (faulted 256) 0 = .ok (some (faulted_segment 256)) := rfl
  have he : (faulted_segment 256).page_table[131072 / PAGE_SIZE]? = some ⟨0, 0⟩ := by decide
  have hres : resolve_address (faulted 256) 0 131072 =
      .ok (faulted 256, .no_free_pages) :=
    resolve_exhausted (reachable_inv hR) (by decide) hlive (by decide)
      (fun e h => by
        rw [he] at h
        cases h
        rfl)
  refine ⟨hR, hlive, by decide, ?_, ?_, by decide⟩
  · unfold write_memory
    rw [hs]
    simp only [write_loop]
    rw [Nat.mod_eq_of_lt (by decide), hres]
    rfl
  · unfold read_memory
    rw [hs]
    simp only [he]
    rfl

/-- C9, as amended (buffer after a failed read): in a reachable state, when
`read_memory` reports an invalid page the buffer and the state are unchanged; when
it reports an inaccessible address at index `k`, then `k < n`, the buffer is
unchanged from index `k` on, and each byte at an index `j < k` has been
overwritten with the byte stored at offset `o + j`. -/
theorem read_failure_buffer (m : MemoryManager) (hR : Reachable m) (idx : Int)
    (buf : Nat → Byte) (n o : Nat) (ho : o < SIZE_MOD) (m1 : MemoryManager)
    (buf1 : Nat → Byte) (st : ReadStatus)
    (h : read_memory m idx buf n o = .ok (m1, buf1, st)) :
    (st = .page_invalid → buf1 = buf ∧ m1 = m) ∧
    (∀ k, st = .inaccessible k →
      k < n ∧ (∀ j, k ≤ j → buf1 j = buf j) ∧
      (∀ j, j < k → ∃ a, resolve_address m1 idx (o + j) = .ok (m1, .address a) ∧
        buf1 j = m1.physical_memory a)) := by
  have hI := reachable_inv hR
  unfold read_memory at h
  split at h
  · cases h
  · cases h
  · simp only at h
    split at h
    · cases h
    · split at h
      · simp only [Except.ok.injEq, Prod.mk.injEq] at h
        obtain ⟨hm, hb, hst⟩ := h
        subst hst
        refine ⟨?_, ?_⟩
        · intro _
          exact ⟨hb.symm, hm.symm⟩
        · intro k hk
          cases hk
      · obtain ⟨k1, _, _, hst, _, hbytes, hbuf, _⟩ :=
          read_loop_spec idx o n 0 m m1 buf buf1 st hI (by omega) h
        rcases hst with ⟨h1, _⟩ | ⟨h1, h2, _⟩
        · subst h1
          refine ⟨?_, ?_⟩
          · intro hc
            cases hc
          · intro k hk
            cases hk
        · subst h1
          refine ⟨?_, ?_⟩
          · intro hc
            cases hc
          · intro k hk
            cases hk
            refine ⟨by omega, fun j hj => hbuf j (Or.inr hj), fun j hj => ?_⟩
            obtain ⟨a, ha, hba⟩ := hbytes j (Nat.zero_le _) hj
            exact ⟨a, resolve_of_mapped ha, hba⟩

theorem read_failure_buffer_witness :
    Reachable short_written ∧ (0 : Nat) < SIZE_MOD ∧
    read_memory short_written 0 zero_buffer 4 0 =
      .ok (short_written, store (store zero_buffer 0 0x61) 1 0x62, .inaccessible 2) ∧
    (ReadStatus.inaccessible 2 = .page_invalid →
      store (store zero_buffer 0 0x61) 1 0x62 = zero_buffer ∧ short_written = short_written) ∧
    (∀ k, ReadStatus.inaccessible 2 = .inaccessible k →
      k < 4 ∧ (∀ j, k ≤ j → store (store zero_buffer 0 0x61) 1 0x62 j = zero_buffer j) ∧
      (∀ j, j < k → ∃ a, resolve_address short_written 0 (0 + j) =
          .ok (short_written, .address a) ∧
        store (store zero_buffer 0 0x61) 1 0x62 j = short_written.physical_memory a)) :=
  ⟨reachable_script _ _ (by decide), by decide, rfl,
    read_failure_buffer short_written (reachable_script _ _ (by decide)) 0 zero_buffer 4 0
      (by decide) short_written (store (store zero_buffer 0 0x61) 1 0x62) (.inaccessible 2)
      rfl⟩

/-- C9 fails as stated: in the reachable state `short_written` (a segment of two
bytes holding "ab") a read of four bytes at offset 0 into a zeroed buffer reports
an inaccessible address at index 2, and the buffer then holds "ab" in its first
two bytes: byte 0 is `0x61`, not the `0` it was before the call. -/
theorem failed_read_changes_buffer :
    Reachable short_written ∧
    read_memory short_written 0 zero_buffer 4 0 =
      .ok (short_written, store (store zero_buffer 0 0x61) 1 0x62, .inaccessible 2) ∧
    store (store zero_buffer 0 0x61) 1 0x62 0 ≠ zero_buffer 0 :=
  ⟨reachable_script _ _ (by decide), rfl, by decide⟩

/-- C7 at its failing input: in the reachable state `written_state` page 0 is mapped
and page 1 is not (frame 1 is free).  `read_memory` of four bytes at offset 510
passes the validity test of line 170 on page 0, and the loop then faults page 1 in:
the call completes, frame 1 is marked allocated, entry 1 is valid, and the bytes
copied for offsets 512 and 513 are the uninitialised content of frame 1. -/
theorem read_allocates_second_page :
    Reachable written_state ∧ Live written_state 0 written_segment ∧
    written_segment.page_table[510 / PAGE_SIZE]? = some ⟨0, 1⟩ ∧
    written_segment.page_table[513 / PAGE_SIZE]? = some ⟨0, 0⟩ ∧
    written_state.page_frames[1]? = some 0 ∧
    read_memory written_state 0 zero_buffer 4 510 =
      .ok (read_across_state,
        store (store (store (store zero_buffer 0 0xAA) 1 0xAA) 2 0xAA) 3 0xAA,
        .completed) ∧
    read_across_state.page_frames[1]? = some 1 ∧
    EntryAt read_across_state 0 1 ⟨1, 1⟩ :=
  ⟨reachable_script _ _ (by decide), by decide, by decide, by decide, by decide, rfl,
    by decide,
    ⟨{ size := 8192
       page_table := ((List.replicate 16 ⟨0, 0⟩).set 0 ⟨0, 1⟩).set 1 ⟨1, 1⟩ },
      by decide, by decide⟩⟩

/-- C5 at its failing inputs.  First trace (store filled with `0xAA` by `malloc`):
`free_page(0, 0)` succeeds and releases frame 0; a fault on page 2 takes frame 0;
the next fault on page 0 maps it to frame 2, which was never cleared, and the byte
read at offset 0 is `0xAA`.  Second trace (store zero-filled): after the
successful `free_page(0, 0)` the segment is destroyed and re-created in the same
slot; page 1 takes frame 0 and page 0 takes frame 1, which `free_segment` released
without clearing, and the byte read at offset 0 is the `0x61` that was written to
the old page 1. -/
theorem residual_data_after_free_page :
    (Reachable leak_freed_state ∧
      free_page two_page_state 0 0 = .ok (leak_freed_state, .freed 0) ∧
      resolve_address leak_freed_state 0 1024 = .ok (leak_other_state, .address 0) ∧
      resolve_address leak_other_state 0 0 = .ok (leak_state, .address 1024) ∧
      read_memory leak_state 0 zero_buffer 1 0 =
        .ok (leak_state, store zero_buffer 0 0xAA, .completed) ∧
      store zero_buffer 0 0xAA 0 ≠ 0) ∧
    (Reachable reuse_freed_state ∧
      (∃ m0, free_page m0 0 0 = .ok (reuse_freed_state, .freed 0)) ∧
      run_calls [.free_seg 0, .alloc_seg 8192, .resolve 0 512] reuse_freed_state =
        some reuse_other_state ∧
      resolve_address reuse_other_state 0 0 = .ok (reuse_state, .address 512) ∧
      read_memory reuse_state 0 zero_buffer 1 0 =
        .ok (reuse_state, store zero_buffer 0 0x61, .completed) ∧
      store zero_buffer 0 0x61 0 ≠ 0) :=
  ⟨⟨reachable_script _ _ (by decide), rfl, rfl, rfl, rfl, by decide⟩,
    ⟨reachable_script _ _ (by decide),
      ⟨script_state zero_buffer
          [.alloc_seg 8192, .write 0 abcd_bytes 1 0, .write 0 abcd_bytes 1 512], rfl⟩,
      rfl, rfl, rfl, by decide⟩⟩

/-- C11 (first-fit frame allocation): on a frame bitmap of `NUM_PAGES` cells
`allocate_page` always returns; when it returns an index `i`, that is the smallest
index whose cell is 0, the cell is 1 afterwards and every other cell (and the
rest of the state) is unchanged; it returns `-1` exactly when no cell is 0, and
then the state is unchanged. -/
theorem first_fit_allocation (m : MemoryManager)
    (hlen : m.page_frames.length = NUM_PAGES) :
    (∃ m1 r, allocate_page m = .ok (m1, r)) ∧
    (∀ m1 i, allocate_page m = .ok (m1, some i) →
      i < NUM_PAGES ∧ m.page_frames[i]? = some 0 ∧
      (∀ j, j < i → m.page_frames[j]? ≠ some 0) ∧
      m1.page_frames[i]? = some 1 ∧
      (∀ j, j ≠ i → m1.page_frames[j]? = m.page_frames[j]?) ∧
      m1.segments = m.segments ∧ m1.physical_memory = m.physical_memory) ∧
    (∀ m1, allocate_page m = .ok (m1, none) → m1 = m) ∧
    ((∃ m1, allocate_page m = .ok (m1, none)) ↔
      ∀ j, j < NUM_PAGES → m.page_frames[j]? ≠ some 0) := by
  rcases allocate_page_spec m hlen with ⟨f, hf, hf0, hmin, hal⟩ | ⟨hnone, hal⟩
  · refine ⟨⟨_, _, hal⟩, ?_, ?_, ?_⟩
    · intro m1 i h
      rw [hal] at h
      simp only [Except.ok.injEq, Prod.mk.injEq, Option.some.injEq] at h
      obtain ⟨hm, hi⟩ := h
      subst hi
      subst hm
      refine ⟨hf, hf0, hmin, ?_, ?_, rfl, rfl⟩
      · simp only
        rw [List.getElem?_set_self (by rw [hlen]; exact hf)]
      · intro j hj
        simp only
        rw [List.getElem?_set_ne (Ne.symm hj)]
    · intro m1 h
      rw [hal] at h
      simp only [Except.ok.injEq, Prod.mk.injEq] at h
      cases h.2
    · constructor
      · rintro ⟨m1, h⟩
        rw [hal] at h
        simp only [Except.ok.injEq, Prod.mk.injEq] at h
        cases h.2
      · intro hall
        exact absurd hf0 (hall f hf)
  · refine ⟨⟨_, _, hal⟩, ?_, ?_, ?_⟩
    · intro m1 i h
      rw [hal] at h
      simp only [Except.ok.injEq, Prod.mk.injEq] at h
      cases h.2
    · intro m1 h
      rw [hal] at h
      simp only [Except.ok.injEq, Prod.mk.injEq] at h
      exact h.1.symm
    · exact ⟨fun _ => hnone, fun _ => ⟨m, hal⟩⟩

theorem first_fit_allocation_witness :
    written_state.page_frames.length = NUM_PAGES ∧
    (∃ m1 r, allocate_page written_state = .ok (m1, r)) ∧
    (∀ m1 i, allocate_page written_state = .ok (m1, some i) →
      i < NUM_PAGES ∧ written_state.page_frames[i]? = some 0 ∧
      (∀ j, j < i → written_state.page_frames[j]? ≠ some 0) ∧
      m1.page_frames[i]? = some 1 ∧
      (∀ j, j ≠ i → m1.page_frames[j]? = written_state.page_frames[j]?) ∧
      m1.segments = written_state.segments ∧
      m1.physical_memory = written_state.physical_memory) ∧
    (∀ m1, allocate_page written_state = .ok (m1, none) → m1 = written_state) ∧
    ((∃ m1, allocate_page written_state = .ok (m1, none)) ↔
      ∀ j, j < NUM_PAGES → written_state.page_frames[j]? ≠ some 0) :=
  ⟨by decide, first_fit_allocation written_state (by decide)⟩

/-- C16 (segment creation): on a segment table of `SEGMENT_COUNT` slots
`allocate_segment(size)` always returns; when it returns a handle `k`, that is the
lowest empty slot, the slot then holds a segment of the given size whose
page-table entries are all invalid, and every other slot, the frame bitmap and the
physical store are unchanged; it returns `-1` exactly when every slot is occupied,
and then the state is unchanged. -/
theorem segment_creation (m : MemoryManager) (size : Nat)
    (hlen : m.segments.length = SEGMENT_COUNT) :
    (∃ m1 r, allocate_segment m size = .ok (m1, r)) ∧
    (∀ m1 k, allocate_segment m size = .ok (m1, some k) →
      k < SEGMENT_COUNT ∧ m.segments[k]? = some none ∧
      (∀ j, j < k → ∃ sg, m.segments[j]? = some (some sg)) ∧
      (∃ seg, m1.segments[k]? = some (some seg) ∧ seg.size = size ∧
        ∀ e, e ∈ seg.page_table → e.valid = 0) ∧
      (∀ j, j ≠ k → m1.segments[j]? = m.segments[j]?) ∧
      m1.page_frames = m.page_frames ∧ m1.physical_memory = m.physical_memory) ∧
    (∀ m1, allocate_segment m size = .ok (m1, none) → m1 = m) ∧
    ((∃ m1, allocate_segment m size = .ok (m1, none)) ↔
      ∀ j, j < SEGMENT_COUNT → ∃ sg, m.segments[j]? = some (some sg)) := by
  rcases allocate_segment_spec m size hlen with ⟨k, hk, hk0, hmin, hal⟩ | ⟨hall, hal⟩
  · refine ⟨⟨_, _, hal⟩, ?_, ?_, ?_⟩
    · intro m1 i h
      rw [hal] at h
      simp only [Except.ok.injEq, Prod.mk.injEq, Option.some.injEq] at h
      obtain ⟨hm, hi⟩ := h
      subst hi
      subst hm
      refine ⟨hk, hk0, hmin, ⟨fresh_segment size, ?_, rfl, ?_⟩, ?_, rfl, rfl⟩
      · simp only
        rw [List.getElem?_set_self (by rw [hlen]; exact hk)]
      · intro e he
        simp only [fresh_segment] at he
        rw [List.eq_of_mem_replicate he]
      · intro j hj
        simp only
        rw [List.getElem?_set_ne (Ne.symm hj)]
    · intro m1 h
      rw [hal] at h
      simp only [Except.ok.injEq, Prod.mk.injEq] at h
      cases h.2
    · constructor
      · rintro ⟨m1, h⟩
        rw [hal] at h
        simp only [Except.ok.injEq, Prod.mk.injEq] at h
        cases h.2
      · intro hall
        obtain ⟨sg, hsg⟩ := hall k hk
        rw [hk0] at hsg
        cases hsg
  · refine ⟨⟨_, _, hal⟩, ?_, ?_, ?_⟩
    · intro m1 i h
      rw [hal] at h
      simp only [Except.ok.injEq, Prod.mk.injEq] at h
      cases h.2
    · intro m1 h
      rw [hal] at h
      simp only [Except.ok.injEq, Prod.mk.injEq] at h
      exact h.1.symm
    · exact ⟨fun _ => hall, fun _ => ⟨m, hal⟩⟩

theorem segment_creation_witness :
    (init_memory_manager demo_garbage).segments.length = SEGMENT_COUNT ∧
    allocate_segment (init_memory_manager demo_garbage) 8192 = .ok (alloc_state, some 0) ∧
    0 < SEGMENT_COUNT ∧ (init_memory_manager demo_garbage).segments[0]? = some none ∧
    (∃ seg, alloc_state.segments[0]? = some (some seg) ∧ seg.size = 8192 ∧
      ∀ e, e ∈ seg.page_table → e.valid = 0) ∧
    alloc_state.page_frames = (init_memory_manager demo_garbage).page_frames ∧
    alloc_state.physical_memory = (init_memory_manager demo_garbage).physical_memory :=
  have h := (segment_creation (init_memory_manager demo_garbage) 8192 (by decide)).2.1
    alloc_state 0 rfl
  ⟨by decide, rfl, h.1, h.2.1, h.2.2.2.1, h.2.2.2.2.2.1, h.2.2.2.2.2.2⟩

/-- C18 (physical bounds safety): in a reachable state, when `resolve_address` returns
an address for `(idx, off)`, the entry of page `off / 512` of the segment is then
valid, the address is `page_number * 512 + off mod 512` for that entry's
`page_number`, the `page_number` is below `NUM_PAGES` and the address is below
`MEMORY_SIZE`; every valid entry of the state has a `page_number` below
`NUM_PAGES`. -/
theorem physical_bounds (m : MemoryManager) (hR : Reachable m) (idx : Int) (off : Nat)
    (m1 : MemoryManager) (a : Nat)
    (h : resolve_address m idx off = .ok (m1, .address a)) :
    (∃ seg e, Live m1 idx seg ∧ seg.page_table[off / PAGE_SIZE]? = some e ∧
      e.valid ≠ 0 ∧ a = e.page_number * PAGE_SIZE + off % PAGE_SIZE ∧
      e.page_number < NUM_PAGES) ∧
    a < MEMORY_SIZE ∧
    (∀ s p e, EntryAt m s p e → e.valid ≠ 0 → e.page_number < NUM_PAGES) := by
  have hI := reachable_inv hR
  have hI1 := resolve_address_inv hI h
  have hmap := mapped_of_resolve hI.frames_length h
  obtain ⟨seg, e, hs, _, he, hv, ha⟩ := mapped_address_some hmap
  obtain ⟨h0, hget⟩ := segment_at_ok hs
  have hb := (hI1.frame_marked _ _ e ⟨seg, hget, he⟩ hv).1
  have hmod : e.page_number * PAGE_SIZE % UINT_MOD = e.page_number * PAGE_SIZE :=
    Nat.mod_eq_of_lt (by simp only [NUM_PAGES, UINT_MOD, PAGE_SIZE] at *; omega)
  rw [hmod] at ha
  exact ⟨⟨seg, e, ⟨h0, hget⟩, he, hv, ha, hb⟩, mapped_bound hI1 hmap,
    fun s p e1 hE hv1 => (hI.frame_marked s p e1 hE hv1).1⟩

theorem physical_bounds_witness :
    Reachable alloc_state ∧
    resolve_address alloc_state 0 700 = .ok (one_fault_state, .address 188) ∧
    (∃ seg e, Live one_fault_state 0 seg ∧ seg.page_table[700 / PAGE_SIZE]? = some e ∧
      e.valid ≠ 0 ∧ 188 = e.page_number * PAGE_SIZE + 700 % PAGE_SIZE ∧
      e.page_number < NUM_PAGES) ∧
    188 < MEMORY_SIZE ∧
    (∀ s p e, EntryAt alloc_state s p e → e.valid ≠ 0 → e.page_number < NUM_PAGES) :=
  ⟨reachable_script _ _ (by decide), rfl,
    physical_bounds alloc_state (reachable_script _ _ (by decide)) 0 700
      one_fault_state 188 rfl⟩

/-- C15 at its failing inputs.  With no segment in slot 0, `read_memory` loads
`segment->page_table` through the null pointer (line 165) before the null test of
line 166.  With a live segment of 8192 bytes (16 page-table cells) and offset 8192,
which is outside the segment, `read_memory` reads cell 16 of the page table (line
170); there is no test of `offset` against `segment->size` before it.  On the same
inputs `resolve_address` and `free_page` test both conditions first and return. -/
theorem read_memory_indexes_unchecked :
    (init_memory_manager demo_garbage).segments[(0 : Int).toNat]? = some none ∧
    read_memory (init_memory_manager demo_garbage) 0 zero_buffer 1 0 =
      .error .null_deref ∧
    resolve_address (init_memory_manager demo_garbage) 0 0 =
      .ok (init_memory_manager demo_garbage, .out_of_range) ∧
    Live alloc_state 0 (fresh_segment 8192) ∧
    (fresh_segment 8192).size ≤ 8192 ∧
    (fresh_segment 8192).page_table.length = 16 ∧
    read_memory alloc_state 0 zero_buffer 1 8192 = .error .out_of_bounds ∧
    resolve_address alloc_state 0 8192 = .ok (alloc_state, .out_of_range) ∧
    free_page alloc_state 0 8192 = .ok (alloc_state, .not_found_or_range) :=
  ⟨by decide, rfl, rfl, by decide, by decide, by decide, rfl, rfl, rfl⟩

theorem ceil_pages_spec (size : Nat) :
    size ≤ PAGE_SIZE * ceil_pages size ∧
      ∀ k, size ≤ PAGE_SIZE * k → ceil_pages size ≤ k := by
  unfold ceil_pages
  simp only [PAGE_SIZE]
  split
  · constructor
    · omega
    · intro k hk
      omega
  · constructor
    · omega
    · intro k hk
      omega

/-- The page count of lines 50 and 68 is the ceiling as long as `size + 511` does
not wrap. -/
theorem num_pages_eq_ceil (size : Nat) (h : size + PAGE_SIZE - 1 < SIZE_MOD) :
    num_pages size = ceil_pages size := by
  unfold num_pages ceil_pages
  rw [Nat.mod_eq_of_lt h]
  simp only [PAGE_SIZE]
  split <;> omega

/-- C12 at its failing input `size = SIZE_MAX = 2^64 - 1`: `size + PAGE_SIZE - 1` wraps
to 510, so the page count computed at lines 50 and 68 is 0, while the ceiling of
`size / 512` is `2^55`.  `allocate_segment(SIZE_MAX)` therefore creates a live
segment of `SIZE_MAX` bytes with an empty page table, and `resolve_address` at
offset 0, which is inside the segment, indexes cell 0 of that empty table. -/
theorem page_count_wraps :
    SIZE_MAX < SIZE_MOD ∧
    num_pages SIZE_MAX = 0 ∧ ceil_pages SIZE_MAX = 36028797018963968 ∧
    Reachable huge_state ∧
    Live huge_state 0 { size := SIZE_MAX, page_table := [] } ∧
    resolve_address huge_state 0 0 = .error .out_of_bounds :=
  ⟨by decide, by decide, by decide, reachable_script _ _ (by decide), by decide, rfl⟩

/-- C13 (`free_page` contract): in a reachable state, for a live segment, an offset
`o` inside it and the entry `e` of page `o / 512`: when `e` is not valid,
`free_page` returns through the page-invalid exit with the state unchanged; when
`e` is valid, `free_page` returns normally and afterwards the entry is `e` with
`valid = 0`, the bitmap cell of its frame is 0, the 512 bytes of the frame are 0,
and every other page-table entry, every other bitmap cell and every byte outside
the frame are unchanged (the segment keeps its slot, size and table length). -/
theorem free_page_contract (m : MemoryManager) (hR : Reachable m) (idx : Int)
    (seg : Segment) (hlive : Live m idx seg) (o : Nat) (ho : o < seg.size)
    (e : PageTableEntry) (he : seg.page_table[o / PAGE_SIZE]? = some e) :
    (e.valid = 0 → free_page m idx o = .ok (m, .page_invalid)) ∧
    (e.valid ≠ 0 → ∃ m1, free_page m idx o = .ok (m1, .freed e.page_number) ∧
      EntryAt m1 idx.toNat (o / PAGE_SIZE) { e with valid := 0 } ∧
      m1.page_frames[e.page_number]? = some 0 ∧
      (∀ a, e.page_number * PAGE_SIZE ≤ a → a < e.page_number * PAGE_SIZE + PAGE_SIZE →
        m1.physical_memory a = 0) ∧
      (∀ s p e1, (s ≠ idx.toNat ∨ p ≠ o / PAGE_SIZE) →
        (EntryAt m1 s p e1 ↔ EntryAt m s p e1)) ∧
      (∀ g, g ≠ e.page_number → m1.page_frames[g]? = m.page_frames[g]?) ∧
      (∀ a, (a < e.page_number * PAGE_SIZE ∨ e.page_number * PAGE_SIZE + PAGE_SIZE ≤ a) →
        m1.physical_memory a = m.physical_memory a) ∧
      (∃ seg1, Live m1 idx seg1 ∧ seg1.size = seg.size ∧
        seg1.page_table.length = seg.page_table.length)) := by
  have hI := reachable_inv hR
  have hs := segment_at_of_get hlive.1 hlive.2
  constructor
  · intro hv
    unfold free_page
    rw [hs]
    simp only
    rw [if_neg (by omega)]
    simp only [he]
    rw [if_pos hv]
  · intro hv
    have hb := (hI.frame_marked _ _ e ⟨seg, hlive.2, he⟩ hv).1
    have hlt : e.page_number < m.page_frames.length := by
      rw [hI.frames_length]
      exact hb
    have hmod : e.page_number * PAGE_SIZE % UINT_MOD = e.page_number * PAGE_SIZE :=
      Nat.mod_eq_of_lt (by simp only [NUM_PAGES, UINT_MOD, PAGE_SIZE] at *; omega)
    have hslt : idx.toNat < m.segments.length := (List.getElem?_eq_some.mp hlive.2).1
    have hE : ∀ s1 p1 e1, EntryAt (freed_state m idx.toNat (o / PAGE_SIZE) seg e) s1 p1 e1 ↔
        (s1 = idx.toNat ∧ p1 = o / PAGE_SIZE ∧ e1 = { e with valid := 0 }) ∨
          ((s1 ≠ idx.toNat ∨ p1 ≠ o / PAGE_SIZE) ∧ EntryAt m s1 p1 e1) :=
      entryAt_set hlive.2 he rfl
    refine ⟨_, free_page_valid hI hlive ho he hv, ?_, ?_, ?_, ?_, ?_, ?_, ?_⟩
    · exact (hE _ _ _).mpr (Or.inl ⟨rfl, rfl, rfl⟩)
    · simp only [freed_state]
      rw [List.getElem?_set_self hlt]
    · intro a h1 h2
      simp only [freed_state, zero_range]
      rw [hmod, if_pos ⟨h1, h2⟩]
    · intro s p e1 hne
      constructor
      · intro h
        rcases (hE s p e1).mp h with ⟨h1, h2, _⟩ | ⟨_, h3⟩
        · rcases hne with hne | hne
          · exact absurd h1 hne
          · exact absurd h2 hne
        · exact h3
      · intro h
        exact (hE s p e1).mpr (Or.inr ⟨hne, h⟩)
    · intro g hg
      simp only [freed_state]
      rw [List.getElem?_set_ne (Ne.symm hg)]
    · intro a ha
      simp only [freed_state, zero_range]
      rw [hmod, if_neg (by omega)]
    · refine ⟨{ seg with page_table := seg.page_table.set (o / PAGE_SIZE) { e with valid := 0 } },
        ⟨hlive.1, ?_⟩, rfl, ?_⟩
      · simp only [freed_state]
        rw [List.getElem?_set_self hslt]
      · simp

theorem free_page_contract_witness :
    Reachable written_state ∧ Live written_state 0 written_segment ∧
    200 < written_segment.size ∧
    written_segment.page_table[200 / PAGE_SIZE]? = some ⟨0, 1⟩ ∧
    ∃ m1, free_page written_state 0 200 = .ok (m1, .freed 0) ∧
      m1.page_frames[0]? = some 0 ∧
      (∀ a, 0 * PAGE_SIZE ≤ a → a < 0 * PAGE_SIZE + PAGE_SIZE → m1.physical_memory a = 0) :=
  ⟨reachable_script _ _ (by decide), by decide, by decide, by decide,
    ((free_page_contract written_state (reachable_script _ _ (by decide)) 0 written_segment
      (by decide) 200 (by decide) ⟨0, 1⟩ (by decide)).2 (by decide)).imp
      (fun _ h => ⟨h.1, h.2.2.1, h.2.2.2.1⟩)⟩

/-- C14 (stable mapping): in a reachable state, a valid entry `e` at page `p` of the
segment in slot `s` is still there, unchanged, after any call that returns
normally of `allocate_segment`, `resolve_address`, `write_memory`, `read_memory`,
`free_page` aimed at another page, or `free_segment` aimed at another handle; and
`resolve_address` on an offset of page `p` inside the segment returns the address
`page_number * 512 + off mod 512` and leaves the state as it is, so every further
call returns the same address. -/
theorem stable_mapping (m : MemoryManager) (hR : Reachable m) (s p : Nat)
    (e : PageTableEntry) (hE : EntryAt m s p e) (hv : e.valid ≠ 0) :
    (∀ size m1 r, allocate_segment m size = .ok (m1, r) → EntryAt m1 s p e) ∧
    (∀ idx off m1 r, resolve_address m idx off = .ok (m1, r) → EntryAt m1 s p e) ∧
    (∀ idx data n o m1 st, write_memory m idx data n o = .ok (m1, st) →
      EntryAt m1 s p e) ∧
    (∀ idx buf n o m1 buf1 st, read_memory m idx buf n o = .ok (m1, buf1, st) →
      EntryAt m1 s p e) ∧
    (∀ idx o m1 st, free_page m idx o = .ok (m1, st) →
      (idx ≠ (s : Int) ∨ o / PAGE_SIZE ≠ p) → EntryAt m1 s p e) ∧
    (∀ idx m1, free_segment m idx = .ok m1 → idx ≠ (s : Int) → EntryAt m1 s p e) ∧
    (∀ off seg, m.segments[s]? = some (some seg) → off < seg.size → off / PAGE_SIZE = p →
      resolve_address m (s : Int) off =
        .ok (m, .address (e.page_number * PAGE_SIZE + off % PAGE_SIZE))) := by
  have hI := reachable_inv hR
  refine ⟨?_, ?_, ?_, ?_, ?_, ?_, ?_⟩
  · intro size m1 r h
    rcases allocate_segment_spec m size hI.segments_length with
      ⟨k, _, hk0, _, hal⟩ | ⟨_, hal⟩
    · rw [hal] at h
      simp only [Except.ok.injEq, Prod.mk.injEq] at h
      have hEq : ∀ s1 p1 e1, EntryAt m1 s1 p1 e1 ↔
          (s1 = k ∧ p1 < num_pages size ∧ e1 = ⟨0, 0⟩) ∨ (s1 ≠ k ∧ EntryAt m s1 p1 e1) := by
        rw [← h.1]
        exact entryAt_fresh hk0 rfl
      refine (hEq s p e).mpr (Or.inr ⟨?_, hE⟩)
      rintro rfl
      obtain ⟨sg, hsg, _⟩ := hE
      rw [hk0] at hsg
      cases hsg
    · rw [hal] at h
      simp only [Except.ok.injEq, Prod.mk.injEq] at h
      rw [← h.1]
      exact hE
  · intro idx off m1 r h
    exact entry_stable_resolve hI.frames_length h hE hv
  · intro idx data n o m1 st h
    unfold write_memory at h
    split at h
    · cases h
    · simp only [Except.ok.injEq, Prod.mk.injEq] at h
      rw [← h.1]
      exact hE
    · exact entry_stable_write_loop idx data o n 0 m m1 st hI h s p e hE hv
  · intro idx buf n o m1 buf1 st h
    unfold read_memory at h
    split at h
    · cases h
    · cases h
    · simp only at h
      split at h
      · cases h
      · split at h
        · simp only [Except.ok.injEq, Prod.mk.injEq] at h
          rw [← h.1]
          exact hE
        · exact entry_stable_read_loop idx o n 0 m m1 buf buf1 st hI h s p e hE hv
  · intro idx o m1 st h hne
    rcases free_page_cases h with ⟨hm, _⟩ | ⟨seg, e0, hs, _, he0, hc⟩
    · rw [hm]
      exact hE
    · rcases hc with ⟨_, hm, _⟩ | ⟨_, _, _, hm, _⟩
      · rw [hm]
        exact hE
      · rw [hm]
        have hEq : ∀ s1 p1 e1, EntryAt (freed_state m idx.toNat (o / PAGE_SIZE) seg e0) s1 p1 e1 ↔
            (s1 = idx.toNat ∧ p1 = o / PAGE_SIZE ∧ e1 = { e0 with valid := 0 }) ∨
              ((s1 ≠ idx.toNat ∨ p1 ≠ o / PAGE_SIZE) ∧ EntryAt m s1 p1 e1) :=
          entryAt_set (segment_at_ok hs).2 he0 rfl
        refine (hEq s p e).mpr (Or.inr ⟨?_, hE⟩)
        have h0 := (segment_at_ok hs).1
        rcases hne with hne | hne
        · left
          intro hcon
          apply hne
          omega
        · right
          exact fun hcon => hne hcon.symm
  · intro idx m1 h hne
    rcases free_segment_cases hI h with ⟨hm, _⟩ | ⟨seg, fr1, h0, hs, hm, _⟩
    · rw [hm]
      exact hE
    · rw [hm]
      obtain ⟨sg, hsg, hpe⟩ := hE
      refine ⟨sg, ?_, hpe⟩
      simp only
      rw [List.getElem?_set_ne (by omega)]
      exact hsg
  · intro off seg hseg hlt hp
    obtain ⟨sg, hsg, hpe⟩ := hE
    rw [hseg] at hsg
    cases hsg
    have hs : segment_at m (s : Int) = .ok (some seg) :=
      segment_at_of_get (Int.natCast_nonneg s) (by simpa using hseg)
    rw [← hp] at hpe
    have hmap := mapped_address_of hs hlt hpe hv
    have hb := (hI.frame_marked s _ e ⟨seg, hseg, hpe⟩ hv).1
    have hmod : e.page_number * PAGE_SIZE % UINT_MOD = e.page_number * PAGE_SIZE :=
      Nat.mod_eq_of_lt (by simp only [NUM_PAGES, UINT_MOD, PAGE_SIZE] at *; omega)
    rw [hmod] at hmap
    exact resolve_of_mapped hmap

theorem stable_mapping_witness :
    Reachable written_state ∧ EntryAt written_state 0 0 ⟨0, 1⟩ ∧
    (⟨0, 1⟩ : PageTableEntry).valid ≠ 0 ∧
    resolve_address written_state ((0 : Nat) : Int) 100 =
      .ok (written_state,
        .address ((⟨0, 1⟩ : PageTableEntry).page_number * PAGE_SIZE + 100 % PAGE_SIZE)) :=
  ⟨reachable_script _ _ (by decide), ⟨written_segment, by decide, by decide⟩, by decide,
    (stable_mapping written_state (reachable_script _ _ (by decide)) 0 0 ⟨0, 1⟩
      ⟨written_segment, by decide, by decide⟩ (by decide)).2.2.2.2.2.2 100 written_segment
      (by decide) (by decide) (by decide)⟩

/-! ## Allocated frames and valid entries -/

theorem frame_allocated_iff {m : MemoryManager} (hI : Inv m) (f : Nat) :
    m.page_frames[f]? = some 1 ↔
      ∃ s p e, EntryAt m s p e ∧ e.valid ≠ 0 ∧ e.page_number = f := by
  constructor
  · intro h
    exact (hI.frame_used f 1 h Nat.one_ne_zero).2
  · rintro ⟨s, p, e, hE, hv, hpn⟩
    rw [← hpn]
    exact (hI.frame_marked s p e hE hv).2

theorem frame_cell_values {m : MemoryManager} (hI : Inv m) (f v : Nat)
    (h : m.page_frames[f]? = some v) : v = 0 ∨ v = 1 := by
  by_cases hv : v = 0
  · exact Or.inl hv
  · exact Or.inr (hI.frame_used f v h hv).1

theorem allocated_count_eq {m : MemoryManager} (hI : Inv m) :
    allocated_count m = valid_count m := by
  unfold allocated_count valid_count
  apply List.Perm.length_eq
  have hnd : (allocated_frames m).Nodup := (List.nodup_range _).filter _
  rw [List.perm_ext_iff_of_nodup hnd (valid_frames_nodup hI)]
  intro f
  unfold allocated_frames
  rw [List.mem_filter, List.mem_range, decide_eq_true_eq, mem_valid_frames]
  constructor
  · rintro ⟨_, h⟩
    exact (frame_allocated_iff hI f).mp h
  · intro h
    obtain ⟨s, p, e, hE, hv, hpn⟩ := h
    refine ⟨?_, (frame_allocated_iff hI f).mpr ⟨s, p, e, hE, hv, hpn⟩⟩
    rw [← hpn]
    exact (hI.frame_marked s p e hE hv).1

theorem frames_free_of_no_valid {m : MemoryManager} (hI : Inv m)
    (hnone : ∀ s p e, EntryAt m s p e → e.valid = 0) :
    ∀ f, f < NUM_PAGES → m.page_frames[f]? = some 0 := by
  intro f hf
  have hlt : f < m.page_frames.length := by
    rw [hI.frames_length]
    exact hf
  obtain ⟨v, hv⟩ : ∃ v, m.page_frames[f]? = some v := ⟨_, List.getElem?_eq_getElem hlt⟩
  by_cases hz : v = 0
  · rw [hv, hz]
  · obtain ⟨_, s, p, e, hE, hev, _⟩ := hI.frame_used f v hv hz
    exact absurd (hnone s p e hE) hev

/-- C19 (no frame leak): in a reachable state a bitmap cell is 1 exactly when a valid
page-table entry of a live segment holds that frame, and every cell is 0 or 1; the
number of allocated frames equals the number of valid entries; when no entry is
valid every frame is free; and `free_segment` on the live segment returns normally
with every frame free. -/
theorem no_frame_leak (m : MemoryManager) (hR : Reachable m) :
    (∀ f, m.page_frames[f]? = some 1 ↔
      ∃ s p e, EntryAt m s p e ∧ e.valid ≠ 0 ∧ e.page_number = f) ∧
    (∀ (f v : Nat), m.page_frames[f]? = some v → v = 0 ∨ v = 1) ∧
    allocated_count m = valid_count m ∧
    ((∀ s p e, EntryAt m s p e → e.valid = 0) →
      ∀ f, f < NUM_PAGES → m.page_frames[f]? = some 0) ∧
    (∀ idx seg, Live m idx seg →
      ∃ m1, free_segment m idx = .ok m1 ∧
        ∀ f, f < NUM_PAGES → m1.page_frames[f]? = some 0) := by
  have hI := reachable_inv hR
  refine ⟨frame_allocated_iff hI, frame_cell_values hI, allocated_count_eq hI,
    fun hnone => frames_free_of_no_valid hI hnone, ?_⟩
  intro idx seg hlive
  obtain ⟨fr1, h1, _⟩ := free_segment_live hI hlive.1 hlive.2
  refine ⟨_, h1, ?_⟩
  have hI1 := free_segment_inv hI h1
  apply frames_free_of_no_valid hI1
  rintro s p e ⟨sg, hsg, _⟩
  exfalso
  have hslt : s < (m.segments.set idx.toNat none).length :=
    (List.getElem?_eq_some.mp hsg).1
  have hilt : idx.toNat < m.segments.length := (List.getElem?_eq_some.mp hlive.2).1
  have hlen := hI.segments_length
  rw [List.length_set] at hslt
  have hs : s = idx.toNat := by
    simp only [SEGMENT_COUNT] at hlen
    omega
  subst hs
  simp only at hsg
  rw [List.getElem?_set_self hilt] at hsg
  cases hsg

theorem no_frame_leak_witness :
    Reachable written_state ∧
    (written_state.page_frames[0]? = some 1 ↔
      ∃ s p e, EntryAt written_state s p e ∧ e.valid ≠ 0 ∧ e.page_number = 0) ∧
    allocated_count written_state = valid_count written_state :=
  have h := no_frame_leak written_state (reachable_script _ _ (by decide))
  ⟨reachable_script _ _ (by decide), h.1 0, h.2.2.1⟩

/-! ## Calls that return -/

theorem covered_of_nonempty {m : MemoryManager} (hI : Inv m) {s : Nat} {seg : Segment}
    (hs : m.segments[s]? = some (some seg)) (hne : 1 ≤ seg.page_table.length) :
    Covered seg := by
  obtain ⟨hsz, hlen⟩ := hI.seg_size s seg hs
  unfold Covered
  rw [hlen] at hne ⊢
  unfold num_pages at hne ⊢
  simp only [PAGE_SIZE, SIZE_MOD] at *
  omega

/-- A segment created with `size <= 2^64 - 512` has a page table that covers it. -/
theorem covered_of_no_wrap {m : MemoryManager} (hI : Inv m) {s : Nat} {seg : Segment}
    (hs : m.segments[s]? = some (some seg)) (hsz : seg.size + PAGE_SIZE - 1 < SIZE_MOD) :
    Covered seg := by
  obtain ⟨_, hlen⟩ := hI.seg_size s seg hs
  unfold Covered
  rw [hlen]
  unfold num_pages
  rw [Nat.mod_eq_of_lt hsz]
  simp only [PAGE_SIZE]
  omega

/-- `resolve_address` keeps the segment in its slot, with its size and the length of
its page table. -/
theorem resolve_live {m m1 : MemoryManager} {idx : Int} {q : Nat} {r : Resolved}
    (hlen : m.page_frames.length = NUM_PAGES)
    (h : resolve_address m idx q = .ok (m1, r)) {idx2 : Int} {seg : Segment}
    (hlive : Live m idx2 seg) :
    ∃ seg1, Live m1 idx2 seg1 ∧ seg1.size = seg.size ∧
      seg1.page_table.length = seg.page_table.length := by
  rcases resolve_address_cases hlen h with ⟨hm, _⟩ | ⟨sg, e, hs, _, _, hc⟩
  · rw [hm]
    exact ⟨seg, hlive, rfl, rfl⟩
  · rcases hc with ⟨_, hm, _⟩ | ⟨_, hm, _⟩ | ⟨_, f, _, _, _, hm, _⟩
    · rw [hm]
      exact ⟨seg, hlive, rfl, rfl⟩
    · rw [hm]
      exact ⟨seg, hlive, rfl, rfl⟩
    · rw [hm]
      obtain ⟨h0, hget⟩ := segment_at_ok hs
      by_cases hidx : idx2.toNat = idx.toNat
      · have hsame : seg = sg := by
          have h2 := hlive.2
          rw [hidx, hget] at h2
          cases h2
          rfl
        subst hsame
        refine ⟨{ seg with page_table := seg.page_table.set (q / PAGE_SIZE) ⟨f, 1⟩ },
          ⟨hlive.1, ?_⟩, rfl, by simp⟩
        simp only [fault_state]
        rw [hidx, List.getElem?_set_self (List.getElem?_eq_some.mp hget).1]
      · refine ⟨seg, ⟨hlive.1, ?_⟩, rfl, rfl⟩
        simp only [fault_state]
        rw [List.getElem?_set_ne (Ne.symm hidx)]
        exact hlive.2

/-- On a live segment whose page table covers it, `resolve_address` returns. -/
theorem resolve_total {m : MemoryManager} (hI : Inv m) {idx : Int} {seg : Segment}
    (hlive : Live m idx seg) (hcov : Covered seg) (off : Nat) :
    ∃ m1 r, resolve_address m idx off = .ok (m1, r) := by
  have hs := segment_at_of_get hlive.1 hlive.2
  unfold resolve_address
  rw [hs]
  simp only
  by_cases hge : off ≥ seg.size
  · rw [if_pos hge]
    exact ⟨_, _, rfl⟩
  · rw [if_neg hge]
    have hp : off / PAGE_SIZE < seg.page_table.length := by
      unfold Covered at hcov
      simp only [PAGE_SIZE] at *
      omega
    rw [List.getElem?_eq_getElem hp]
    simp only
    by_cases hv : seg.page_table[off / PAGE_SIZE].valid = 0
    · rw [if_pos hv]
      rcases allocate_page_spec m hI.frames_length with ⟨f, _, _, _, hal⟩ | ⟨_, hal⟩
      · rw [hal]
        exact ⟨_, _, rfl⟩
      · rw [hal]
        exact ⟨_, _, rfl⟩
    · rw [if_neg hv]
      exact ⟨_, _, rfl⟩

theorem write_loop_live (idx : Int) (data : Nat → Byte) (offset : Nat) :
    ∀ (fuel i : Nat) (m m1 : MemoryManager) (st : WriteStatus), Inv m →
      write_loop idx data offset fuel i m = .ok (m1, st) →
      ∀ (idx2 : Int) (seg : Segment), Live m idx2 seg →
        ∃ seg1, Live m1 idx2 seg1 ∧ seg1.size = seg.size ∧
          seg1.page_table.length = seg.page_table.length := by
  intro fuel
  induction fuel with
  | zero =>
    intro i m m1 st _ h idx2 seg hlive
    simp only [write_loop, Except.ok.injEq, Prod.mk.injEq] at h
    rw [← h.1]
    exact ⟨seg, hlive, rfl, rfl⟩
  | succ k ih =>
    intro i m m1 st hI h idx2 seg hlive
    simp only [write_loop] at h
    split at h
    · cases h
    · rename_i m2 r hr
      have hI2 := resolve_address_inv hI hr
      obtain ⟨seg2, hlive2, hsz2, hlen2⟩ := resolve_live hI.frames_length hr hlive
      split at h
      · split at h
        · rename_i addr _ _
          have hI3 : Inv { m2 with physical_memory := store m2.physical_memory addr (data i) } :=
            inv_congr (m := m2) rfl rfl hI2
          obtain ⟨seg3, hlive3, hsz3, hlen3⟩ := ih _ _ _ _ hI3 h idx2 seg2 hlive2
          exact ⟨seg3, hlive3, hsz3.trans hsz2, hlen3.trans hlen2⟩
        · cases h
      · simp only [Except.ok.injEq, Prod.mk.injEq] at h
        rw [← h.1]
        exact ⟨seg2, hlive2, hsz2, hlen2⟩

theorem write_loop_total (idx : Int) (data : Nat → Byte) (offset : Nat) :
    ∀ (fuel i : Nat) (m : MemoryManager) (seg : Segment), Inv m → Live m idx seg →
      Covered seg → ∃ m1 st, write_loop idx data offset fuel i m = .ok (m1, st) := by
  intro fuel
  induction fuel with
  | zero =>
    intro i m seg _ _ _
    exact ⟨m, .written, rfl⟩
  | succ k ih =>
    intro i m seg hI hlive hcov
    obtain ⟨m2, r, hr⟩ := resolve_total hI hlive hcov ((offset + i) % SIZE_MOD)
    have hI2 := resolve_address_inv hI hr
    obtain ⟨seg2, hlive2, hsz2, hlen2⟩ := resolve_live hI.frames_length hr hlive
    have hcov2 : Covered seg2 := by
      unfold Covered at hcov ⊢
      rw [hsz2, hlen2]
      exact hcov
    simp only [write_loop, hr]
    cases hp : r.ptr with
    | none => exact ⟨_, _, rfl⟩
    | some addr =>
      have hra := ptr_some hp
      subst hra
      have hb := mapped_bound hI2 (mapped_of_resolve hI.frames_length hr)
      simp only
      rw [if_pos hb]
      exact ih (i + 1) _ seg2 (inv_congr (m := m2) rfl rfl hI2) hlive2 hcov2

/-- A write through a handle of the segment table returns, as long as the page table
of the segment (if the slot holds one) covers it. -/
theorem write_memory_total {m : MemoryManager} (hI : Inv m) {idx : Int}
    (h0 : 0 ≤ idx) (h1 : idx < (SEGMENT_COUNT : Int))
    (hcov : ∀ seg, Live m idx seg → Covered seg) (data : Nat → Byte) (n o : Nat) :
    ∃ m1 st, write_memory m idx data n o = .ok (m1, st) := by
  have hlt : idx.toNat < m.segments.length := by
    rw [hI.segments_length]
    omega
  obtain ⟨sl, hsl⟩ : ∃ sl, m.segments[idx.toNat]? = some sl :=
    ⟨_, List.getElem?_eq_getElem hlt⟩
  have hs := segment_at_of_get h0 hsl
  unfold write_memory
  rw [hs]
  cases sl with
  | none => exact ⟨_, _, rfl⟩
  | some seg =>
    simp only
    exact write_loop_total idx data o n 0 m seg hI ⟨h0, hsl⟩ (hcov seg ⟨h0, hsl⟩)

/-- C20 (writes do not clobber other data): in a reachable state, let `q` be an
offset inside a live segment (handle `idx2`) whose page is valid, with entry `e`,
and let `write_memory(idx, data, n, o)` be a write such that `q` is not one of
its offsets (another handle, or `q` outside `[o, o+n)`).  A write through a
handle of the segment table returns; and whatever status a write returns, the
segment of `q` is afterwards live with the same size, the entry of the page of
`q` is still `e`, and the byte of the physical store at the location of `q`
(`page_number * 512 + q mod 512`) is the one that was there before. -/
theorem write_keeps_other_data (m : MemoryManager) (hR : Reachable m) (idx : Int)
    (data : Nat → Byte) (n o : Nat) (ho : o < SIZE_MOD) (idx2 : Int) (seg2 : Segment)
    (hlive2 : Live m idx2 seg2) (q : Nat) (hq : q < seg2.size) (e : PageTableEntry)
    (he : seg2.page_table[q / PAGE_SIZE]? = some e) (hv : e.valid ≠ 0)
    (hout : idx2 ≠ idx ∨ q < o ∨ o + n ≤ q) :
    (0 ≤ idx → idx < (SEGMENT_COUNT : Int) →
      ∃ m1 st, write_memory m idx data n o = .ok (m1, st)) ∧
    (∀ m1 st, write_memory m idx data n o = .ok (m1, st) →
      (∃ seg3, Live m1 idx2 seg3 ∧ seg3.size = seg2.size) ∧
      EntryAt m1 idx2.toNat (q / PAGE_SIZE) e ∧
      m1.physical_memory (e.page_number * PAGE_SIZE + q % PAGE_SIZE) =
        m.physical_memory (e.page_number * PAGE_SIZE + q % PAGE_SIZE)) := by
  have hI := reachable_inv hR
  have hs2 := segment_at_of_get hlive2.1 hlive2.2
  have hmap := mapped_address_of hs2 hq he hv
  have hb := (hI.frame_marked _ _ e ⟨seg2, hlive2.2, he⟩ hv).1
  have hmod : e.page_number * PAGE_SIZE % UINT_MOD = e.page_number * PAGE_SIZE :=
    Nat.mod_eq_of_lt (by simp only [NUM_PAGES, UINT_MOD, PAGE_SIZE] at *; omega)
  rw [hmod] at hmap
  constructor
  · intro h0 h1
    apply write_memory_total hI h0 h1
    intro seg hlive
    -- the table has one slot, so `seg` is the segment of `q`, whose table is not empty
    have hlen := hI.segments_length
    have hlt2 : idx2.toNat < m.segments.length := (List.getElem?_eq_some.mp hlive2.2).1
    have hlt : idx.toNat < m.segments.length := (List.getElem?_eq_some.mp hlive.2).1
    have hsame : idx2.toNat = idx.toNat := by
      simp only [SEGMENT_COUNT] at hlen
      omega
    have hseg : seg2 = seg := by
      have h2 := hlive2.2
      rw [hsame, hlive.2] at h2
      cases h2
      rfl
    rw [← hseg]
    exact covered_of_nonempty hI hlive2.2
      (Nat.lt_of_le_of_lt (Nat.zero_le _) (List.getElem?_eq_some.mp he).1)
  · intro m1 st h
    unfold write_memory at h
    split at h
    · cases h
    · simp only [Except.ok.injEq, Prod.mk.injEq] at h
      rw [← h.1]
      exact ⟨⟨seg2, hlive2, rfl⟩, ⟨seg2, hlive2.2, he⟩, rfl⟩
    · have hI1 := write_loop_inv idx data o n 0 m m1 st hI h
      obtain ⟨k, _, hk2, _, _, hstab, hframe⟩ :=
        write_loop_spec idx data o n 0 m m1 st hI (by rw [Nat.add_zero]; exact ho) h
      have hmap1 := hstab _ _ _ hmap
      have hE1 := entry_stable_write_loop idx data o n 0 m m1 st hI h idx2.toNat
        (q / PAGE_SIZE) e ⟨seg2, hlive2.2, he⟩ hv
      obtain ⟨seg3, hlive3, hsz3, _⟩ :=
        write_loop_live idx data o n 0 m m1 st hI h idx2 seg2 hlive2
      refine ⟨⟨seg3, hlive3, hsz3⟩, hE1, ?_⟩
      · apply hframe
        intro j _ hj hcon
        have := mapped_inj hI1 hcon hmap1
        rcases hout with hne | hlt | hge
        · exact hne this.1.symm
        · omega
        · omega

theorem write_keeps_other_data_witness :
    Reachable written_state ∧ (0 : Nat) < SIZE_MOD ∧
    Live written_state 0 written_segment ∧ 200 < written_segment.size ∧
    written_segment.page_table[200 / PAGE_SIZE]? = some ⟨0, 1⟩ ∧
    (⟨0, 1⟩ : PageTableEntry).valid ≠ 0 ∧ ((0 : Int) ≠ 0 ∨ 200 < 0 ∨ 0 + 4 ≤ 200) ∧
    write_memory written_state 0 abcd_bytes 4 0 = .ok (second_write_state, .written) ∧
    EntryAt second_write_state (0 : Int).toNat (200 / PAGE_SIZE) ⟨0, 1⟩ ∧
    second_write_state.physical_memory
        ((⟨0, 1⟩ : PageTableEntry).page_number * PAGE_SIZE + 200 % PAGE_SIZE) =
      written_state.physical_memory
        ((⟨0, 1⟩ : PageTableEntry).page_number * PAGE_SIZE + 200 % PAGE_SIZE) :=
  have h := (write_keeps_other_data written_state (reachable_script _ _ (by decide)) 0
    abcd_bytes 4 0 (by decide) 0 written_segment (by decide) 200 (by decide) ⟨0, 1⟩
    (by decide) (by decide) (Or.inr (Or.inr (by decide)))).2 second_write_state .written rfl
  ⟨reachable_script _ _ (by decide), by decide, by decide, by decide, by decide, by decide,
    Or.inr (Or.inr (by decide)), rfl, h.2.1, h.2.2⟩

/-! ## Writing with enough free frames -/

theorem filter_length_mono {l : List Nat} {P Q : Nat → Bool}
    (h : ∀ x, x ∈ l → P x = true → Q x = true) :
    (l.filter P).length ≤ (l.filter Q).length := by
  rw [← List.countP_eq_length_filter, ← List.countP_eq_length_filter]
  exact List.countP_mono_left h

/-- Turning the predicate off at one member of a duplicate-free list lowers the count
by one. -/
theorem filter_length_flip :
    ∀ (l : List Nat), l.Nodup → ∀ (a : Nat) (P Q : Nat → Bool), a ∈ l → P a = true →
      Q a = false → (∀ x, x ∈ l → x ≠ a → Q x = P x) →
      (l.filter Q).length + 1 = (l.filter P).length := by
  intro l
  induction l with
  | nil =>
    intro _ a P Q ha
    cases ha
  | cons b rest ih =>
    intro hnd a P Q ha hPa hQa hrest
    rw [List.nodup_cons] at hnd
    by_cases hba : b = a
    · subst hba
      have hsame : rest.filter Q = rest.filter P := by
        apply List.filter_congr
        intro x hx
        exact hrest x (List.mem_cons_of_mem _ hx) (fun hxb => hnd.1 (hxb ▸ hx))
      rw [List.filter_cons_of_neg (by simp [hQa]), List.filter_cons_of_pos hPa, hsame]
      rfl
    · have hain : a ∈ rest := by
        rcases List.mem_cons.mp ha with h | h
        · exact absurd h.symm hba
        · exact h
      have hih := ih hnd.2 a P Q hain hPa hQa
        (fun x hx hxa => hrest x (List.mem_cons_of_mem _ hx) hxa)
      have hb : Q b = P b := hrest b (List.mem_cons_self _ _) hba
      by_cases hPb : P b = true
      · rw [List.filter_cons_of_pos hPb, List.filter_cons_of_pos (by rw [hb]; exact hPb)]
        simp only [List.length_cons]
        omega
      · rw [List.filter_cons_of_neg hPb, List.filter_cons_of_neg (by rw [hb]; exact hPb)]
        exact hih

theorem unmapped_count_mono (seg : Segment) {lo lo1 : Nat} (h : lo ≤ lo1) (hi : Nat) :
    unmapped_count seg lo1 hi ≤ unmapped_count seg lo hi := by
  unfold unmapped_count
  apply filter_length_mono
  intro x _ hx
  simp only [Bool.and_eq_true, decide_eq_true_eq] at hx ⊢
  exact ⟨by omega, hx.2⟩

theorem unmapped_count_pos {seg : Segment} {lo hi p : Nat} (h1 : lo ≤ p) (h2 : p ≤ hi)
    (hp : page_unmapped seg p = true) : 1 ≤ unmapped_count seg lo hi := by
  unfold unmapped_count
  apply List.length_pos_of_mem (a := p)
  rw [List.mem_filter, List.mem_range]
  refine ⟨by omega, ?_⟩
  simp only [Bool.and_eq_true, decide_eq_true_eq]
  exact ⟨h1, hp⟩

theorem unmapped_count_fault {seg : Segment} {lo hi p f : Nat} (h1 : lo ≤ p) (h2 : p ≤ hi)
    (hlt : p < seg.page_table.length) (hp : page_unmapped seg p = true) :
    unmapped_count { seg with page_table := seg.page_table.set p ⟨f, 1⟩ } lo hi + 1 =
      unmapped_count seg lo hi := by
  unfold unmapped_count
  apply filter_length_flip _ (List.nodup_range _) p
  · rw [List.mem_range]
    omega
  · simp only [Bool.and_eq_true, decide_eq_true_eq]
    exact ⟨h1, hp⟩
  · simp [page_unmapped, List.getElem?_set_self hlt]
  · intro x _ hx
    simp only [page_unmapped]
    rw [List.getElem?_set_ne (Ne.symm hx)]

theorem free_count_fault {m : MemoryManager} {s p f : Nat} {seg : Segment}
    (hf : f < NUM_PAGES) (hf0 : m.page_frames[f]? = some 0) :
    free_count (fault_state m s p f seg) + 1 = free_count m := by
  have hlt : f < m.page_frames.length := (List.getElem?_eq_some.mp hf0).1
  unfold free_count
  apply filter_length_flip _ (List.nodup_range _) f
  · rw [List.mem_range]
    exact hf
  · simp [hf0]
  · simp [fault_state, List.getElem?_set_self hlt]
  · intro x _ hx
    simp only [fault_state]
    have hget : (m.page_frames.set f 1)[x]? = m.page_frames[x]? :=
      List.getElem?_set_ne (Ne.symm hx)
    simp only [hget]

theorem free_count_pos {m : MemoryManager} {f : Nat} (hf : f < NUM_PAGES)
    (hf0 : m.page_frames[f]? = some 0) : 1 ≤ free_count m := by
  unfold free_count
  apply List.length_pos_of_mem (a := f)
  rw [List.mem_filter, List.mem_range, decide_eq_true_eq]
  exact ⟨hf, hf0⟩

theorem free_frame_of_count {m : MemoryManager} (h : 1 ≤ free_count m) :
    ∃ f, f < NUM_PAGES ∧ m.page_frames[f]? = some 0 := by
  unfold free_count at h
  obtain ⟨f, hf⟩ := List.exists_mem_of_length_pos h
  rw [List.mem_filter, List.mem_range, decide_eq_true_eq] at hf
  exact ⟨f, hf⟩

theorem resolve_fault {m : MemoryManager} {idx : Int} {seg : Segment} {q f : Nat}
    {e : PageTableEntry} (hs : segment_at m idx = .ok (some seg)) (hlt : q < seg.size)
    (he : seg.page_table[q / PAGE_SIZE]? = some e) (hv : e.valid = 0) (hf : f < NUM_PAGES)
    (hal : allocate_page m =
      .ok ({ m with page_frames := m.page_frames.set f 1 }, some f)) :
    resolve_address m idx q =
      .ok (fault_state m idx.toNat (q / PAGE_SIZE) f seg,
        .address (f * PAGE_SIZE + q % PAGE_SIZE)) := by
  have hfm : f % UINT_MOD = f :=
    Nat.mod_eq_of_lt (by simp only [NUM_PAGES, UINT_MOD] at *; omega)
  have hfm2 : f * PAGE_SIZE % UINT_MOD = f * PAGE_SIZE :=
    Nat.mod_eq_of_lt (by simp only [NUM_PAGES, UINT_MOD, PAGE_SIZE] at *; omega)
  unfold resolve_address
  rw [hs]
  simp only
  rw [if_neg (by omega)]
  simp only [he]
  rw [if_pos hv, hal]
  simp only
  rw [hfm, hfm2]
  rfl

/-- When the free frames are at least as many as the not-yet-valid pages of the rest
of the range, the write loop stores every byte. -/
theorem write_loop_enough (idx : Int) (data : Nat → Byte) (o n : Nat) :
    ∀ (fuel i : Nat) (m : MemoryManager) (seg : Segment), i + fuel = n → Inv m →
      Live m idx seg → Covered seg → o + n ≤ seg.size →
      (1 ≤ fuel →
        unmapped_count seg ((o + i) / PAGE_SIZE) ((o + n - 1) / PAGE_SIZE) ≤ free_count m) →
      ∃ m1, write_loop idx data o fuel i m = .ok (m1, .written) := by
  intro fuel
  induction fuel with
  | zero =>
    intro i m seg _ _ _ _ _ _
    exact ⟨m, rfl⟩
  | succ k ih =>
    intro i m seg hik hI hlive hcov hin hcount
    have hs := segment_at_of_get hlive.1 hlive.2
    have hsz := (hI.seg_size _ seg hlive.2).1
    have hq : o + i < seg.size := by omega
    have hplt : (o + i) / PAGE_SIZE < seg.page_table.length := by
      unfold Covered at hcov
      simp only [PAGE_SIZE] at *
      omega
    have hphi : (o + i) / PAGE_SIZE ≤ (o + n - 1) / PAGE_SIZE :=
      Nat.div_le_div_right (by omega)
    have hnext : (o + i) / PAGE_SIZE ≤ (o + (i + 1)) / PAGE_SIZE :=
      Nat.div_le_div_right (by omega)
    obtain ⟨e, he⟩ : ∃ e, seg.page_table[(o + i) / PAGE_SIZE]? = some e :=
      ⟨_, List.getElem?_eq_getElem hplt⟩
    have hc := hcount (by omega)
    simp only [write_loop]
    rw [Nat.mod_eq_of_lt (by omega)]
    by_cases hv : e.valid = 0
    · have hun : page_unmapped seg ((o + i) / PAGE_SIZE) = true := by
        simp [page_unmapped, he, hv]
      have hpos := unmapped_count_pos (le_refl _) hphi hun
      obtain ⟨f0, hf0lt, hf0⟩ := free_frame_of_count (le_trans hpos hc)
      rcases allocate_page_spec m hI.frames_length with ⟨f, hf, hfz, _, hal⟩ | ⟨hnone, _⟩
      · rw [resolve_fault hs hq he hv hf hal]
        simp only [Resolved.ptr]
        rw [if_pos (by simp only [NUM_PAGES, PAGE_SIZE, MEMORY_SIZE] at *; omega)]
        have hI2 : Inv (fault_state m idx.toNat ((o + i) / PAGE_SIZE) f seg) :=
          inv_fault_state hI hlive.2 he hv hf hfz
        have hslt : idx.toNat < m.segments.length := (List.getElem?_eq_some.mp hlive.2).1
        have hI3 : Inv
            { fault_state m idx.toNat ((o + i) / PAGE_SIZE) f seg with
              physical_memory :=
                store (fault_state m idx.toNat ((o + i) / PAGE_SIZE) f seg).physical_memory
                  (f * PAGE_SIZE + (o + i) % PAGE_SIZE) (data i) } :=
          inv_congr (m := fault_state m idx.toNat ((o + i) / PAGE_SIZE) f seg) rfl rfl hI2
        refine ih (i + 1) _
          { seg with page_table := seg.page_table.set ((o + i) / PAGE_SIZE) ⟨f, 1⟩ }
          (by omega) hI3 ?_ ?_ hin ?_
        · refine ⟨hlive.1, ?_⟩
          simp only [fault_state]
          rw [List.getElem?_set_self hslt]
        · unfold Covered at hcov ⊢
          simp only [List.length_set]
          exact hcov
        · intro _
          have h1 := unmapped_count_fault (f := f) (le_refl _) hphi hplt hun
          have h2 := unmapped_count_mono
            { seg with page_table := seg.page_table.set ((o + i) / PAGE_SIZE) ⟨f, 1⟩ }
            hnext ((o + n - 1) / PAGE_SIZE)
          have h3 : free_count (fault_state m idx.toNat ((o + i) / PAGE_SIZE) f seg) + 1 =
              free_count m := free_count_fault hf hfz
          have h4 : free_count
              { fault_state m idx.toNat ((o + i) / PAGE_SIZE) f seg with
                physical_memory :=
                  store (fault_state m idx.toNat ((o + i) / PAGE_SIZE) f seg).physical_memory
                    (f * PAGE_SIZE + (o + i) % PAGE_SIZE) (data i) } =
              free_count (fault_state m idx.toNat ((o + i) / PAGE_SIZE) f seg) := rfl
          rw [h4]
          omega
      · exact absurd hf0 (hnone f0 hf0lt)
    · have hmap := mapped_address_of hs hq he hv
      rw [resolve_of_mapped hmap]
      simp only [Resolved.ptr]
      rw [if_pos (mapped_bound hI hmap)]
      have hI3 : Inv
          { m with
            physical_memory :=
              store m.physical_memory
                (e.page_number * PAGE_SIZE % UINT_MOD + (o + i) % PAGE_SIZE) (data i) } :=
        inv_congr (m := m) rfl rfl hI
      refine ih (i + 1) _ seg (by omega) hI3 hlive hcov hin ?_
      intro _
      exact le_trans (unmapped_count_mono seg hnext _) hc

/-- Round trip under sufficient memory, on segments whose page table covers them
(every segment created with `size <= 2^64 - 512`): in a reachable state, for a live
segment, `n >= 1` bytes and
`o + n <= size`, when the free frames are at least as many as the not-yet-valid
pages among pages `o / 512 .. (o + n - 1) / 512`, `write_memory` stores all `n`
bytes, afterwards every page of the range is valid, and `read_memory` of the same
range completes, changes no state and returns the bytes written. -/
theorem round_trip_with_free_frames (m : MemoryManager) (hR : Reachable m) (idx : Int)
    (seg : Segment) (hlive : Live m idx seg) (hcov : Covered seg) (data : Nat → Byte)
    (n o : Nat) (hn : 1 ≤ n) (hin : o + n ≤ seg.size)
    (hfree : unmapped_count seg (o / PAGE_SIZE) ((o + n - 1) / PAGE_SIZE) ≤ free_count m) :
    ∃ m1, write_memory m idx data n o = .ok (m1, .written) ∧
      (∀ p, o / PAGE_SIZE ≤ p → p ≤ (o + n - 1) / PAGE_SIZE →
        ∃ e, EntryAt m1 idx.toNat p e ∧ e.valid ≠ 0) ∧
      ∀ buf : Nat → Byte, ∃ buf1, read_memory m1 idx buf n o = .ok (m1, buf1, .completed) ∧
        ∀ j, j < n → buf1 j = data j := by
  have hI := reachable_inv hR
  have hs := segment_at_of_get hlive.1 hlive.2
  have hsz := (hI.seg_size _ seg hlive.2).1
  obtain ⟨m1, hloop⟩ := write_loop_enough idx data o n n 0 m seg (by omega) hI hlive hcov hin
    (fun _ => by rw [Nat.add_zero]; exact hfree)
  have hw : write_memory m idx data n o = .ok (m1, .written) := by
    unfold write_memory
    rw [hs]
    exact hloop
  refine ⟨m1, hw, ?_, fun buf => read_after_write hI hn (by omega) hw buf⟩
  obtain ⟨k, _, _, hst, hbytes, _, _⟩ :=
    write_loop_spec idx data o n 0 m m1 .written hI (by omega) hloop
  have hk : k = n := by
    rcases hst with ⟨_, h2⟩ | ⟨h1, _⟩
    · omega
    · cases h1
  subst hk
  intro p hp1 hp2
  -- a byte of the range that lies on page `p`
  obtain ⟨j, hj, hjp⟩ : ∃ j, j < k ∧ (o + j) / PAGE_SIZE = p := by
    by_cases hfirst : p = o / PAGE_SIZE
    · exact ⟨0, by omega, by rw [Nat.add_zero, hfirst]⟩
    · refine ⟨p * PAGE_SIZE - o, ?_, ?_⟩
      · simp only [PAGE_SIZE] at *
        omega
      · simp only [PAGE_SIZE] at *
        omega
  obtain ⟨a, ha, _⟩ := hbytes j (Nat.zero_le _) hj
  obtain ⟨seg1, e, hs1, _, he, hv, _⟩ := mapped_address_some ha
  rw [hjp] at he
  exact ⟨e, ⟨seg1, (segment_at_ok hs1).2, he⟩, hv⟩

/-- The second object of `main` (lines 209-220): in `written_state` page 0 is already
mapped, so no free frame is needed, and four bytes written at offset 0 of the same
page are read back. -/
theorem round_trip_second_object :
    ∃ m1, write_memory written_state 0 abcd_bytes 4 0 = .ok (m1, .written) ∧
      (∀ p, 0 / PAGE_SIZE ≤ p → p ≤ (0 + 4 - 1) / PAGE_SIZE →
        ∃ e, EntryAt m1 (0 : Int).toNat p e ∧ e.valid ≠ 0) ∧
      ∀ buf : Nat → Byte, ∃ buf1,
        read_memory m1 0 buf 4 0 = .ok (m1, buf1, .completed) ∧
        ∀ j, j < 4 → buf1 j = abcd_bytes j :=
  round_trip_with_free_frames written_state (reachable_script _ _ (by decide)) 0
    written_segment (by decide) (by unfold Covered; decide) abcd_bytes 4 0 (by decide)
    (by decide)
    (by
      have h : unmapped_count written_segment (0 / PAGE_SIZE) ((0 + 4 - 1) / PAGE_SIZE) = 0 := by
        decide
      rw [h]
      exact Nat.zero_le _)

/-- C17 at its failing input: `huge_state` is reachable and holds a live segment of
`SIZE_MAX` bytes whose page table is empty (the page count of line 50 wrapped to
0).  One byte at offset 0 is inside the segment, all 256 frames are free and one
page is not yet valid, so the condition of the claim holds; `write_memory` then
indexes cell 0 of the empty page table (line 91) instead of storing the byte. -/
theorem round_trip_fails_on_wrapped_segment :
    Reachable huge_state ∧
    Live huge_state 0 { size := SIZE_MAX, page_table := [] } ∧
    0 + 1 ≤ SIZE_MAX ∧
    huge_state.page_frames = List.replicate NUM_PAGES 0 ∧
    unmapped_count { size := SIZE_MAX, page_table := [] } (0 / PAGE_SIZE)
      ((0 + 1 - 1) / PAGE_SIZE) = 1 ∧
    unmapped_count { size := SIZE_MAX, page_table := [] } (0 / PAGE_SIZE)
      ((0 + 1 - 1) / PAGE_SIZE) ≤ free_count huge_state ∧
    write_memory huge_state 0 abcd_bytes 1 0 = .error .out_of_bounds :=
  ⟨reachable_script _ _ (by decide), by decide, by decide, by decide, by decide,
    by
      have h : unmapped_count { size := SIZE_MAX, page_table := [] } (0 / PAGE_SIZE)
          ((0 + 1 - 1) / PAGE_SIZE) = 1 := by decide
      rw [h]
      exact free_count_pos (by decide : 0 < NUM_PAGES) (by decide),
    rfl⟩

/-! ## Free frames needed by a write -/

theorem live_unique {m : MemoryManager} {idx : Int} {seg seg1 : Segment}
    (h : Live m idx seg) (h1 : Live m idx seg1) : seg1 = seg := by
  have h2 := h.2.symm.trans h1.2
  simp only [Option.some.injEq] at h2
  exact h2.symm

/-- Mapping one page lowers the number of not-yet-valid pages of a range by at most
one. -/
theorem unmapped_count_set_le (seg : Segment) (p f lo hi : Nat) :
    unmapped_count seg lo hi ≤
      unmapped_count { seg with page_table := seg.page_table.set p ⟨f, 1⟩ } lo hi + 1 := by
  by_cases hin : lo ≤ p ∧ p ≤ hi ∧ p < seg.page_table.length ∧ page_unmapped seg p = true
  · rw [unmapped_count_fault hin.1 hin.2.1 hin.2.2.1 hin.2.2.2]
  · apply le_trans _ (Nat.le_succ _)
    unfold unmapped_count
    apply filter_length_mono
    intro x hx hpx
    rw [List.mem_range] at hx
    simp only [Bool.and_eq_true, decide_eq_true_eq] at hpx ⊢
    refine ⟨hpx.1, ?_⟩
    by_cases hxp : x = p
    · subst hxp
      have hge : ¬ x < seg.page_table.length :=
        fun hlt => hin ⟨hpx.1, by omega, hlt, hpx.2⟩
      simp only [page_unmapped]
      rw [List.getElem?_eq_none (by rw [List.length_set]; omega)]
    · simp only [page_unmapped]
      rw [List.getElem?_set_ne (Ne.symm hxp)]
      exact hpx.2

/-- One translation takes at most as many free frames as it maps pages of the range. -/
theorem resolve_count {m m1 : MemoryManager} {idx : Int} {q : Nat} {r : Resolved}
    (hlen : m.page_frames.length = NUM_PAGES)
    (h : resolve_address m idx q = .ok (m1, r)) {seg seg1 : Segment}
    (hlive : Live m idx seg) (hlive1 : Live m1 idx seg1) (lo hi : Nat) :
    unmapped_count seg lo hi + free_count m1 ≤ unmapped_count seg1 lo hi + free_count m := by
  rcases resolve_address_cases hlen h with ⟨hm, _⟩ | ⟨sg, e, hs, _, _, hc⟩
  · subst hm
    rw [live_unique hlive hlive1]
  · rcases hc with ⟨_, hm, _⟩ | ⟨_, hm, _⟩ | ⟨_, f, hf, hf0, _, hm, _⟩
    · subst hm
      rw [live_unique hlive hlive1]
    · subst hm
      rw [live_unique hlive hlive1]
    · subst hm
      have hsg : sg = seg := live_unique hlive (segment_at_ok hs)
      subst hsg
      have hslt : idx.toNat < m.segments.length := (List.getElem?_eq_some.mp hlive.2).1
      have hseg1 : seg1 = { sg with page_table := sg.page_table.set (q / PAGE_SIZE) ⟨f, 1⟩ } := by
        have h2 := hlive1.2
        simp only [fault_state] at h2
        rw [List.getElem?_set_self hslt] at h2
        simp only [Option.some.injEq] at h2
        exact h2.symm
      rw [hseg1]
      have h1 := unmapped_count_set_le sg (q / PAGE_SIZE) f lo hi
      have h3 : free_count (fault_state m idx.toNat (q / PAGE_SIZE) f sg) + 1 = free_count m :=
        free_count_fault hf hf0
      omega

/-- A write takes at most as many free frames as it maps pages of the range. -/
theorem write_loop_count (idx : Int) (data : Nat → Byte) (offset lo hi : Nat) :
    ∀ (fuel i : Nat) (m m1 : MemoryManager) (st : WriteStatus) (seg seg1 : Segment), Inv m →
      write_loop idx data offset fuel i m = .ok (m1, st) →
      Live m idx seg → Live m1 idx seg1 →
      unmapped_count seg lo hi + free_count m1 ≤ unmapped_count seg1 lo hi + free_count m := by
  intro fuel
  induction fuel with
  | zero =>
    intro i m m1 st seg seg1 _ h hlive hlive1
    simp only [write_loop, Except.ok.injEq, Prod.mk.injEq] at h
    rw [← h.1] at hlive1
    rw [live_unique hlive hlive1, h.1]
  | succ k ih =>
    intro i m m1 st seg seg1 hI h hlive hlive1
    simp only [write_loop] at h
    split at h
    · cases h
    · rename_i m2 r hr
      have hI2 := resolve_address_inv hI hr
      obtain ⟨seg2, hlive2, _, _⟩ := resolve_live hI.frames_length hr hlive
      have hc := resolve_count hI.frames_length hr hlive hlive2 lo hi
      split at h
      · split at h
        · rename_i addr _ _
          have hI3 : Inv { m2 with physical_memory := store m2.physical_memory addr (data i) } :=
            inv_congr (m := m2) rfl rfl hI2
          have h4 : free_count
              { m2 with physical_memory := store m2.physical_memory addr (data i) } =
              free_count m2 := rfl
          have hc2 := ih _ _ _ _ seg2 seg1 hI3 h hlive2 hlive1
          rw [h4] at hc2
          omega
        · cases h
      · simp only [Except.ok.injEq, Prod.mk.injEq] at h
        rw [← h.1] at hlive1
        rw [live_unique hlive2 hlive1, ← h.1]
        exact hc

theorem unmapped_count_zero {seg : Segment} {lo hi : Nat}
    (h : ∀ p, lo ≤ p → p ≤ hi → page_unmapped seg p = false) :
    unmapped_count seg lo hi = 0 := by
  unfold unmapped_count
  rw [List.length_eq_zero, List.filter_eq_nil_iff]
  intro x hx
  rw [List.mem_range] at hx
  simp only [Bool.and_eq_true, decide_eq_true_eq, not_and]
  intro hlo
  rw [h x hlo (by omega)]
  simp

/-- After a write that stored all `n >= 1` bytes every page of the range is valid. -/
theorem written_pages_valid {m m1 : MemoryManager} (hI : Inv m) {idx : Int}
    {data : Nat → Byte} {n o : Nat} (hn : 1 ≤ n) (ho : o < SIZE_MOD)
    (hw : write_memory m idx data n o = .ok (m1, .written)) :
    ∀ p, o / PAGE_SIZE ≤ p → p ≤ (o + n - 1) / PAGE_SIZE →
      ∃ seg1 e, Live m1 idx seg1 ∧ seg1.page_table[p]? = some e ∧ e.valid ≠ 0 := by
  unfold write_memory at hw
  split at hw
  · cases hw
  · cases hw
  · obtain ⟨k, _, _, hst, hbytes, _, _⟩ :=
      write_loop_spec idx data o n 0 m m1 .written hI (by omega) hw
    have hk : k = n := by
      rcases hst with ⟨_, h2⟩ | ⟨h1, _⟩
      · omega
      · cases h1
    subst hk
    intro p hp1 hp2
    obtain ⟨j, hj, hjp⟩ : ∃ j, j < k ∧ (o + j) / PAGE_SIZE = p := by
      by_cases hfirst : p = o / PAGE_SIZE
      · exact ⟨0, by omega, by rw [Nat.add_zero, hfirst]⟩
      · refine ⟨p * PAGE_SIZE - o, ?_, ?_⟩
        · simp only [PAGE_SIZE] at *
          omega
        · simp only [PAGE_SIZE] at *
          omega
    obtain ⟨a, ha, _⟩ := hbytes j (Nat.zero_le _) hj
    obtain ⟨seg1, e, hs1, _, he, hv, _⟩ := mapped_address_some ha
    rw [hjp] at he
    exact ⟨seg1, e, segment_at_ok hs1, he, hv⟩

/-- A write that stores all `n >= 1` bytes finds a free frame for every not-yet-valid
page of its range. -/
theorem written_needs_frames {m m1 : MemoryManager} (hI : Inv m) {idx : Int}
    {seg : Segment} (hlive : Live m idx seg) {data : Nat → Byte} {n o : Nat} (hn : 1 ≤ n)
    (ho : o < SIZE_MOD) (hw : write_memory m idx data n o = .ok (m1, .written)) :
    unmapped_count seg (o / PAGE_SIZE) ((o + n - 1) / PAGE_SIZE) ≤ free_count m := by
  have hvalid := written_pages_valid hI hn ho hw
  obtain ⟨seg1, _, hlive1, _, _⟩ := hvalid (o / PAGE_SIZE) (le_refl _)
    (Nat.div_le_div_right (by omega))
  have hzero : unmapped_count seg1 (o / PAGE_SIZE) ((o + n - 1) / PAGE_SIZE) = 0 := by
    apply unmapped_count_zero
    intro p hp1 hp2
    obtain ⟨seg2, e, hlive2, he, hv⟩ := hvalid p hp1 hp2
    rw [live_unique hlive1 hlive2] at he
    simp [page_unmapped, he, hv]
  have hs := segment_at_of_get hlive.1 hlive.2
  unfold write_memory at hw
  rw [hs] at hw
  have hc := write_loop_count idx data o (o / PAGE_SIZE) ((o + n - 1) / PAGE_SIZE) n 0 m m1
    .written seg seg1 hI hw hlive hlive1
  omega

/-- Reading a range whose bytes before index `k` are mapped and whose byte `k` cannot
be translated stops at index `k`, in the same state. -/
theorem read_loop_stops (idx : Int) (offset k : Nat) :
    ∀ (fuel i : Nat) (m : MemoryManager) (buf : Nat → Byte) (r : Resolved), Inv m →
      offset + k < SIZE_MOD → i ≤ k → k < i + fuel →
      (∀ j, i ≤ j → j < k → ∃ a, mapped_address m idx (offset + j) = some a) →
      resolve_address m idx ((offset + k) % SIZE_MOD) = .ok (m, r) → r.ptr = none →
      ∃ buf1, read_loop idx offset fuel i m buf = .ok (m, buf1, .inaccessible k) := by
  intro fuel
  induction fuel with
  | zero =>
    intro i m buf r _ _ h1 h2
    omega
  | succ n ih =>
    intro i m buf r hI hbound h1 h2 hall hres hptr
    by_cases hik : i = k
    · subst hik
      refine ⟨buf, ?_⟩
      simp only [read_loop]
      rw [hres]
      simp only [hptr]
    · obtain ⟨a0, ha0⟩ := hall i (le_refl _) (by omega)
      obtain ⟨buf1, hb⟩ := ih (i + 1) m (store buf i (m.physical_memory a0)) r hI hbound
        (by omega) (by omega) (fun j hj1 hj2 => hall j (by omega) hj2) hres hptr
      refine ⟨buf1, ?_⟩
      simp only [read_loop]
      rw [Nat.mod_eq_of_lt (by omega), resolve_of_mapped ha0]
      simp only [Resolved.ptr]
      rw [if_pos (mapped_bound hI ha0)]
      exact hb

theorem free_count_zero {m : MemoryManager}
    (h : ∀ f, f < NUM_PAGES → m.page_frames[f]? ≠ some 0) : free_count m = 0 := by
  unfold free_count
  rw [List.length_eq_zero, List.filter_eq_nil_iff]
  intro x hx
  rw [List.mem_range] at hx
  simp only [decide_eq_true_eq]
  exact h x hx

/-- An empty round trip at the end of a segment: with `n = 0` and `o = size = 8192`
the condition `o + n <= size` holds and `write_memory` returns at once, but
`read_memory` reads cell 16 of the 16-cell page table (line 170). -/
theorem empty_round_trip_at_segment_end :
    Reachable alloc_state ∧ Live alloc_state 0 (fresh_segment 8192) ∧
    8192 + 0 ≤ (fresh_segment 8192).size ∧
    write_memory alloc_state 0 abcd_bytes 0 8192 = .ok (alloc_state, .written) ∧
    read_memory alloc_state 0 zero_buffer 0 8192 = .error .out_of_bounds :=
  ⟨reachable_script _ _ (by decide), by decide, by decide, rfl, rfl⟩

/-- C1, as amended (round trip when the free frames suffice): in a reachable state, for
a live segment of `size <= 2^64 - 512` bytes, `n >= 1` bytes `data` and an offset
`o` with `o + n <= size`.  When the free frames are at least as many as the
not-yet-valid pages among pages `o / 512 .. (o + n - 1) / 512`, `write_memory`
stores all `n` bytes, and `read_memory` of the same range right after it completes,
leaves the state as it is, and the buffer holds the written bytes at indices
`0 .. n-1`.  When the free frames are fewer, `write_memory` stops at an index
`k < n`, and `read_memory` of the same range right after it leaves the state as it
is and reports an invalid page or an inaccessible address at index `k`. -/
theorem round_trip_when_frames_suffice (m : MemoryManager) (hR : Reachable m) (idx : Int)
    (seg : Segment) (hlive : Live m idx seg) (hsize : seg.size + PAGE_SIZE ≤ SIZE_MOD)
    (data : Nat → Byte) (n o : Nat) (hn : 1 ≤ n) (hin : o + n ≤ seg.size) :
    (unmapped_count seg (o / PAGE_SIZE) ((o + n - 1) / PAGE_SIZE) ≤ free_count m →
      ∃ m1, write_memory m idx data n o = .ok (m1, .written) ∧
        ∀ buf : Nat → Byte, ∃ buf1,
          read_memory m1 idx buf n o = .ok (m1, buf1, .completed) ∧
          ∀ j, j < n → buf1 j = data j) ∧
    (free_count m < unmapped_count seg (o / PAGE_SIZE) ((o + n - 1) / PAGE_SIZE) →
      ∃ m1 k, k < n ∧ write_memory m idx data n o = .ok (m1, .inaccessible k) ∧
        ∀ buf : Nat → Byte, ∃ buf1 st,
          read_memory m1 idx buf n o = .ok (m1, buf1, st) ∧
          (st = .page_invalid ∨ st = .inaccessible k)) := by
  have hI := reachable_inv hR
  have hs := segment_at_of_get hlive.1 hlive.2
  have hcov : Covered seg :=
    covered_of_no_wrap hI hlive.2 (by simp only [PAGE_SIZE, SIZE_MOD] at *; omega)
  have ho : o < SIZE_MOD := by
    simp only [PAGE_SIZE, SIZE_MOD] at *
    omega
  constructor
  · intro hfree
    obtain ⟨m1, hloop⟩ := write_loop_enough idx data o n n 0 m seg (by omega) hI hlive hcov hin
      (fun _ => by rw [Nat.add_zero]; exact hfree)
    have hw : write_memory m idx data n o = .ok (m1, .written) := by
      unfold write_memory
      rw [hs]
      exact hloop
    exact ⟨m1, hw, fun buf => read_after_write hI hn ho hw buf⟩
  · intro hfew
    obtain ⟨m1, st, hloop⟩ := write_loop_total idx data o n 0 m seg hI hlive hcov
    have hw : write_memory m idx data n o = .ok (m1, st) := by
      unfold write_memory
      rw [hs]
      exact hloop
    have hI1 := write_memory_inv hI hw
    obtain ⟨k, _, hk2, hst, hbytes, _, _⟩ :=
      write_loop_spec idx data o n 0 m m1 st hI (by omega) hloop
    rcases hst with ⟨h1, _⟩ | ⟨h1, hkn, r, hres, hptr⟩
    · subst h1
      have := written_needs_frames hI hlive hn ho hw
      omega
    · subst h1
      refine ⟨m1, k, by omega, hw, fun buf => ?_⟩
      obtain ⟨seg1, hlive1, hsz1, hlen1⟩ := write_loop_live idx data o n 0 m m1 _ hI hloop idx
        seg hlive
      have hs1 := segment_at_of_get hlive1.1 hlive1.2
      have hp : o / PAGE_SIZE < seg1.page_table.length := by
        rw [hlen1]
        unfold Covered at hcov
        simp only [PAGE_SIZE] at *
        omega
      unfold read_memory
      rw [hs1]
      simp only
      rw [List.getElem?_eq_getElem hp]
      simp only
      by_cases hv : seg1.page_table[o / PAGE_SIZE].valid = 0
      · rw [if_pos hv]
        exact ⟨buf, .page_invalid, rfl, Or.inl rfl⟩
      · rw [if_neg hv]
        obtain ⟨buf1, hb⟩ := read_loop_stops idx o k n 0 m1 buf r hI1
          (by simp only [PAGE_SIZE, SIZE_MOD] at *; omega) (Nat.zero_le _) (by omega)
          (fun j hj1 hj2 => by
            obtain ⟨a, ha, _⟩ := hbytes j hj1 hj2
            exact ⟨a, ha⟩)
          hres hptr
        exact ⟨buf1, .inaccessible k, hb, Or.inr rfl⟩

theorem round_trip_when_frames_suffice_witness :
    (Reachable alloc_state ∧ Live alloc_state 0 (fresh_segment 8192) ∧
      (fresh_segment 8192).size + PAGE_SIZE ≤ SIZE_MOD ∧ 1 ≤ 4 ∧
      200 + 4 ≤ (fresh_segment 8192).size ∧
      unmapped_count (fresh_segment 8192) (200 / PAGE_SIZE) ((200 + 4 - 1) / PAGE_SIZE) ≤
        free_count alloc_state ∧
      ∃ m1, write_memory alloc_state 0 float_bytes 4 200 = .ok (m1, .written) ∧
        ∀ buf : Nat → Byte, ∃ buf1,
          read_memory m1 0 buf 4 200 = .ok (m1, buf1, .completed) ∧
          ∀ j, j < 4 → buf1 j = float_bytes j) ∧
    (Reachable (faulted 256) ∧ Live (faulted 256) 0 (faulted_segment 256) ∧
      (faulted_segment 256).size + PAGE_SIZE ≤ SIZE_MOD ∧ 1 ≤ 1 ∧
      131072 + 1 ≤ (faulted_segment 256).size ∧
      free_count (faulted 256) <
        unmapped_count (faulted_segment 256) (131072 / PAGE_SIZE)
          ((131072 + 1 - 1) / PAGE_SIZE) ∧
      ∃ m1 k, k < 1 ∧
        write_memory (faulted 256) 0 (fun _ => 7) 1 131072 = .ok (m1, .inaccessible k) ∧
        ∀ buf : Nat → Byte, ∃ buf1 st,
          read_memory m1 0 buf 1 131072 = .ok (m1, buf1, st) ∧
          (st = .page_invalid ∨ st = .inaccessible k)) := by
  have hR1 : Reachable alloc_state := reachable_script _ _ (by decide)
  have hL1 : Live alloc_state 0 (fresh_segment 8192) := by decide
  have hf1 : unmapped_count (fresh_segment 8192) (200 / PAGE_SIZE)
      ((200 + 4 - 1) / PAGE_SIZE) ≤ free_count alloc_state := by
    have h : unmapped_count (fresh_segment 8192) (200 / PAGE_SIZE)
        ((200 + 4 - 1) / PAGE_SIZE) = 1 := by decide
    rw [h]
    exact free_count_pos (by decide : 0 < NUM_PAGES) (by decide)
  have hR2 : Reachable (faulted 256) := reachable_faulted 256 (le_refl _)
  have hL2 : Live (faulted 256) 0 (faulted_segment 256) := by decide
  have hf2 : free_count (faulted 256) <
      unmapped_count (faulted_segment 256) (131072 / PAGE_SIZE)
        ((131072 + 1 - 1) / PAGE_SIZE) := by
    have h0 : free_count (faulted 256) = 0 := by
      apply free_count_zero
      intro f hf
      rw [faulted_frames_get]
      simp only [NUM_PAGES] at hf
      simp [hf]
    have h1 : 1 ≤ unmapped_count (faulted_segment 256) (131072 / PAGE_SIZE)
        ((131072 + 1 - 1) / PAGE_SIZE) :=
      unmapped_count_pos (p := 256) (by decide) (by decide) (by decide)
    omega
  exact ⟨⟨hR1, hL1, by decide, by decide, by decide, hf1,
      (round_trip_when_frames_suffice alloc_state hR1 0 (fresh_segment 8192) hL1 (by decide)
        float_bytes 4 200 (by decide) (by decide)).1 hf1⟩,
    ⟨hR2, hL2, by decide, by decide, by decide, hf2,
      (round_trip_when_frames_suffice (faulted 256) hR2 0 (faulted_segment 256) hL2 (by decide)
        (fun _ => 7) 1 131072 (by decide) (by decide)).2 hf2⟩⟩

end MemMgr
